import Mathlib

/-!
# AnsiCDynStringArray: a dynamic array of C strings

Shallow embedding of `src/src/ansi_c_dynstringarray.c` (with the declarations of
`src/include/ansi_c_dynstringarray.h`) and proofs of the properties the
specification states about it.

Modelling conventions.

* `size_t` values are natural numbers.  The operations that compute with capacities
  come in two readings.  `ansi_c_dynstringarray_resize`, `ansi_c_dynstringarray_push`,
  `ansi_c_dynstringarray_insert` and `ansi_c_dynstringarray_init` take the arithmetic
  on the unbounded naturals, with a block of `new_capacity` slots for
  `new_capacity * sizeof(char*)` bytes.  `ansi_c_dynstringarray_resize64`,
  `ansi_c_dynstringarray_push64`, `ansi_c_dynstringarray_insert64` and
  `ansi_c_dynstringarray_init64` take it modulo 2^64, byte counts included.  The two
  readings give the same result as long as `(capacity + 10) * sizeof(char*)` and
  `(new_size + 10) * sizeof(char*)` stay below 2^64 (`resize64_eq_resize`,
  `push64_eq_push`, `insert64_eq_insert`); statements about a `new_size` that the caller
  chooses are made on the second reading.
* A `char*` held by the container is a `StrPtr`: `NULL`, an owning pointer to a
  live tracked block (with the block's byte size and the C string it holds), or an
  invalid pointer (indeterminate content of fresh memory, or a pointer whose block
  has been freed).  The `char**` buffer is a `DataPtr` in the same way.
* Every operation that can dereference a pointer returns an `Option`; `none` is
  undefined behaviour (NULL or invalid pointer dereferenced, access outside a block).
* The tracked allocator (`ansi_c_mem_track.h`) and the string helpers
  (`ansi_c_macro_utils.h`) are not part of the sources; they are modelled from the
  specification's description of the external interface.  Whether an allocation
  request succeeds is decided by `MemTrack.outcomes`.
-/

namespace AnsiCDynStringArray

/-- Content of a C string: the bytes in front of the terminator. -/
abbrev CStr := List Char

/-- The default capacity of a dynamic string array (the growth block size). -/
def DYNSTRINGARRAY_DEFAULT_CAPACITY : Nat := 10

/-- Allocation mode of the container record. -/
inductive dyn_arr_alloc_mode where
  | DYN_ARR_DYNAMIC
  | DYN_ARR_STATIC
  deriving DecidableEq, Repr

/-- Value of a `char*`: `null` is `NULL`, `str alloc s` points to a live block of
`alloc` bytes that holds the C string `s`, `invalid` is an indeterminate or
dangling pointer. -/
inductive StrPtr where
  | null
  | str (alloc : Nat) (s : CStr)
  | invalid
  deriving DecidableEq, Repr

/-- Value of the `char**` field: `null` is `NULL`, `buf slots` points to a live block
with room for `slots.length` pointers, `invalid` is an indeterminate or dangling
pointer. -/
inductive DataPtr where
  | null
  | buf (slots : List StrPtr)
  | invalid
  deriving DecidableEq, Repr

/-- The record `DynStringArray` of the header. -/
structure DynStringArray where
  data : DataPtr
  size : Nat
  capacity : Nat
  alloc_mode : dyn_arr_alloc_mode
  system_object_id : Nat
  data_object_id : Nat
  deriving DecidableEq, Repr

/-- Modelled from the spec: state of the tracked allocator (`ansi_c_mem_track.h` is
not among the sources).  `outcomes k` tells whether the `k`-th next allocation
request succeeds, `live` lists the grouping token of every live tracked block. -/
structure MemTrack where
  initialized : Bool
  outcomes : Nat → Bool
  next_object_id : Nat
  live : List Nat

/-- Modelled from the spec: one allocation request has been answered; the remaining
outcomes move up. -/
def MemTrack.consume (mt : MemTrack) : MemTrack :=
  { mt with outcomes := fun k => mt.outcomes (k + 1) }

/-- Modelled from the spec: `ansi_c_mem_track_is_initialized`. -/
def ansi_c_mem_track_is_initialized (mt : MemTrack) : Bool :=
  mt.initialized

/-- Modelled from the spec: `ansi_c_mem_track_get_next_object_id`, a fresh grouping
token. -/
def ansi_c_mem_track_get_next_object_id (mt : MemTrack) : Nat × MemTrack :=
  (mt.next_object_id, { mt with next_object_id := mt.next_object_id + 1 })

/-- Modelled from the spec: `ansi_c_mem_track_malloc` for the container record,
`allocate(size, grouping_token) → memory | null`; `true` when the block was
obtained. -/
def ansi_c_mem_track_malloc_record (mt : MemTrack) (objid : Nat) : Bool × MemTrack :=
  if mt.outcomes 0 then (true, { mt.consume with live := objid :: mt.live })
  else (false, mt.consume)

/-- Modelled from the spec: `ansi_c_mem_track_malloc` for a buffer of `n` slots,
`allocate(size, grouping_token) → memory | null`; the content of the new block is
indeterminate. -/
def ansi_c_mem_track_malloc_slots (mt : MemTrack) (n : Nat) (objid : Nat) :
    DataPtr × MemTrack :=
  if mt.outcomes 0 then
    (DataPtr.buf (List.replicate n StrPtr.invalid), { mt.consume with live := objid :: mt.live })
  else (DataPtr.null, mt.consume)

/-- Modelled from the spec: `ansi_c_mem_track_realloc` for the slot buffer,
`reallocate(existing, new_size, grouping_token) → memory | null`: the content is
kept up to the smaller of the old and the new size, a failure leaves the original
block untouched; a `NULL` argument makes it an allocation.  The result is `none`
(undefined) for an invalid pointer; otherwise `some (none, _)` is the `NULL`
answer. -/
def ansi_c_mem_track_realloc_slots (mt : MemTrack) (p : DataPtr) (n : Nat) (objid : Nat) :
    Option (Option (List StrPtr) × MemTrack) :=
  match p with
  | DataPtr.invalid => none
  | DataPtr.null =>
    if mt.outcomes 0 then
      some (some (List.replicate n StrPtr.invalid), { mt.consume with live := objid :: mt.live })
    else some (none, mt.consume)
  | DataPtr.buf d =>
    if mt.outcomes 0 then
      some (some (d.take n ++ List.replicate (n - d.length) StrPtr.invalid), mt.consume)
    else some (none, mt.consume)

/-- Modelled from the spec: `ansi_c_mem_track_realloc` for a string block; the
result pointer is `null` on failure and the original block is left untouched.  The
content is kept up to the smaller of the old and the new size (a string that no
longer fits is cut; a block obtained for a `NULL` argument is shown empty). -/
def ansi_c_mem_track_realloc_str (mt : MemTrack) (p : StrPtr) (n : Nat) (objid : Nat) :
    Option (StrPtr × MemTrack) :=
  match p with
  | StrPtr.invalid => none
  | StrPtr.null =>
    if mt.outcomes 0 then
      some (StrPtr.str n [], { mt.consume with live := objid :: mt.live })
    else some (StrPtr.null, mt.consume)
  | StrPtr.str _ s =>
    if mt.outcomes 0 then some (StrPtr.str n (s.take (n - 1)), mt.consume)
    else some (StrPtr.null, mt.consume)

/-- Modelled from the spec: `ansi_c_mem_track_free`, `free(memory)`: releases one
block.  Returns what the freed pointer is worth afterwards (a freed block leaves a
dangling pointer) and the allocator state; freeing `NULL` does nothing, freeing an
invalid pointer is undefined. -/
def ansi_c_mem_track_free (mt : MemTrack) (p : StrPtr) (objid : Nat) :
    Option (StrPtr × MemTrack) :=
  match p with
  | StrPtr.null => some (StrPtr.null, mt)
  | StrPtr.str _ _ => some (StrPtr.invalid, { mt with live := mt.live.erase objid })
  | StrPtr.invalid => none

/-- Modelled from the spec: `ansi_c_mem_track_free_by_object_id`,
`free_by_group(grouping_token)`: releases every live block tagged with the token. -/
def ansi_c_mem_track_free_by_object_id (mt : MemTrack) (objid : Nat) : MemTrack :=
  { mt with live := mt.live.filter (fun t => t ≠ objid) }

/-- Modelled from the spec: `ansi_c_mem_track_cleanup_allocations`, housekeeping of
the allocator's own table; no effect on live blocks. -/
def ansi_c_mem_track_cleanup_allocations (mt : MemTrack) : MemTrack :=
  mt

/-- Modelled from the spec: the macro `STRDUP(dest, size, src, objid)` of
`ansi_c_macro_utils.h` (not among the sources): "duplicates `value` into newly
allocated, independently-owned storage" of `size + 1` bytes; `dest` is `NULL` when
the allocation fails. -/
def STRDUP (mt : MemTrack) (size : Nat) (src : CStr) (objid : Nat) : StrPtr × MemTrack :=
  if mt.outcomes 0 then
    (StrPtr.str (size + 1) src, { mt.consume with live := objid :: mt.live })
  else (StrPtr.null, mt.consume)

/-- Modelled from the spec: the macro `STRCPY(dest, size, src)` of
`ansi_c_macro_utils.h` (not among the sources): overwrites the bytes of `dest` with
`src` and its terminator.  Undefined when `dest` is not a live block, when `size`
exceeds the block, or when `src` with its terminator does not fit in `size`. -/
def STRCPY (dest : StrPtr) (size : Nat) (src : CStr) : Option StrPtr :=
  match dest with
  | StrPtr.str alloc _ =>
    if size ≤ alloc ∧ src.length < size then some (StrPtr.str alloc src) else none
  | _ => none

/-- Read of `data[i]`: undefined through a `NULL` or invalid buffer pointer and
outside the block. -/
def load_slot (data : DataPtr) (i : Nat) : Option StrPtr :=
  match data with
  | DataPtr.buf d => d[i]?
  | _ => none

/-- Write of `data[i] = v`: undefined through a `NULL` or invalid buffer pointer
and outside the block. -/
def store_slot (data : DataPtr) (i : Nat) (v : StrPtr) : Option DataPtr :=
  match data with
  | DataPtr.buf d => if i < d.length then some (DataPtr.buf (d.set i v)) else none
  | _ => none

/-- The call `memmove(&data[dst], &data[src], n * sizeof(char*))`: the `n` slots
from `src` on are copied to the `n` slots from `dst` on (the ranges may overlap).
Undefined through a `NULL` or invalid buffer pointer and when a range leaves the
block. -/
def memmove_slots (data : DataPtr) (dst src n : Nat) : Option DataPtr :=
  match data with
  | DataPtr.buf d =>
    if src + n ≤ d.length ∧ dst + n ≤ d.length then
      some (DataPtr.buf (d.take dst ++ (d.drop src).take n ++ d.drop (dst + n)))
    else none
  | _ => none

/-- The function `ansi_c_dynstringarray_initdata`. -/
def ansi_c_dynstringarray_initdata (arr : DynStringArray) (mode : dyn_arr_alloc_mode)
    (mt : MemTrack) : Bool × DynStringArray × MemTrack :=
  let capacity := DYNSTRINGARRAY_DEFAULT_CAPACITY
  match ansi_c_mem_track_malloc_slots mt capacity arr.data_object_id with
  | (DataPtr.buf d, mt1) =>
    (true, { arr with data := DataPtr.buf (d.set 0 StrPtr.null), capacity := capacity,
                      size := 0, alloc_mode := mode }, mt1)
  | (_, mt1) => (false, { arr with data := DataPtr.null, capacity := 0 }, mt1)

/-- The function `ansi_c_dynstringarray_create`.  `arr` is the caller's `*arr`
(`none` for `NULL`), `fresh` the indeterminate content of a newly allocated record. -/
def ansi_c_dynstringarray_create (arr : Option DynStringArray) (fresh : DynStringArray)
    (mt : MemTrack) : Int × Option DynStringArray × MemTrack :=
  if !ansi_c_mem_track_is_initialized mt then (0, arr, mt)
  else
    match arr with
    | none =>
      let (sysobjid, mt1) := ansi_c_mem_track_get_next_object_id mt
      match ansi_c_mem_track_malloc_record mt1 sysobjid with
      | (false, mt2) => (-1, none, mt2)
      | (true, mt2) =>
        let (dataid, mt3) := ansi_c_mem_track_get_next_object_id mt2
        let r := { fresh with system_object_id := sysobjid, data_object_id := dataid }
        let res := ansi_c_dynstringarray_initdata r dyn_arr_alloc_mode.DYN_ARR_DYNAMIC mt3
        (0, some res.2.1, res.2.2)
    | some r =>
      let res := ansi_c_dynstringarray_initdata r dyn_arr_alloc_mode.DYN_ARR_STATIC mt
      (0, some res.2.1, res.2.2)

/-- The function `ansi_c_dynstringarray_clear` (`arr` is the caller's `*arr`). -/
def ansi_c_dynstringarray_clear (arr : Option DynStringArray) (mt : MemTrack) :
    Option DynStringArray × MemTrack :=
  match arr with
  | none => (none, mt)
  | some a =>
    let mt1 := ansi_c_mem_track_free_by_object_id mt a.data_object_id
    let a1 := { a with capacity := DYNSTRINGARRAY_DEFAULT_CAPACITY }
    let res := ansi_c_mem_track_malloc_slots mt1 a1.capacity a1.data_object_id
    let new_data :=
      match res.1 with
      | DataPtr.buf d => DataPtr.buf (d.set 0 StrPtr.null)
      | p => p
    (some { a1 with data := new_data, size := 0 }, ansi_c_mem_track_cleanup_allocations res.2)

/-- What a grouped release leaves of the buffer pointer: a released block leaves a
dangling pointer. -/
def DataPtr.released (p : DataPtr) : DataPtr :=
  match p with
  | DataPtr.null => DataPtr.null
  | _ => DataPtr.invalid

/-- The function `ansi_c_dynstringarray_destroy` (`arr` is the caller's `*arr`). -/
def ansi_c_dynstringarray_destroy (arr : Option DynStringArray) (mt : MemTrack) :
    Option DynStringArray × MemTrack :=
  match arr with
  | none => (none, mt)
  | some a =>
    let mt1 := ansi_c_mem_track_free_by_object_id mt a.data_object_id
    let a1 := { a with data := a.data.released, capacity := 0 }
    if a1.alloc_mode = dyn_arr_alloc_mode.DYN_ARR_DYNAMIC then
      let mt2 := ansi_c_mem_track_free_by_object_id mt1 a1.system_object_id
      (none, ansi_c_mem_track_cleanup_allocations mt2)
    else (some a1, ansi_c_mem_track_cleanup_allocations mt1)

/-- The loop `while (new_capacity < new_size) new_capacity += DEFAULT_CAPACITY` of
`ansi_c_dynstringarray_resize`, with a bound on the number of iterations, the addition
taken on the unbounded naturals; `resize_capacity_loop64` is the loop with the addition
modulo 2^64. -/
def resize_capacity_loop : Nat → Nat → Nat → Nat
  | 0, new_capacity, _ => new_capacity
  | fuel + 1, new_capacity, new_size =>
    if new_capacity < new_size then
      resize_capacity_loop fuel (new_capacity + DYNSTRINGARRAY_DEFAULT_CAPACITY) new_size
    else new_capacity

/-- The loop `for (i = new_size; i < arr->size; i++) free(arr->data[i])` of
`ansi_c_dynstringarray_resize`: `n` slots from `i` on are released. -/
def resize_free_loop : Nat → DataPtr → Nat → Nat → MemTrack → Option (DataPtr × MemTrack)
  | 0, data, _, _, mt => some (data, mt)
  | n + 1, data, i, objid, mt =>
    match load_slot data i with
    | none => none
    | some p =>
      match ansi_c_mem_track_free mt p objid with
      | none => none
      | some (p1, mt1) =>
        match store_slot data i p1 with
        | none => none
        | some data1 => resize_free_loop n data1 (i + 1) objid mt1

/-- The loop `for (i = arr->size; i < new_size; i++) new_data[i] = NULL` of
`ansi_c_dynstringarray_resize`: `n` slots from `i` on are set to `NULL`. -/
def resize_null_loop : Nat → List StrPtr → Nat → Option (List StrPtr)
  | 0, new_data, _ => some new_data
  | n + 1, new_data, i =>
    if i < new_data.length then resize_null_loop n (new_data.set i StrPtr.null) (i + 1)
    else none

/-- The function `ansi_c_dynstringarray_resize`, its `size_t` arithmetic taken on the
unbounded naturals: the capacity loop does not wrap around and the reallocated block
has `new_capacity` slots.  `ansi_c_dynstringarray_resize64` is the function with the
arithmetic modulo 2^64; the two agree where `(new_size + 10) * sizeof(char*)` and
`capacity * sizeof(char*)` are below 2^64 (`resize64_eq_resize`). -/
def ansi_c_dynstringarray_resize (arr : DynStringArray) (new_size : Nat) (mt : MemTrack) :
    Option (Int × DynStringArray × MemTrack) :=
  if new_size = arr.size then some (0, arr, mt)
  else if new_size < arr.size then
    match resize_free_loop (arr.size - new_size) arr.data new_size arr.data_object_id mt with
    | none => none
    | some (data1, mt1) => some (0, { arr with data := data1, size := new_size }, mt1)
  else
    let new_capacity := resize_capacity_loop new_size arr.capacity new_size
    match ansi_c_mem_track_realloc_slots mt arr.data new_capacity arr.data_object_id with
    | none => none
    | some (none, mt1) => some (-1, arr, mt1)
    | some (some new_data, mt1) =>
      match resize_null_loop (new_size - arr.size) new_data arr.size with
      | none => none
      | some d =>
        some (0, { arr with data := DataPtr.buf d, capacity := new_capacity, size := new_size },
              mt1)

/-- The function `ansi_c_dynstringarray_push`. -/
def ansi_c_dynstringarray_push (arr : DynStringArray) (value : CStr) (mt : MemTrack) :
    Option (Int × DynStringArray × MemTrack) :=
  let dup := STRDUP mt value.length value arr.data_object_id
  let new_value := dup.1
  if new_value = StrPtr.null then some (-1, arr, dup.2)
  else
    let grown : Option (Int × DynStringArray × MemTrack) :=
      if arr.size = arr.capacity then ansi_c_dynstringarray_resize arr (arr.size + 1) dup.2
      else some (0, { arr with size := arr.size + 1 }, dup.2)
    match grown with
    | none => none
    | some (r, arr1, mt1) =>
      if r ≠ 0 then
        match ansi_c_mem_track_free mt1 new_value arr1.data_object_id with
        | none => none
        | some (_, mt2) => some (-1, arr1, mt2)
      else
        match store_slot arr1.data (arr1.size - 1) new_value with
        | none => none
        | some data1 => some (0, { arr1 with data := data1 }, mt1)

/-- The block `if (buffer && buf_size > 0) { ... }` of `ansi_c_dynstringarray_removeAt`:
the element is copied, cut to `buf_size - 1` bytes, into the caller's buffer and
terminated.  `buffer` is `none` for `NULL`, otherwise the bytes of the caller's
buffer; the result is the buffer after the block. -/
def removeAt_copy (data : DataPtr) (index : Nat) (buffer : Option (List Char))
    (buf_size : Nat) : Option (Option (List Char)) :=
  match buffer with
  | none => some none
  | some b =>
    if buf_size > 0 then
      match load_slot data index with
      | some (StrPtr.str _ s) =>
        let len := if s.length ≥ buf_size then buf_size - 1 else s.length
        if len < b.length then some (some (s.take len ++ [Char.ofNat 0] ++ b.drop (len + 1)))
        else none
      | _ => none
    else some (some b)

/-- The function `ansi_c_dynstringarray_removeAt`.  `buffer` is the caller's output
buffer (`none` for `NULL`, otherwise its bytes); the result carries the buffer's
bytes after the call. -/
def ansi_c_dynstringarray_removeAt (arr : DynStringArray) (index : Nat)
    (buffer : Option (List Char)) (buf_size : Nat) (mt : MemTrack) :
    Option (Nat × DynStringArray × Option (List Char) × MemTrack) :=
  if index ≥ arr.size then some (arr.size, arr, buffer, mt)
  else
    match removeAt_copy arr.data index buffer buf_size with
    | none => none
    | some buffer1 =>
      match load_slot arr.data index with
      | none => none
      | some p =>
        match ansi_c_mem_track_free mt p arr.data_object_id with
        | none => none
        | some (p1, mt1) =>
          match store_slot arr.data index p1 with
          | none => none
          | some data1 =>
            let moved : Option DataPtr :=
              if index < arr.size - 1 then
                memmove_slots data1 index (index + 1) (arr.size - index - 1)
              else some data1
            match moved with
            | none => none
            | some data2 =>
              some (arr.size - 1, { arr with data := data2, size := arr.size - 1 }, buffer1, mt1)

/-- The function `ansi_c_dynstringarray_size`. -/
def ansi_c_dynstringarray_size (arr : DynStringArray) : Nat :=
  arr.size

/-- The loop of `ansi_c_dynstringarray_init`: every value is pushed, the result of
the push is not looked at. -/
def init_loop : DynStringArray → List CStr → MemTrack → Option (DynStringArray × MemTrack)
  | arr, [], mt => some (arr, mt)
  | arr, value :: rest, mt =>
    match ansi_c_dynstringarray_push arr value mt with
    | none => none
    | some (_, arr1, mt1) => init_loop arr1 rest mt1

/-- The function `ansi_c_dynstringarray_init`; `values` are the `count` variadic
arguments. -/
def ansi_c_dynstringarray_init (arr : Option DynStringArray) (values : List CStr)
    (mt : MemTrack) : Option (Option DynStringArray × MemTrack) :=
  match arr with
  | none => some (none, mt)
  | some a =>
    match ansi_c_dynstringarray_clear (some a) mt with
    | (none, mt1) => some (none, mt1)
    | (some a1, mt1) =>
      match init_loop a1 values mt1 with
      | none => none
      | some (a2, mt2) => some (some a2, mt2)

/-- The function `ansi_c_dynstringarray_get`; the result is the returned pointer. -/
def ansi_c_dynstringarray_get (arr : DynStringArray) (index : Nat) : Option StrPtr :=
  if index ≥ arr.size then some StrPtr.null
  else load_slot arr.data index

/-- The function `ansi_c_dynstringarray_set`. -/
def ansi_c_dynstringarray_set (arr : DynStringArray) (index : Nat) (value : CStr)
    (mt : MemTrack) : Option (Int × DynStringArray × MemTrack) :=
  if index ≥ arr.size then some (-1, arr, mt)
  else
    let new_str_len := value.length
    let new_buff_size := new_str_len + 1
    match load_slot arr.data index with
    | some (StrPtr.str alloc s) =>
      if s.length < value.length then
        match ansi_c_mem_track_realloc_str mt (StrPtr.str alloc s) new_buff_size
            arr.data_object_id with
        | none => none
        | some (StrPtr.null, mt1) =>
          match store_slot arr.data index StrPtr.null with
          | none => none
          | some data1 => some (-1, { arr with data := data1 }, mt1)
        | some (p, mt1) =>
          match STRCPY p new_buff_size value with
          | none => none
          | some p1 =>
            match store_slot arr.data index p1 with
            | none => none
            | some data1 => some (0, { arr with data := data1 }, mt1)
      else
        match STRCPY (StrPtr.str alloc s) new_buff_size value with
        | none => none
        | some p1 =>
          match store_slot arr.data index p1 with
          | none => none
          | some data1 => some (0, { arr with data := data1 }, mt)
    | _ => none

/-- The function `ansi_c_dynstringarray_insert`. -/
def ansi_c_dynstringarray_insert (arr : DynStringArray) (index : Nat) (value : CStr)
    (mt : MemTrack) : Option (Int × DynStringArray × MemTrack) :=
  if index > arr.size then some (-1, arr, mt)
  else if index = arr.size then ansi_c_dynstringarray_push arr value mt
  else
    let grown : Option (Int × DynStringArray × MemTrack) :=
      if arr.size = arr.capacity then
        let new_capacity := arr.capacity + DYNSTRINGARRAY_DEFAULT_CAPACITY
        match ansi_c_mem_track_realloc_slots mt arr.data new_capacity arr.data_object_id with
        | none => none
        | some (none, mt1) => some (-1, arr, mt1)
        | some (some new_data, mt1) =>
          some (0, { arr with data := DataPtr.buf new_data, capacity := new_capacity }, mt1)
      else some (0, arr, mt)
    match grown with
    | none => none
    | some (r, arr1, mt1) =>
      if r ≠ 0 then some (-1, arr1, mt1)
      else
        match memmove_slots arr1.data (index + 1) index (arr1.size - index) with
        | none => none
        | some data1 =>
          let dup := STRDUP mt1 value.length value arr1.data_object_id
          match store_slot data1 index dup.1 with
          | none => none
          | some data2 => some (0, { arr1 with data := data2, size := arr1.size + 1 }, dup.2)

/-- The C string a returned pointer designates, if it designates one. -/
def StrPtr.cstr (p : StrPtr) : Option CStr :=
  match p with
  | StrPtr.str _ s => some s
  | _ => none

/-- A sequence of `ansi_c_dynstringarray_push` calls, one per value, in order; the
result carries the return code of every call. -/
def push_all : DynStringArray → List CStr → MemTrack →
    Option (List Int × DynStringArray × MemTrack)
  | arr, [], mt => some ([], arr, mt)
  | arr, value :: rest, mt =>
    match ansi_c_dynstringarray_push arr value mt with
    | none => none
    | some (r, arr1, mt1) =>
      match push_all arr1 rest mt1 with
      | none => none
      | some (rs, arr2, mt2) => some (r :: rs, arr2, mt2)

/-- The values of a push sequence whose push returned 0, in order. -/
def pushed_values : List Int → List CStr → List CStr
  | r :: rs, v :: vs => if r = 0 then v :: pushed_values rs vs else pushed_values rs vs
  | _, _ => []

/-- Buffer validity as the data model states it: with capacity 0 the buffer is
unallocated, otherwise it is a live block with room for at least `capacity` slots. -/
def buffer_valid (arr : DynStringArray) : Prop :=
  match arr.data with
  | DataPtr.buf d => arr.capacity ≤ d.length
  | DataPtr.null => arr.capacity = 0
  | DataPtr.invalid => False

instance buffer_valid_decidable (arr : DynStringArray) : Decidable (buffer_valid arr) :=
  match h : arr.data with
  | DataPtr.buf d =>
    if hc : arr.capacity ≤ d.length then isTrue (by simp [buffer_valid, h, hc])
    else isFalse (by simp [buffer_valid, h, hc])
  | DataPtr.null =>
    if hc : arr.capacity = 0 then isTrue (by simp [buffer_valid, h, hc])
    else isFalse (by simp [buffer_valid, h, hc])
  | DataPtr.invalid => isFalse (by simp [buffer_valid, h])

/-- The invariants of the data model: `count ≤ capacity` and buffer validity. -/
def DynStringArray.valid (arr : DynStringArray) : Prop :=
  arr.size ≤ arr.capacity ∧ buffer_valid arr

instance valid_decidable (arr : DynStringArray) : Decidable arr.valid :=
  inferInstanceAs (Decidable (arr.size ≤ arr.capacity ∧ buffer_valid arr))

/-- Every slot below `count` holds a string (a pointer to a live block). -/
def holds_strings (arr : DynStringArray) : Prop :=
  ∀ k, k < arr.size → ∃ alloc s, load_slot arr.data k = some (StrPtr.str alloc s)

/-- What the public interface shows of a container besides its elements. -/
def core (arr : DynStringArray) : DataPtr × Nat × Nat :=
  (arr.data, arr.size, arr.capacity)

/-- What a result of `resize`, `push`, `set` or `insert` shows: return code, the
container's buffer, size and capacity, and the allocator's remaining outcomes. -/
def shown (r : Option (Int × DynStringArray × MemTrack)) :
    Option (Int × (DataPtr × Nat × Nat) × (Nat → Bool)) :=
  r.map (fun x => (x.1, core x.2.1, x.2.2.outcomes))

/-- An allocator state, for concrete runs, in which every request succeeds. -/
def tracker_all_ok : MemTrack :=
  { initialized := true, outcomes := fun _ => true, next_object_id := 0, live := [] }

/-- An allocator state, for concrete runs, in which every request fails. -/
def tracker_all_fail : MemTrack :=
  { initialized := true, outcomes := fun _ => false, next_object_id := 0, live := [] }

/-- An allocator state, for concrete runs, in which only the second request fails. -/
def tracker_second_fails : MemTrack :=
  { initialized := true, outcomes := fun k => k != 1, next_object_id := 0, live := [] }

/-- Some indeterminate content of a record, for concrete runs. -/
def record_garbage : DynStringArray :=
  { data := DataPtr.invalid, size := 77, capacity := 55,
    alloc_mode := dyn_arr_alloc_mode.DYN_ARR_STATIC, system_object_id := 5,
    data_object_id := 6 }

/-- The container a successful `create(NULL)` leaves under `tracker_all_ok`. -/
def created_example : DynStringArray :=
  { data := DataPtr.buf (StrPtr.null :: List.replicate 9 StrPtr.invalid), size := 0,
    capacity := 10, alloc_mode := dyn_arr_alloc_mode.DYN_ARR_DYNAMIC, system_object_id := 0,
    data_object_id := 1 }

/-- Twelve values, more than one capacity block. -/
def twelve_values : List CStr :=
  ["a".toList, "b".toList, "c".toList, "d".toList, "e".toList, "f".toList,
   "g".toList, "h".toList, "i".toList, "j".toList, "k".toList, "l".toList]

/-- A container holding `hello`, `world`, `foo` in a buffer of one block. -/
def three_example : DynStringArray :=
  { data := DataPtr.buf ([StrPtr.str 6 "hello".toList, StrPtr.str 6 "world".toList,
      StrPtr.str 4 "foo".toList] ++ List.replicate 7 StrPtr.invalid),
    size := 3, capacity := 10, alloc_mode := dyn_arr_alloc_mode.DYN_ARR_DYNAMIC,
    system_object_id := 0, data_object_id := 1 }

/-- A container whose single block is full: ten strings, capacity ten. -/
def full_example : DynStringArray :=
  { data := DataPtr.buf ((twelve_values.take 10).map (fun v => StrPtr.str (v.length + 1) v)),
    size := 10, capacity := 10, alloc_mode := dyn_arr_alloc_mode.DYN_ARR_DYNAMIC,
    system_object_id := 0, data_object_id := 1 }

/-- A caller's output buffer of ten bytes, for concrete runs. -/
def ten_bytes : List Char := "0123456789".toList

/-- The return codes of the pushes `ansi_c_dynstringarray_init` makes: the container
is cleared, then every value is pushed. -/
def init_push_results (arr : DynStringArray) (values : List CStr) (mt : MemTrack) :
    Option (List Int) :=
  match ansi_c_dynstringarray_clear (some arr) mt with
  | (some a1, mt1) => (push_all a1 values mt1).map Prod.fst
  | (none, _) => none

/-- Two values, for concrete runs. -/
def two_values : List CStr := ["a".toList, "b".toList]

/-- An allocator state, for concrete runs, of a tracker that has not been
initialised. -/
def tracker_uninitialised : MemTrack :=
  { initialized := false, outcomes := fun _ => true, next_object_id := 0, live := [] }

/-- The container `hello`, `world`, `foo` in a record supplied by the caller. -/
def static_example : DynStringArray :=
  { three_example with alloc_mode := dyn_arr_alloc_mode.DYN_ARR_STATIC }

/-- The container `hello`, `world`, `foo` after `resize(5)`: two `NULL` slots follow
the three strings. -/
def resized_example : DynStringArray :=
  { data := DataPtr.buf ([StrPtr.str 6 "hello".toList, StrPtr.str 6 "world".toList,
      StrPtr.str 4 "foo".toList, StrPtr.null, StrPtr.null] ++
      List.replicate 5 StrPtr.invalid),
    size := 5, capacity := 10, alloc_mode := dyn_arr_alloc_mode.DYN_ARR_DYNAMIC,
    system_object_id := 0, data_object_id := 1 }

/-- A container with three elements in a buffer of two blocks, as left by pushing
more than ten values and removing all but three. -/
def roomy_example : DynStringArray :=
  { data := DataPtr.buf ([StrPtr.str 6 "hello".toList, StrPtr.str 6 "world".toList,
      StrPtr.str 4 "foo".toList] ++ List.replicate 17 StrPtr.invalid),
    size := 3, capacity := 20, alloc_mode := dyn_arr_alloc_mode.DYN_ARR_DYNAMIC,
    system_object_id := 0, data_object_id := 1 }

/-- The smallest multiple of the block size that is at least `n`, in the words of
the specification of `resize`. -/
def smallest_block_multiple (n : Nat) : Nat :=
  (n + (DYNSTRINGARRAY_DEFAULT_CAPACITY - 1)) / DYNSTRINGARRAY_DEFAULT_CAPACITY *
    DYNSTRINGARRAY_DEFAULT_CAPACITY

/-- The container `hello`, `world`, `foo` after a clearing whose buffer allocation
failed. -/
def failed_clear_example : DynStringArray :=
  { three_example with data := DataPtr.null, capacity := 10, size := 0 }

/-- The number of values of a 64-bit unsigned `size_t`, 2^64. -/
def SIZE_T_RANGE : Nat := 18446744073709551616

/-- The loop `while (new_capacity < new_size) new_capacity += DEFAULT_CAPACITY` of
`ansi_c_dynstringarray_resize` with `size_t` as a 64-bit unsigned integer: the
addition wraps around.  `fuel` bounds the number of evaluations of the loop test;
`none` says that the loop is still running when the bound is reached.  The result
carries the final `new_capacity` and whether an addition has wrapped around. -/
def resize_capacity_loop64 : Nat → Nat → Nat → Option (Nat × Bool)
  | 0, _, _ => none
  | fuel + 1, new_capacity, new_size =>
    if new_capacity < new_size then
      match resize_capacity_loop64 fuel
          ((new_capacity + DYNSTRINGARRAY_DEFAULT_CAPACITY) % SIZE_T_RANGE) new_size with
      | none => none
      | some (c, wrapped) =>
        some (c, wrapped || decide (SIZE_T_RANGE ≤ new_capacity + DYNSTRINGARRAY_DEFAULT_CAPACITY))
    else some (new_capacity, false)

/-- A pointer fits when the block it designates has room for the string it holds and
its terminator; `NULL` and invalid pointers designate no block. -/
def StrPtr.fits (p : StrPtr) : Prop :=
  match p with
  | StrPtr.str alloc s => s.length + 1 ≤ alloc
  | _ => True

/-- Every pointer to a live block in the buffer fits. -/
def slots_fit (data : DataPtr) : Prop :=
  match data with
  | DataPtr.buf d => ∀ p ∈ d, p.fits
  | _ => True

/-- One returning call of a public operation: `op_step a b` says that a call of push,
insert, set, removeAt, resize, init, clear or destroy on the record `a`, with some
arguments and some state of the allocator, leaves the record `b`. -/
inductive op_step : DynStringArray → DynStringArray → Prop where
  | push (a b : DynStringArray) (v : CStr) (mt m1 : MemTrack) (r : Int) :
      ansi_c_dynstringarray_push a v mt = some (r, b, m1) → op_step a b
  | insert (a b : DynStringArray) (i : Nat) (v : CStr) (mt m1 : MemTrack) (r : Int) :
      ansi_c_dynstringarray_insert a i v mt = some (r, b, m1) → op_step a b
  | set (a b : DynStringArray) (i : Nat) (v : CStr) (mt m1 : MemTrack) (r : Int) :
      ansi_c_dynstringarray_set a i v mt = some (r, b, m1) → op_step a b
  | removeAt (a b : DynStringArray) (i : Nat) (buffer out : Option (List Char))
      (buf_size r : Nat) (mt m1 : MemTrack) :
      ansi_c_dynstringarray_removeAt a i buffer buf_size mt = some (r, b, out, m1) →
      op_step a b
  | resize (a b : DynStringArray) (n : Nat) (mt m1 : MemTrack) (r : Int) :
      ansi_c_dynstringarray_resize a n mt = some (r, b, m1) → op_step a b
  | init (a b : DynStringArray) (values : List CStr) (mt m1 : MemTrack) :
      ansi_c_dynstringarray_init (some a) values mt = some (some b, m1) → op_step a b
  | clear (a b : DynStringArray) (mt m1 : MemTrack) :
      ansi_c_dynstringarray_clear (some a) mt = (some b, m1) → op_step a b
  | destroy (a b : DynStringArray) (mt m1 : MemTrack) :
      ansi_c_dynstringarray_destroy (some a) mt = (some b, m1) → op_step a b

/-- The records reachable from `ansi_c_dynstringarray_create`, called with the
tracker initialised, through returning calls of the public operations, under any
allocator outcomes. -/
inductive reachable : DynStringArray → Prop where
  | create (caller : Option DynStringArray) (fresh a : DynStringArray) (mt m1 : MemTrack)
      (ret : Int) :
      mt.initialized = true →
      ansi_c_dynstringarray_create caller fresh mt = (ret, some a, m1) → reachable a
  | step (a b : DynStringArray) : reachable a → op_step a b → reachable b

/-- The size in bytes of a `char*`, the element type of the buffer, where `size_t` has
64 bits. -/
def SIZEOF_CHAR_PTR : Nat := 8

/-- The number of whole `char*` slots in `n * sizeof(char*)` bytes, the product taken
in 64-bit `size_t` arithmetic, as `realloc` and `memmove` receive it. -/
def wrapped_slot_count (n : Nat) : Nat :=
  (n * SIZEOF_CHAR_PTR) % SIZE_T_RANGE / SIZEOF_CHAR_PTR

/-- The function `ansi_c_dynstringarray_resize` with `size_t` as a 64-bit unsigned
integer.  The capacity loop wraps around and may run forever: `fuel` bounds the
evaluations of its test and the result is `none` when the bound is reached.  The
reallocation is asked for `new_capacity * sizeof(char*)` bytes, a product that wraps
around as well, so the block it returns may have fewer slots than `new_size`; writing
`NULL` past the block is undefined (`none`). -/
def ansi_c_dynstringarray_resize64 (fuel : Nat) (arr : DynStringArray) (new_size : Nat)
    (mt : MemTrack) : Option (Int × DynStringArray × MemTrack) :=
  if new_size = arr.size then some (0, arr, mt)
  else if new_size < arr.size then
    match resize_free_loop (arr.size - new_size) arr.data new_size arr.data_object_id mt with
    | none => none
    | some (data1, mt1) => some (0, { arr with data := data1, size := new_size }, mt1)
  else
    match resize_capacity_loop64 fuel arr.capacity new_size with
    | none => none
    | some (new_capacity, _) =>
      match ansi_c_mem_track_realloc_slots mt arr.data (wrapped_slot_count new_capacity)
          arr.data_object_id with
      | none => none
      | some (none, mt1) => some (-1, arr, mt1)
      | some (some new_data, mt1) =>
        match resize_null_loop (new_size - arr.size) new_data arr.size with
        | none => none
        | some d =>
          some (0, { arr with data := DataPtr.buf d, capacity := new_capacity,
                              size := new_size }, mt1)

/-- The function `ansi_c_dynstringarray_push` with `size_t` as a 64-bit unsigned
integer: `arr->size + 1`, `arr->size++` and `arr->size - 1` wrap around, and growth
goes through `ansi_c_dynstringarray_resize64`. -/
def ansi_c_dynstringarray_push64 (fuel : Nat) (arr : DynStringArray) (value : CStr)
    (mt : MemTrack) : Option (Int × DynStringArray × MemTrack) :=
  let dup := STRDUP mt value.length value arr.data_object_id
  let new_value := dup.1
  if new_value = StrPtr.null then some (-1, arr, dup.2)
  else
    let grown : Option (Int × DynStringArray × MemTrack) :=
      if arr.size = arr.capacity then
        ansi_c_dynstringarray_resize64 fuel arr ((arr.size + 1) % SIZE_T_RANGE) dup.2
      else some (0, { arr with size := (arr.size + 1) % SIZE_T_RANGE }, dup.2)
    match grown with
    | none => none
    | some (r, arr1, mt1) =>
      if r ≠ 0 then
        match ansi_c_mem_track_free mt1 new_value arr1.data_object_id with
        | none => none
        | some (_, mt2) => some (-1, arr1, mt2)
      else
        match store_slot arr1.data ((arr1.size + (SIZE_T_RANGE - 1)) % SIZE_T_RANGE)
            new_value with
        | none => none
        | some data1 => some (0, { arr1 with data := data1 }, mt1)

/-- The function `ansi_c_dynstringarray_insert` with `size_t` as a 64-bit unsigned
integer: `arr->capacity + DYNSTRINGARRAY_DEFAULT_CAPACITY`, the byte counts
`new_capacity * sizeof(char*)` and `(arr->size - index) * sizeof(char*)`, and
`arr->size++` wrap around. -/
def ansi_c_dynstringarray_insert64 (fuel : Nat) (arr : DynStringArray) (index : Nat)
    (value : CStr) (mt : MemTrack) : Option (Int × DynStringArray × MemTrack) :=
  if index > arr.size then some (-1, arr, mt)
  else if index = arr.size then ansi_c_dynstringarray_push64 fuel arr value mt
  else
    let grown : Option (Int × DynStringArray × MemTrack) :=
      if arr.size = arr.capacity then
        let new_capacity := (arr.capacity + DYNSTRINGARRAY_DEFAULT_CAPACITY) % SIZE_T_RANGE
        match ansi_c_mem_track_realloc_slots mt arr.data (wrapped_slot_count new_capacity)
            arr.data_object_id with
        | none => none
        | some (none, mt1) => some (-1, arr, mt1)
        | some (some new_data, mt1) =>
          some (0, { arr with data := DataPtr.buf new_data, capacity := new_capacity }, mt1)
      else some (0, arr, mt)
    match grown with
    | none => none
    | some (r, arr1, mt1) =>
      if r ≠ 0 then some (-1, arr1, mt1)
      else
        match memmove_slots arr1.data (index + 1) index
            (wrapped_slot_count (arr1.size - index)) with
        | none => none
        | some data1 =>
          let dup := STRDUP mt1 value.length value arr1.data_object_id
          match store_slot data1 index dup.1 with
          | none => none
          | some data2 =>
            some (0, { arr1 with data := data2, size := (arr1.size + 1) % SIZE_T_RANGE },
                  dup.2)

/-- The loop of `ansi_c_dynstringarray_init` over its values, each pushed with
`ansi_c_dynstringarray_push64`; the return code of the push is not looked at. -/
def init_loop64 (fuel : Nat) :
    DynStringArray → List CStr → MemTrack → Option (DynStringArray × MemTrack)
  | arr, [], mt => some (arr, mt)
  | arr, value :: rest, mt =>
    match ansi_c_dynstringarray_push64 fuel arr value mt with
    | none => none
    | some (_, arr1, mt1) => init_loop64 fuel arr1 rest mt1

/-- The function `ansi_c_dynstringarray_init` with `size_t` as a 64-bit unsigned
integer. -/
def ansi_c_dynstringarray_init64 (fuel : Nat) (arr : Option DynStringArray)
    (values : List CStr) (mt : MemTrack) : Option (Option DynStringArray × MemTrack) :=
  match arr with
  | none => some (none, mt)
  | some a =>
    match ansi_c_dynstringarray_clear (some a) mt with
    | (none, mt1) => some (none, mt1)
    | (some a1, mt1) =>
      match init_loop64 fuel a1 values mt1 with
      | none => none
      | some (a2, mt2) => some (some a2, mt2)

/-- One returning call of a public operation with `size_t` as a 64-bit unsigned
integer: `op_step64 a b` says that a call of push, insert, set, removeAt, resize, init,
clear or destroy on the record `a`, with some arguments, some state of the allocator
and some bound on the capacity loop, returns and leaves the record `b`. -/
inductive op_step64 : DynStringArray → DynStringArray → Prop where
  | push (a b : DynStringArray) (v : CStr) (mt m1 : MemTrack) (r : Int) (fuel : Nat) :
      ansi_c_dynstringarray_push64 fuel a v mt = some (r, b, m1) → op_step64 a b
  | insert (a b : DynStringArray) (i : Nat) (v : CStr) (mt m1 : MemTrack) (r : Int)
      (fuel : Nat) :
      ansi_c_dynstringarray_insert64 fuel a i v mt = some (r, b, m1) → op_step64 a b
  | set (a b : DynStringArray) (i : Nat) (v : CStr) (mt m1 : MemTrack) (r : Int) :
      ansi_c_dynstringarray_set a i v mt = some (r, b, m1) → op_step64 a b
  | removeAt (a b : DynStringArray) (i : Nat) (buffer out : Option (List Char))
      (buf_size r : Nat) (mt m1 : MemTrack) :
      ansi_c_dynstringarray_removeAt a i buffer buf_size mt = some (r, b, out, m1) →
      op_step64 a b
  | resize (a b : DynStringArray) (n : Nat) (mt m1 : MemTrack) (r : Int) (fuel : Nat) :
      ansi_c_dynstringarray_resize64 fuel a n mt = some (r, b, m1) → op_step64 a b
  | init (a b : DynStringArray) (values : List CStr) (mt m1 : MemTrack) (fuel : Nat) :
      ansi_c_dynstringarray_init64 fuel (some a) values mt = some (some b, m1) →
      op_step64 a b
  | clear (a b : DynStringArray) (mt m1 : MemTrack) :
      ansi_c_dynstringarray_clear (some a) mt = (some b, m1) → op_step64 a b
  | destroy (a b : DynStringArray) (mt m1 : MemTrack) :
      ansi_c_dynstringarray_destroy (some a) mt = (some b, m1) → op_step64 a b

/-- The records reachable from `ansi_c_dynstringarray_create`, called with the tracker
initialised, through returning calls of the public operations with `size_t` as a
64-bit unsigned integer, under any allocator outcomes. -/
inductive reachable64 : DynStringArray → Prop where
  | create (caller : Option DynStringArray) (fresh a : DynStringArray) (mt m1 : MemTrack)
      (ret : Int) :
      mt.initialized = true →
      ansi_c_dynstringarray_create caller fresh mt = (ret, some a, m1) → reachable64 a
  | step (a b : DynStringArray) : reachable64 a → op_step64 a b → reachable64 b

/-! ## Lemmas -/

theorem resize_capacity_loop_ge_start (fuel c n : Nat) : c ≤ resize_capacity_loop fuel c n := by
  induction fuel generalizing c with
  | zero => simp [resize_capacity_loop]
  | succ f ih =>
    simp only [resize_capacity_loop]
    split
    · exact Nat.le_trans (Nat.le_add_right _ _) (ih _)
    · exact Nat.le_refl _

theorem resize_capacity_loop_reaches (fuel c n : Nat) (h : n - c ≤ fuel) :
    n ≤ resize_capacity_loop fuel c n := by
  induction fuel generalizing c with
  | zero => simp [resize_capacity_loop]; omega
  | succ f ih =>
    simp only [resize_capacity_loop]
    split
    · apply ih
      simp only [DYNSTRINGARRAY_DEFAULT_CAPACITY]
      omega
    · omega

theorem resize_capacity_loop_full (s : Nat) :
    resize_capacity_loop (s + 1) s (s + 1) = s + DYNSTRINGARRAY_DEFAULT_CAPACITY := by
  cases s with
  | zero => simp [resize_capacity_loop]
  | succ k => simp [resize_capacity_loop, DYNSTRINGARRAY_DEFAULT_CAPACITY]

theorem resize_null_loop_spec (n : Nat) (d : List StrPtr) (i : Nat) (h : i + n ≤ d.length) :
    ∃ d1, resize_null_loop n d i = some d1 ∧ d1.length = d.length ∧
      ∀ k, d1[k]? = if i ≤ k ∧ k < i + n then some StrPtr.null else d[k]? := by
  induction n generalizing d i with
  | zero =>
    refine ⟨d, by simp [resize_null_loop], rfl, ?_⟩
    intro k
    rw [if_neg (by omega)]
  | succ m ih =>
    have hi : i < d.length := by omega
    obtain ⟨d1, h1, h2, h3⟩ := ih (d.set i StrPtr.null) (i + 1) (by simp; omega)
    refine ⟨d1, by simp [resize_null_loop, hi, h1], by simpa using h2, ?_⟩
    intro k
    rw [h3 k]
    by_cases hk : i = k
    · subst hk
      have : ¬ (i + 1 ≤ i ∧ i < i + 1 + m) := by omega
      simp [this, hi]
    · by_cases hk2 : i + 1 ≤ k ∧ k < i + 1 + m
      · have : i ≤ k ∧ k < i + (m + 1) := by omega
        simp [hk2, this]
      · have : ¬ (i ≤ k ∧ k < i + (m + 1)) := by omega
        simp [hk2, this, List.getElem?_set_ne hk]

theorem push_dup_fails (arr : DynStringArray) (v : CStr) (mt : MemTrack)
    (h : mt.outcomes 0 = false) :
    ansi_c_dynstringarray_push arr v mt = some (-1, arr, mt.consume) := by
  simp [ansi_c_dynstringarray_push, STRDUP, h]

theorem push_with_room (arr : DynStringArray) (v : CStr) (mt : MemTrack) (d : List StrPtr)
    (h : mt.outcomes 0 = true) (hd : arr.data = DataPtr.buf d) (hne : arr.size ≠ arr.capacity)
    (hlt : arr.size < d.length) :
    ansi_c_dynstringarray_push arr v mt =
      some (0, { arr with data := DataPtr.buf (d.set arr.size (StrPtr.str (v.length + 1) v)),
                          size := arr.size + 1 },
            { mt.consume with live := arr.data_object_id :: mt.live }) := by
  simp [ansi_c_dynstringarray_push, STRDUP, h, hne, store_slot, hd, hlt]
theorem free_congr (m1 m2 : MemTrack) (p : StrPtr) (i1 i2 : Nat)
    (ho : m1.outcomes = m2.outcomes) :
    (ansi_c_mem_track_free m1 p i1).map (fun x => (x.1, x.2.outcomes)) =
      (ansi_c_mem_track_free m2 p i2).map (fun x => (x.1, x.2.outcomes)) := by
  cases p <;> simp [ansi_c_mem_track_free, ho]

theorem resize_free_loop_congr (n : Nat) (data : DataPtr) (i i1 i2 : Nat) (m1 m2 : MemTrack)
    (ho : m1.outcomes = m2.outcomes) :
    (resize_free_loop n data i i1 m1).map (fun x => (x.1, x.2.outcomes)) =
      (resize_free_loop n data i i2 m2).map (fun x => (x.1, x.2.outcomes)) := by
  induction n generalizing data i m1 m2 with
  | zero => simp [resize_free_loop, ho]
  | succ k ih =>
    simp only [resize_free_loop]
    cases hl : load_slot data i with
    | none => simp
    | some p =>
      cases p with
      | invalid => simp [ansi_c_mem_track_free]
      | null =>
        simp only [ansi_c_mem_track_free]
        cases store_slot data i StrPtr.null with
        | none => simp
        | some d1 => exact ih d1 (i + 1) m1 m2 ho
      | str al s =>
        simp only [ansi_c_mem_track_free]
        cases store_slot data i StrPtr.invalid with
        | none => simp
        | some d1 => exact ih d1 (i + 1) _ _ ho

theorem realloc_slots_congr (m1 m2 : MemTrack) (p : DataPtr) (n i1 i2 : Nat)
    (ho : m1.outcomes = m2.outcomes) :
    (ansi_c_mem_track_realloc_slots m1 p n i1).map (fun x => (x.1, x.2.outcomes)) =
      (ansi_c_mem_track_realloc_slots m2 p n i2).map (fun x => (x.1, x.2.outcomes)) := by
  cases p <;> simp [ansi_c_mem_track_realloc_slots, ho, MemTrack.consume] <;>
    split <;> simp

theorem resize_congr (a b : DynStringArray) (n : Nat) (m1 m2 : MemTrack)
    (hc : core a = core b) (ho : m1.outcomes = m2.outcomes) :
    shown (ansi_c_dynstringarray_resize a n m1) = shown (ansi_c_dynstringarray_resize b n m2) := by
  obtain ⟨ad, as, ac, am, asi, adi⟩ := a
  obtain ⟨bd, bs, bc, bm, bsi, bdi⟩ := b
  simp only [core, Prod.mk.injEq] at hc
  obtain ⟨h1, h2, h3⟩ := hc
  subst h1 h2 h3
  simp only [ansi_c_dynstringarray_resize, shown]
  split
  · simp [core, ho]
  · split
    · have hf := resize_free_loop_congr (as - n) ad n adi bdi m1 m2 ho
      cases h1 : resize_free_loop (as - n) ad n adi m1 with
      | none =>
        cases h2 : resize_free_loop (as - n) ad n bdi m2 with
        | none => simp
        | some y => simp [h1, h2] at hf
      | some x =>
        cases h2 : resize_free_loop (as - n) ad n bdi m2 with
        | none => simp [h1, h2] at hf
        | some y =>
          simp only [h1, h2, Option.map_some', Option.some.injEq, Prod.mk.injEq] at hf
          simp [core, hf]
    · have hf := realloc_slots_congr m1 m2 ad (resize_capacity_loop n ac n) adi bdi ho
      cases h1 : ansi_c_mem_track_realloc_slots m1 ad (resize_capacity_loop n ac n) adi with
      | none =>
        cases h2 : ansi_c_mem_track_realloc_slots m2 ad (resize_capacity_loop n ac n) bdi with
        | none => simp
        | some y => simp [h1, h2] at hf
      | some x =>
        cases h2 : ansi_c_mem_track_realloc_slots m2 ad (resize_capacity_loop n ac n) bdi with
        | none => simp [h1, h2] at hf
        | some y =>
          simp [h1, h2] at hf
          obtain ⟨x1, x2⟩ := x
          obtain ⟨y1, y2⟩ := y
          simp at hf
          obtain ⟨hp, ho2⟩ := hf
          subst hp
          cases x1 with
          | none => simp [core, ho2]
          | some nd =>
            simp only []
            cases resize_null_loop (n - as) nd as with
            | none => simp
            | some d => simp [core, ho2]
theorem push_congr (a b : DynStringArray) (v : CStr) (m1 m2 : MemTrack)
    (hc : core a = core b) (ho : m1.outcomes = m2.outcomes) :
    shown (ansi_c_dynstringarray_push a v m1) = shown (ansi_c_dynstringarray_push b v m2) := by
  obtain ⟨ad, as, ac, am, asi, adi⟩ := a
  obtain ⟨bd, bs, bc, bm, bsi, bdi⟩ := b
  simp only [core, Prod.mk.injEq] at hc
  obtain ⟨h1, h2, h3⟩ := hc
  subst h1 h2 h3
  have hoc : m1.consume.outcomes = m2.consume.outcomes := by
    simp [MemTrack.consume, ho]
  unfold ansi_c_dynstringarray_push
  simp only [STRDUP, ← ho]
  by_cases hm : m1.outcomes 0 = true
  · simp only [hm, if_true, reduceCtorEq, if_false]
    by_cases hfull : as = ac
    · simp only [hfull, if_true]
      generalize hR1 : ansi_c_dynstringarray_resize _ _ _ = R1
      generalize hR2 : ansi_c_dynstringarray_resize _ _ _ = R2
      have hr : shown R1 = shown R2 := by
        rw [← hR1, ← hR2]
        exact resize_congr _ _ _ _ _ rfl hoc
      cases R1 with
      | none =>
        cases R2 with
        | none => rfl
        | some y => simp [shown] at hr
      | some x =>
        cases R2 with
        | none => simp [shown] at hr
        | some y =>
          simp only [shown, Option.map_some', Option.some.injEq, Prod.mk.injEq] at hr
          obtain ⟨xr, xa, xm⟩ := x
          obtain ⟨yr, ya, ym⟩ := y
          simp only [core, Prod.mk.injEq] at hr
          obtain ⟨hr1, ⟨hr2, hr3, hr4⟩, hr5⟩ := hr
          subst hr1
          simp only []
          by_cases hz : xr = 0
          · simp only [hz, ne_eq, not_true_eq_false, if_false, hr2, hr3]
            cases store_slot ya.data (ya.size - 1) (StrPtr.str (v.length + 1) v) with
            | none => rfl
            | some d1 => simp [shown, core, hr3, hr4, hr5]
          · simp only [ne_eq, hz, not_false_eq_true, if_true, ansi_c_mem_track_free]
            simp [shown, core, hr2, hr3, hr4, hr5]
    · simp only [hfull, if_false, ne_eq, not_true_eq_false]
      cases store_slot ad (as + 1 - 1) (StrPtr.str (v.length + 1) v) with
      | none => rfl
      | some d1 => simp [shown, core, hoc]
  · simp [hm, shown, core, MemTrack.consume, ho]

theorem push_all_congr (vs : List CStr) (a b : DynStringArray) (m1 m2 : MemTrack)
    (hc : core a = core b) (ho : m1.outcomes = m2.outcomes) :
    (push_all a vs m1).map (fun x => (x.1, core x.2.1, x.2.2.outcomes)) =
      (push_all b vs m2).map (fun x => (x.1, core x.2.1, x.2.2.outcomes)) := by
  induction vs generalizing a b m1 m2 with
  | nil => simp [push_all, hc, ho]
  | cons v rest ih =>
    have hp := push_congr a b v m1 m2 hc ho
    simp only [push_all]
    cases h1 : ansi_c_dynstringarray_push a v m1 with
    | none =>
      cases h2 : ansi_c_dynstringarray_push b v m2 with
      | none => rfl
      | some y => simp [h1, h2, shown] at hp
    | some x =>
      cases h2 : ansi_c_dynstringarray_push b v m2 with
      | none => simp [h1, h2, shown] at hp
      | some y =>
        simp only [h1, h2, shown, Option.map_some', Option.some.injEq, Prod.mk.injEq] at hp
        obtain ⟨xr, xa, xm⟩ := x
        obtain ⟨yr, ya, ym⟩ := y
        obtain ⟨hr1, hr2, hr3⟩ := hp
        simp only [] at hr1 hr2 hr3
        subst hr1
        have hi := ih xa ya xm ym hr2 hr3
        simp only []
        cases h3 : push_all xa rest xm with
        | none =>
          cases h4 : push_all ya rest ym with
          | none => rfl
          | some w => simp [h3, h4] at hi
        | some z =>
          cases h4 : push_all ya rest ym with
          | none => simp [h3, h4] at hi
          | some w =>
            simp only [h3, h4, Option.map_some', Option.some.injEq, Prod.mk.injEq] at hi
            simp [hi]
theorem resize_grow_fail (arr : DynStringArray) (n : Nat) (mt : MemTrack)
    (hgt : arr.size < n) (hb : arr.data ≠ DataPtr.invalid) (hfail : mt.outcomes 0 = false) :
    ansi_c_dynstringarray_resize arr n mt = some (-1, arr, mt.consume) := by
  have h1 : ¬ n = arr.size := by omega
  have h2 : ¬ n < arr.size := by omega
  simp only [ansi_c_dynstringarray_resize, h1, h2, if_false]
  cases hd : arr.data with
  | invalid => exact absurd hd hb
  | null => simp [ansi_c_mem_track_realloc_slots, hfail]
  | buf d => simp [ansi_c_mem_track_realloc_slots, hfail]

theorem resize_grow_ok (arr : DynStringArray) (n : Nat) (mt : MemTrack)
    (hgt : arr.size < n) (hb : arr.data ≠ DataPtr.invalid) (hok : mt.outcomes 0 = true) :
    ∃ d1 mt1, ansi_c_dynstringarray_resize arr n mt =
        some (0, { arr with data := DataPtr.buf d1,
                            capacity := resize_capacity_loop n arr.capacity n,
                            size := n }, mt1) ∧
      d1.length = resize_capacity_loop n arr.capacity n ∧
      (∀ k, arr.size ≤ k → k < n → d1[k]? = some StrPtr.null) ∧
      (∀ k p, k < arr.size → load_slot arr.data k = some p → d1[k]? = some p) ∧
      mt1.outcomes = mt.consume.outcomes := by
  have h1 : ¬ n = arr.size := by omega
  have h2 : ¬ n < arr.size := by omega
  have hge : n ≤ resize_capacity_loop n arr.capacity n :=
    resize_capacity_loop_reaches n arr.capacity n (by omega)
  simp only [ansi_c_dynstringarray_resize, h1, h2, if_false]
  cases hd : arr.data with
  | invalid => exact absurd hd hb
  | null =>
    simp only [ansi_c_mem_track_realloc_slots, hok, if_true]
    obtain ⟨d1, e1, e2, e3⟩ := resize_null_loop_spec (n - arr.size)
      (List.replicate (resize_capacity_loop n arr.capacity n) StrPtr.invalid) arr.size
      (by simp; omega)
    refine ⟨d1, { mt.consume with live := arr.data_object_id :: mt.live },
      by simp only [e1], by simpa using e2, ?_, ?_, rfl⟩
    · intro k hk1 hk2
      rw [e3 k, if_pos (by omega)]
    · intro k p _ hl
      simp [load_slot] at hl
  | buf d =>
    simp only [ansi_c_mem_track_realloc_slots, hok, if_true]
    obtain ⟨d1, e1, e2, e3⟩ := resize_null_loop_spec (n - arr.size)
      (d.take (resize_capacity_loop n arr.capacity n) ++
        List.replicate (resize_capacity_loop n arr.capacity n - d.length) StrPtr.invalid)
      arr.size (by simp; omega)
    refine ⟨d1, mt.consume, by simp only [e1], ?_, ?_, ?_, rfl⟩
    · rw [e2]; simp; omega
    · intro k hk1 hk2
      rw [e3 k, if_pos (by omega)]
    · intro k p hk hl
      simp only [load_slot] at hl
      have hkd : k < d.length := by
        rcases List.getElem?_eq_some_iff.mp hl with ⟨h, _⟩
        exact h
      rw [e3 k, if_neg (by omega)]
      rw [List.getElem?_append_left (by simp; omega)]
      rw [List.getElem?_take_of_lt (by omega)]
      exact hl

theorem push_grow_fail (arr : DynStringArray) (v : CStr) (mt : MemTrack)
    (h0 : mt.outcomes 0 = true) (h1 : mt.outcomes 1 = false)
    (hfull : arr.size = arr.capacity) (hb : arr.data ≠ DataPtr.invalid) :
    ∃ mt1, ansi_c_dynstringarray_push arr v mt = some (-1, arr, mt1) := by
  have hres := resize_grow_fail arr (arr.size + 1)
    { mt.consume with live := arr.data_object_id :: mt.live } (by omega) hb h1
  unfold ansi_c_dynstringarray_push
  simp only [STRDUP, h0, if_true, reduceCtorEq, if_false, hfull]
  rw [hfull] at hres
  generalize hR : ansi_c_dynstringarray_resize _ _ _ = R
  obtain ⟨m, hR2⟩ : ∃ m, R = some (-1, arr, m) := ⟨_, by rw [← hR]; exact hres⟩
  subst hR2
  simp [ansi_c_mem_track_free]

theorem push_grow_ok (arr : DynStringArray) (v : CStr) (mt : MemTrack)
    (h0 : mt.outcomes 0 = true) (h1 : mt.outcomes 1 = true)
    (hfull : arr.size = arr.capacity) (hb : arr.data ≠ DataPtr.invalid) :
    ∃ d2 mt1, ansi_c_dynstringarray_push arr v mt =
        some (0, { arr with data := DataPtr.buf d2,
                            capacity := arr.capacity + DYNSTRINGARRAY_DEFAULT_CAPACITY,
                            size := arr.size + 1 }, mt1) ∧
      d2.length = arr.capacity + DYNSTRINGARRAY_DEFAULT_CAPACITY ∧
      d2[arr.size]? = some (StrPtr.str (v.length + 1) v) ∧
      (∀ k p, k < arr.size → load_slot arr.data k = some p → d2[k]? = some p) := by
  obtain ⟨d1, m1, hres, hlen, _, hkeep, _⟩ := resize_grow_ok arr (arr.size + 1)
    { mt.consume with live := arr.data_object_id :: mt.live } (by omega) hb h1
  rw [hfull] at hres hlen
  rw [resize_capacity_loop_full] at hres hlen
  have hlt : arr.capacity < d1.length := by
    rw [hlen]; simp [DYNSTRINGARRAY_DEFAULT_CAPACITY]
  refine ⟨d1.set arr.size (StrPtr.str (v.length + 1) v), m1, ?_, ?_, ?_, ?_⟩
  · unfold ansi_c_dynstringarray_push
    simp only [STRDUP, h0, if_true, reduceCtorEq, if_false, hfull]
    generalize hR : ansi_c_dynstringarray_resize _ _ _ = R
    have hR2 := hR.symm.trans hres
    subst hR2
    simp [store_slot, hlt]
  · simp [hlen]
  · rw [hfull]; simp [hlt]
  · intro k p hk hl
    rw [List.getElem?_set_ne (by omega)]
    exact hkeep k p hk hl

theorem push_spec (arr : DynStringArray) (v : CStr) (mt : MemTrack) (hv : arr.valid) :
    ∃ r arr1 mt1, ansi_c_dynstringarray_push arr v mt = some (r, arr1, mt1) ∧ arr1.valid ∧
      (r = 0 ↔ (mt.outcomes 0 = true ∧ (arr.size = arr.capacity → mt.outcomes 1 = true))) ∧
      (r ≠ 0 → r = -1 ∧ arr1 = arr) ∧
      (r = 0 → arr1.size = arr.size + 1 ∧
        arr1.capacity = (if arr.size = arr.capacity
          then arr.capacity + DYNSTRINGARRAY_DEFAULT_CAPACITY else arr.capacity) ∧
        (∀ k p, k < arr.size → load_slot arr.data k = some p →
          load_slot arr1.data k = some p) ∧
        load_slot arr1.data arr.size = some (StrPtr.str (v.length + 1) v)) := by
  obtain ⟨hsz, hbv⟩ := hv
  have hb : arr.data ≠ DataPtr.invalid := by
    intro h; simp [buffer_valid, h] at hbv
  by_cases h0 : mt.outcomes 0 = true
  · by_cases hfull : arr.size = arr.capacity
    · by_cases h1 : mt.outcomes 1 = true
      · obtain ⟨d2, mt1, hp, hlen, hnew, hkeep⟩ := push_grow_ok arr v mt h0 h1 hfull hb
        refine ⟨0, _, mt1, hp, ?_, ?_, ?_, ?_⟩
        · constructor
          · simp [DYNSTRINGARRAY_DEFAULT_CAPACITY]; omega
          · simp [buffer_valid, hlen]
        · simp [h0, h1]
        · intro h; exact absurd rfl h
        · intro _
          refine ⟨rfl, by simp [hfull], ?_, ?_⟩
          · intro k p hk hl; simpa [load_slot] using hkeep k p hk hl
          · simpa [load_slot] using hnew
      · have h1f : mt.outcomes 1 = false := by simpa using h1
        obtain ⟨mt1, hp⟩ := push_grow_fail arr v mt h0 h1f hfull hb
        refine ⟨-1, arr, mt1, hp, ⟨hsz, hbv⟩, ?_, ?_, ?_⟩
        · simp [h0, h1f, hfull]
        · intro _; exact ⟨rfl, rfl⟩
        · intro h; simp at h
    · have hlt : arr.size < arr.capacity := by omega
      cases hd : arr.data with
      | invalid => exact absurd hd hb
      | null => simp [buffer_valid, hd] at hbv; omega
      | buf d =>
        simp only [buffer_valid, hd] at hbv
        have hp := push_with_room arr v mt d h0 hd hfull (by omega)
        refine ⟨0, _, _, hp, ?_, ?_, ?_, ?_⟩
        · constructor
          · simp; omega
          · simp [buffer_valid]; omega
        · simp [h0, hfull]
        · intro h; exact absurd rfl h
        · intro _
          refine ⟨rfl, by simp [hfull], ?_, ?_⟩
          · intro k p hk hl
            simp only [load_slot] at hl ⊢
            rw [List.getElem?_set_ne (by omega)]
            exact hl
          · have hlt2 : arr.size < d.length := by omega
            simp [load_slot, hlt2]
  · have h0f : mt.outcomes 0 = false := by simpa using h0
    refine ⟨-1, arr, _, push_dup_fails arr v mt h0f, ⟨hsz, hbv⟩, ?_, ?_, ?_⟩
    · simp [h0f]
    · intro _; exact ⟨rfl, rfl⟩
    · intro h; simp at h

theorem pushed_values_all_ok (rets : List Int) (vs : List CStr)
    (hlen : rets.length = vs.length) (hall : ∀ r ∈ rets, r = 0) :
    pushed_values rets vs = vs := by
  induction rets generalizing vs with
  | nil =>
    cases vs with
    | nil => rfl
    | cons v rest => simp at hlen
  | cons r rs ih =>
    cases vs with
    | nil => simp at hlen
    | cons v rest =>
      have hr : r = 0 := hall r (by simp)
      simp only [pushed_values, hr, if_true]
      rw [ih rest (by simpa using hlen) (fun x hx => hall x (by simp [hx]))]

theorem push_all_spec (vs : List CStr) (arr : DynStringArray) (mt : MemTrack)
    (hv : arr.valid) :
    ∃ rets arr1 mt1, push_all arr vs mt = some (rets, arr1, mt1) ∧ arr1.valid ∧
      rets.length = vs.length ∧
      arr1.size = arr.size + (pushed_values rets vs).length ∧
      (∀ k p, k < arr.size → load_slot arr.data k = some p →
        load_slot arr1.data k = some p) ∧
      (∀ i, i < (pushed_values rets vs).length →
        (load_slot arr1.data (arr.size + i)).bind StrPtr.cstr = (pushed_values rets vs)[i]?) := by
  induction vs generalizing arr mt with
  | nil =>
    refine ⟨[], arr, mt, rfl, hv, rfl, rfl, fun k p _ h => h, ?_⟩
    intro i hi
    simp [pushed_values] at hi
  | cons v rest ih =>
    obtain ⟨r, a1, m1, hp, hv1, _, hfail, hok⟩ := push_spec arr v mt hv
    obtain ⟨rs, a2, m2, hpa, hv2, hlen, hsz, hkeep, hnew⟩ := ih a1 m1 hv1
    refine ⟨r :: rs, a2, m2, by simp [push_all, hp, hpa], hv2, by simp [hlen], ?_, ?_, ?_⟩
    · by_cases hr : r = 0
      · obtain ⟨hs1, _, _, _⟩ := hok hr
        simp only [pushed_values, hr, if_true, List.length_cons]
        omega
      · obtain ⟨_, ha⟩ := hfail hr
        simp only [pushed_values, hr, if_false]
        rw [hsz, ha]
    · intro k p hk hl
      by_cases hr : r = 0
      · obtain ⟨hs1, _, hk1, _⟩ := hok hr
        exact hkeep k p (by omega) (hk1 k p hk hl)
      · obtain ⟨_, ha⟩ := hfail hr
        subst ha
        exact hkeep k p hk hl
    · intro i hi
      by_cases hr : r = 0
      · obtain ⟨hs1, _, _, hn1⟩ := hok hr
        simp only [pushed_values, hr, if_true] at hi ⊢
        cases i with
        | zero =>
          rw [Nat.add_zero, hkeep arr.size _ (by omega) hn1]
          simp [StrPtr.cstr]
        | succ j =>
          have := hnew j (by simpa using hi)
          rw [hs1] at this
          rw [show arr.size + (j + 1) = arr.size + 1 + j by omega, this]
          simp
      · obtain ⟨_, ha⟩ := hfail hr
        subst ha
        simp only [pushed_values, hr, if_false] at hi ⊢
        exact hnew i hi

theorem create_result (caller : Option DynStringArray) (fresh a0 : DynStringArray)
    (mt mt0 : MemTrack) (ret : Int)
    (hinit : mt.initialized = true)
    (hcreate : ansi_c_dynstringarray_create caller fresh mt = (ret, some a0, mt0))
    (hbuf : a0.data ≠ DataPtr.null) :
    core a0 = (DataPtr.buf (StrPtr.null :: List.replicate 9 StrPtr.invalid), 0, 10) := by
  simp only [ansi_c_dynstringarray_create, ansi_c_mem_track_is_initialized, hinit,
    Bool.not_true, Bool.false_eq_true, if_false] at hcreate
  cases caller with
  | none =>
    simp only [ansi_c_mem_track_get_next_object_id, ansi_c_mem_track_malloc_record] at hcreate
    by_cases h0 : mt.outcomes 0 = true
    · simp only [h0, if_true, ansi_c_dynstringarray_initdata, ansi_c_mem_track_malloc_slots,
        MemTrack.consume, DYNSTRINGARRAY_DEFAULT_CAPACITY] at hcreate
      by_cases h1 : mt.outcomes 1 = true
      · simp only [h1, if_true, Prod.mk.injEq, Option.some.injEq] at hcreate
        obtain ⟨_, ha, _⟩ := hcreate
        subst ha
        simp [core, List.replicate]
      · simp only [h1, if_false, Prod.mk.injEq, Option.some.injEq] at hcreate
        obtain ⟨_, ha, _⟩ := hcreate
        subst ha
        simp at hbuf
    · simp [h0] at hcreate
  | some r =>
    simp only [ansi_c_dynstringarray_initdata, ansi_c_mem_track_malloc_slots,
      DYNSTRINGARRAY_DEFAULT_CAPACITY] at hcreate
    by_cases h0 : mt.outcomes 0 = true
    · simp only [h0, if_true, Prod.mk.injEq, Option.some.injEq] at hcreate
      obtain ⟨_, ha, _⟩ := hcreate
      subst ha
      simp [core, List.replicate]
    · simp only [h0, if_false, Prod.mk.injEq, Option.some.injEq] at hcreate
      obtain ⟨_, ha, _⟩ := hcreate
      subst ha
      simp at hbuf

/-! ## The claims -/

/-- C1: starting from a freshly created container (the tracker is initialised,
`create` returned 0 and the buffer was allocated), every sequence of
`ansi_c_dynstringarray_push` calls runs to its end, and when every push returns 0
`ansi_c_dynstringarray_size` is the number of pushes and `ansi_c_dynstringarray_get(i)`
is the `i`-th pushed value, for every `i` below it, whatever the number of capacity
blocks crossed. -/
theorem push_sequence_on_created (caller : Option DynStringArray)
    (fresh a0 : DynStringArray) (mt mt0 mt1 : MemTrack) (values : List CStr)
    (hinit : mt.initialized = true)
    (hcreate : ansi_c_dynstringarray_create caller fresh mt = (0, some a0, mt0))
    (hbuf : a0.data ≠ DataPtr.null) :
    ∃ rets arr mt2, push_all a0 values mt1 = some (rets, arr, mt2) ∧
      ((∀ r ∈ rets, r = 0) →
        ansi_c_dynstringarray_size arr = values.length ∧
        ∀ i, i < values.length →
          (ansi_c_dynstringarray_get arr i).bind StrPtr.cstr = values[i]?) := by
  have hc := create_result caller fresh a0 mt mt0 0 hinit hcreate hbuf
  simp only [core, Prod.mk.injEq] at hc
  obtain ⟨hd, hs, hcap⟩ := hc
  have hv : a0.valid := by
    constructor
    · omega
    · simp [buffer_valid, hd, hcap]
  obtain ⟨rets, arr, mt2, hp, _, hlen, hsz, _, hnew⟩ := push_all_spec values a0 mt1 hv
  refine ⟨rets, arr, mt2, hp, ?_⟩
  intro hall
  have hpv := pushed_values_all_ok rets values hlen hall
  rw [hpv, hs, Nat.zero_add] at hsz
  refine ⟨hsz, ?_⟩
  intro i hi
  have hi2 : ¬ i ≥ arr.size := by omega
  simp only [ansi_c_dynstringarray_get, hi2, if_false]
  have := hnew i (by rw [hpv]; exact hi)
  rw [hs, Nat.zero_add, hpv] at this
  exact this

theorem push_sequence_on_created_witness :
    (tracker_all_ok.initialized = true ∧
      ansi_c_dynstringarray_create none record_garbage tracker_all_ok =
        (0, some created_example,
          (ansi_c_dynstringarray_create none record_garbage tracker_all_ok).2.2) ∧
      created_example.data ≠ DataPtr.null) ∧
    (push_all created_example twelve_values tracker_all_ok).map Prod.fst =
      some [0, 0, 0, 0, 0, 0, 0, 0, 0, 0, 0, 0] ∧
    ∃ rets arr mt2, push_all created_example twelve_values tracker_all_ok =
        some (rets, arr, mt2) ∧
      ((∀ r ∈ rets, r = 0) →
        ansi_c_dynstringarray_size arr = twelve_values.length ∧
        ∀ i, i < twelve_values.length →
          (ansi_c_dynstringarray_get arr i).bind StrPtr.cstr = twelve_values[i]?) :=
  ⟨⟨rfl, rfl, by decide⟩, by decide,
    push_sequence_on_created none record_garbage created_example tracker_all_ok _
      tracker_all_ok twelve_values rfl rfl (by decide)⟩

theorem shift_right_spec (d : List StrPtr) (i size : Nat) (hi : i ≤ size)
    (hs : size + 1 ≤ d.length) :
    (d.take (i + 1) ++ (d.drop i).take (size - i) ++ d.drop (i + 1 + (size - i))).length
        = d.length ∧
      (∀ k, k ≤ i →
        (d.take (i + 1) ++ (d.drop i).take (size - i) ++ d.drop (i + 1 + (size - i)))[k]?
          = d[k]?) ∧
      (∀ k, i ≤ k → k < size →
        (d.take (i + 1) ++ (d.drop i).take (size - i) ++ d.drop (i + 1 + (size - i)))[k + 1]?
          = d[k]?) := by
  have hl1 : (d.take (i + 1)).length = i + 1 := by simp; omega
  have hl2 : ((d.drop i).take (size - i)).length = size - i := by simp; omega
  refine ⟨?_, ?_, ?_⟩
  · simp only [List.length_append, hl1, hl2, List.length_drop]
    omega
  · intro k hk
    rw [List.append_assoc, List.getElem?_append_left (by omega)]
    exact List.getElem?_take_of_lt (by omega)
  · intro k hk1 hk2
    rw [List.getElem?_append_left (by simp only [List.length_append, hl1, hl2]; omega)]
    rw [List.getElem?_append_right (by omega), hl1]
    rw [List.getElem?_take_of_lt (by omega), List.getElem?_drop]
    congr 1
    omega

theorem realloc_grown_getElem (d : List StrPtr) (n k : Nat) (hk : k < d.length) (hn : k < n) :
    (d.take n ++ List.replicate (n - d.length) StrPtr.invalid)[k]? = d[k]? := by
  rw [List.getElem?_append_left (by simp; omega)]
  exact List.getElem?_take_of_lt hn

theorem realloc_grown_length (d : List StrPtr) (n : Nat) :
    (d.take n ++ List.replicate (n - d.length) StrPtr.invalid).length = n := by
  simp; omega

theorem insert_middle_room (arr : DynStringArray) (i : Nat) (v : CStr) (mt : MemTrack)
    (hv : arr.valid) (hi : i < arr.size) (hroom : arr.size ≠ arr.capacity) :
    ∃ arr1 mt1, ansi_c_dynstringarray_insert arr i v mt = some (0, arr1, mt1) ∧
      arr1.valid ∧ arr1.size = arr.size + 1 ∧ arr1.capacity = arr.capacity ∧
      load_slot arr1.data i = some (STRDUP mt v.length v arr.data_object_id).1 ∧
      (∀ k, k < i → load_slot arr1.data k = load_slot arr.data k) ∧
      (∀ k, i ≤ k → k < arr.size → load_slot arr1.data (k + 1) = load_slot arr.data k) := by
  obtain ⟨hsz, hbv⟩ := hv
  have h1 : ¬ i > arr.size := by omega
  have h2 : ¬ i = arr.size := by omega
  cases hd : arr.data with
  | invalid => simp [buffer_valid, hd] at hbv
  | null => simp [buffer_valid, hd] at hbv; omega
  | buf d =>
    simp only [buffer_valid, hd] at hbv
    obtain ⟨e1, e2, e3⟩ := shift_right_spec d i arr.size (by omega) (by omega)
    have hb1 : i + (arr.size - i) ≤ d.length := by omega
    have hb2 : i + 1 + (arr.size - i) ≤ d.length := by omega
    refine ⟨{ arr with
        data := DataPtr.buf ((d.take (i + 1) ++ (d.drop i).take (arr.size - i) ++
          d.drop (i + 1 + (arr.size - i))).set i (STRDUP mt v.length v arr.data_object_id).1),
        size := arr.size + 1 },
      (STRDUP mt v.length v arr.data_object_id).2, ?_, ?_, ?_, ?_, ?_, ?_, ?_⟩
    · simp only [ansi_c_dynstringarray_insert, h1, h2, hroom, if_false, ne_eq,
        not_true_eq_false, memmove_slots, hd, hb1, hb2, and_self, if_true, store_slot, e1,
        show i < d.length by omega]
    · constructor
      · simp only []; omega
      · simp only [buffer_valid, List.length_set, e1]; omega
    · rfl
    · rfl
    · simp only [load_slot]
      rw [List.getElem?_set_eq_of_lt _ (by rw [e1]; omega)]
    · intro k hk
      simp only [load_slot]
      rw [List.getElem?_set_ne (by omega)]
      exact e2 k (by omega)
    · intro k hk1 hk2
      simp only [load_slot]
      rw [List.getElem?_set_ne (by omega)]
      exact e3 k hk1 hk2

theorem insert_middle_full_fail (arr : DynStringArray) (i : Nat) (v : CStr) (mt : MemTrack)
    (hb : arr.data ≠ DataPtr.invalid) (hi : i < arr.size) (hfull : arr.size = arr.capacity)
    (h0 : mt.outcomes 0 = false) :
    ansi_c_dynstringarray_insert arr i v mt = some (-1, arr, mt.consume) := by
  have h1 : ¬ i > arr.size := by omega
  have h2 : ¬ i = arr.size := by omega
  cases hd : arr.data with
  | invalid => exact absurd hd hb
  | null =>
    simp only [ansi_c_dynstringarray_insert, h1, h2, if_false]
    simp [hfull, hd, ansi_c_mem_track_realloc_slots, h0]
  | buf d =>
    simp only [ansi_c_dynstringarray_insert, h1, h2, if_false]
    simp [hfull, hd, ansi_c_mem_track_realloc_slots, h0]

theorem insert_middle_full (arr : DynStringArray) (i : Nat) (v : CStr) (mt : MemTrack)
    (hv : arr.valid) (hi : i < arr.size) (hfull : arr.size = arr.capacity)
    (h0 : mt.outcomes 0 = true) :
    ∃ arr1 mt1, ansi_c_dynstringarray_insert arr i v mt = some (0, arr1, mt1) ∧
      arr1.valid ∧ arr1.size = arr.size + 1 ∧
      arr1.capacity = arr.capacity + DYNSTRINGARRAY_DEFAULT_CAPACITY ∧
      load_slot arr1.data i = some (STRDUP mt.consume v.length v arr.data_object_id).1 ∧
      (∀ k, k < i → load_slot arr1.data k = load_slot arr.data k) ∧
      (∀ k, i ≤ k → k < arr.size → load_slot arr1.data (k + 1) = load_slot arr.data k) := by
  obtain ⟨hsz, hbv⟩ := hv
  have h1 : ¬ i > arr.size := by omega
  have h2 : ¬ i = arr.size := by omega
  cases hd : arr.data with
  | invalid => simp [buffer_valid, hd] at hbv
  | null => simp [buffer_valid, hd] at hbv; omega
  | buf d =>
    simp only [buffer_valid, hd] at hbv
    have hnl := realloc_grown_length d (arr.capacity + DYNSTRINGARRAY_DEFAULT_CAPACITY)
    have hcap : arr.size + 1 ≤ arr.capacity + DYNSTRINGARRAY_DEFAULT_CAPACITY := by
      simp [DYNSTRINGARRAY_DEFAULT_CAPACITY]; omega
    obtain ⟨e1, e2, e3⟩ := shift_right_spec
      (d.take (arr.capacity + DYNSTRINGARRAY_DEFAULT_CAPACITY) ++
        List.replicate (arr.capacity + DYNSTRINGARRAY_DEFAULT_CAPACITY - d.length) StrPtr.invalid)
      i arr.size (by omega) (by omega)
    have hb1 : i + (arr.size - i) ≤ arr.capacity + DYNSTRINGARRAY_DEFAULT_CAPACITY := by omega
    have hb2 : i + 1 + (arr.size - i) ≤ arr.capacity + DYNSTRINGARRAY_DEFAULT_CAPACITY := by
      omega
    refine ⟨{ arr with
        data := DataPtr.buf ((
          (d.take (arr.capacity + DYNSTRINGARRAY_DEFAULT_CAPACITY) ++
            List.replicate (arr.capacity + DYNSTRINGARRAY_DEFAULT_CAPACITY - d.length)
              StrPtr.invalid).take (i + 1) ++
          ((d.take (arr.capacity + DYNSTRINGARRAY_DEFAULT_CAPACITY) ++
            List.replicate (arr.capacity + DYNSTRINGARRAY_DEFAULT_CAPACITY - d.length)
              StrPtr.invalid).drop i).take (arr.size - i) ++
          (d.take (arr.capacity + DYNSTRINGARRAY_DEFAULT_CAPACITY) ++
            List.replicate (arr.capacity + DYNSTRINGARRAY_DEFAULT_CAPACITY - d.length)
              StrPtr.invalid).drop (i + 1 + (arr.size - i))).set i
              (STRDUP mt.consume v.length v arr.data_object_id).1),
        capacity := arr.capacity + DYNSTRINGARRAY_DEFAULT_CAPACITY,
        size := arr.size + 1 },
      (STRDUP mt.consume v.length v arr.data_object_id).2, ?_, ?_, ?_, ?_, ?_, ?_, ?_⟩
    · simp only [ansi_c_dynstringarray_insert, h1, h2, if_false, hd,
        ansi_c_mem_track_realloc_slots, h0, if_true, ne_eq,
        not_true_eq_false, memmove_slots, hnl, store_slot, e1]
      rw [if_pos hfull]
      simp only [ne_eq, not_true_eq_false, if_false, hnl, e1]
      rw [if_pos ⟨hb1, hb2⟩]
      simp only [e1]
      rw [if_pos (by omega)]
    · constructor
      · simp only []; omega
      · simp only [buffer_valid, List.length_set, e1, hnl]; omega
    · rfl
    · rfl
    · simp only [load_slot]
      rw [List.getElem?_set_eq_of_lt _ (by rw [e1, hnl]; omega)]
    · intro k hk
      simp only [load_slot]
      rw [List.getElem?_set_ne (by omega), e2 k (by omega)]
      exact realloc_grown_getElem d _ k (by omega) (by omega)
    · intro k hk1 hk2
      simp only [load_slot]
      rw [List.getElem?_set_ne (by omega), e3 k hk1 hk2]
      exact realloc_grown_getElem d _ k (by omega) (by omega)

theorem valid_load_some (arr : DynStringArray) (hv : arr.valid) (k : Nat) (hk : k < arr.size) :
    ∃ p, load_slot arr.data k = some p := by
  obtain ⟨hsz, hbv⟩ := hv
  cases hd : arr.data with
  | invalid => simp [buffer_valid, hd] at hbv
  | null => simp [buffer_valid, hd] at hbv; omega
  | buf d =>
    simp only [buffer_valid, hd] at hbv
    have hkd : k < d.length := by omega
    exact ⟨d[k], by simp [load_slot, hkd]⟩

theorem get_below_size (arr : DynStringArray) (k : Nat) (hk : k < arr.size) :
    ansi_c_dynstringarray_get arr k = load_slot arr.data k := by
  simp [ansi_c_dynstringarray_get, hk]

theorem get_beyond_size (arr : DynStringArray) (k : Nat) (hk : arr.size ≤ k) :
    ansi_c_dynstringarray_get arr k = some StrPtr.null := by
  simp [ansi_c_dynstringarray_get, hk]

/-- C2: for every container that satisfies the data-model invariants (whatever its
slots hold), every index `i ≤ count` and every value `v`, when all allocations
succeed `ansi_c_dynstringarray_insert(i, v)` returns 0, the count grows by exactly
one, `get(i)` is `v`, `get(k)` is unchanged for `k < i`, and the element that was
at `k` is at `k + 1` for `i ≤ k < old count`; a full buffer grows. -/
theorem insert_shifts_elements (arr : DynStringArray) (i : Nat) (v : CStr) (mt : MemTrack)
    (hv : arr.valid) (hi : i ≤ arr.size) (hok : ∀ k, mt.outcomes k = true) :
    ∃ arr1 mt1, ansi_c_dynstringarray_insert arr i v mt = some (0, arr1, mt1) ∧
      ansi_c_dynstringarray_size arr1 = ansi_c_dynstringarray_size arr + 1 ∧
      (ansi_c_dynstringarray_get arr1 i).bind StrPtr.cstr = some v ∧
      (∀ k, k < i → ansi_c_dynstringarray_get arr1 k = ansi_c_dynstringarray_get arr k) ∧
      (∀ k, i ≤ k → k < arr.size →
        ansi_c_dynstringarray_get arr1 (k + 1) = ansi_c_dynstringarray_get arr k) := by
  by_cases hlast : i = arr.size
  · subst hlast
    obtain ⟨r, a1, m1, hp, _, hr, _, hsucc⟩ := push_spec arr v mt hv
    have hr0 : r = 0 := hr.mpr ⟨hok 0, fun _ => hok 1⟩
    subst hr0
    obtain ⟨hs1, _, hkeep, hnew⟩ := hsucc rfl
    refine ⟨a1, m1, ?_, hs1, ?_, ?_, ?_⟩
    · simp [ansi_c_dynstringarray_insert, hp]
    · rw [get_below_size a1 _ (by omega), hnew]; rfl
    · intro k hk
      obtain ⟨p, hpk⟩ := valid_load_some arr hv k hk
      rw [get_below_size a1 k (by omega), get_below_size arr k hk, hpk]
      exact hkeep k p hk hpk
    · intro k hk1 hk2
      omega
  · have hlt : i < arr.size := by omega
    by_cases hfull : arr.size = arr.capacity
    · obtain ⟨a1, m1, hp, _, hs1, _, hnew, hkeep, hshift⟩ :=
        insert_middle_full arr i v mt hv hlt hfull (hok 0)
      refine ⟨a1, m1, hp, hs1, ?_, ?_, ?_⟩
      · rw [get_below_size a1 _ (by omega), hnew]
        simp [STRDUP, MemTrack.consume, hok 1, StrPtr.cstr]
      · intro k hk
        rw [get_below_size a1 k (by omega), get_below_size arr k (by omega)]
        exact hkeep k hk
      · intro k hk1 hk2
        rw [get_below_size a1 (k + 1) (by omega), get_below_size arr k hk2]
        exact hshift k hk1 hk2
    · obtain ⟨a1, m1, hp, _, hs1, _, hnew, hkeep, hshift⟩ :=
        insert_middle_room arr i v mt hv hlt hfull
      refine ⟨a1, m1, hp, hs1, ?_, ?_, ?_⟩
      · rw [get_below_size a1 _ (by omega), hnew]
        simp [STRDUP, hok 0, StrPtr.cstr]
      · intro k hk
        rw [get_below_size a1 k (by omega), get_below_size arr k (by omega)]
        exact hkeep k hk
      · intro k hk1 hk2
        rw [get_below_size a1 (k + 1) (by omega), get_below_size arr k hk2]
        exact hshift k hk1 hk2

theorem insert_shifts_elements_witness :
    (full_example.valid ∧ 2 ≤ full_example.size ∧ ∀ k, tracker_all_ok.outcomes k = true) ∧
    (ansi_c_dynstringarray_insert full_example 2 "hi".toList tracker_all_ok).map
        (fun r => (r.1, r.2.1.size, r.2.1.capacity)) = some (0, 11, 20) ∧
    ∃ arr1 mt1, ansi_c_dynstringarray_insert full_example 2 "hi".toList tracker_all_ok =
        some (0, arr1, mt1) ∧
      ansi_c_dynstringarray_size arr1 = ansi_c_dynstringarray_size full_example + 1 ∧
      (ansi_c_dynstringarray_get arr1 2).bind StrPtr.cstr = some "hi".toList ∧
      (∀ k, k < 2 →
        ansi_c_dynstringarray_get arr1 k = ansi_c_dynstringarray_get full_example k) ∧
      (∀ k, 2 ≤ k → k < full_example.size →
        ansi_c_dynstringarray_get arr1 (k + 1) = ansi_c_dynstringarray_get full_example k) :=
  ⟨⟨by decide, by decide, fun _ => rfl⟩, by decide,
    insert_shifts_elements full_example 2 "hi".toList tracker_all_ok (by decide) (by decide)
      (fun _ => rfl)⟩

theorem shift_left_spec (d : List StrPtr) (i size : Nat) (hi : i < size)
    (hs : size ≤ d.length) :
    (d.take i ++ (d.drop (i + 1)).take (size - i - 1) ++ d.drop (i + (size - i - 1))).length
        = d.length ∧
      (∀ k, k < i →
        (d.take i ++ (d.drop (i + 1)).take (size - i - 1) ++ d.drop (i + (size - i - 1)))[k]?
          = d[k]?) ∧
      (∀ k, i ≤ k → k + 1 < size →
        (d.take i ++ (d.drop (i + 1)).take (size - i - 1) ++ d.drop (i + (size - i - 1)))[k]?
          = d[k + 1]?) := by
  have hl1 : (d.take i).length = i := by simp; omega
  have hl2 : ((d.drop (i + 1)).take (size - i - 1)).length = size - i - 1 := by simp; omega
  refine ⟨?_, ?_, ?_⟩
  · simp only [List.length_append, hl1, hl2, List.length_drop]
    omega
  · intro k hk
    rw [List.append_assoc, List.getElem?_append_left (by omega)]
    exact List.getElem?_take_of_lt (by omega)
  · intro k hk1 hk2
    rw [List.getElem?_append_left (by simp only [List.length_append, hl1, hl2]; omega)]
    rw [List.getElem?_append_right (by omega), hl1]
    rw [List.getElem?_take_of_lt (by omega), List.getElem?_drop]
    congr 1
    omega

theorem removeAt_copy_some (data : DataPtr) (i : Nat) (buffer : Option (List Char))
    (buf_size al : Nat) (s : CStr) (hsl : load_slot data i = some (StrPtr.str al s))
    (hbuf : ∀ b, buffer = some b → buf_size ≤ b.length) :
    ∃ out, removeAt_copy data i buffer buf_size = some out := by
  cases buffer with
  | none => exact ⟨none, rfl⟩
  | some b =>
    have hb := hbuf b rfl
    by_cases hpos : buf_size > 0
    · have hlen : (if s.length ≥ buf_size then buf_size - 1 else s.length) < b.length := by
        split <;> omega
      simp only [removeAt_copy, hpos, if_true, hsl, hlen]
      exact ⟨_, rfl⟩
    · simp only [removeAt_copy, hpos, if_false]
      exact ⟨_, rfl⟩

/-- C3: for every container that satisfies the data-model invariants and whose slots
below `count` all hold strings, every index `i < count` and every output buffer (none,
or one of at least `buf_size` bytes), `ansi_c_dynstringarray_removeAt(i, ...)` returns
`old count - 1`, which is the new count; `get(k)` is unchanged for `k < i`, `get(k)` is
the element that was at `k + 1` for `i ≤ k < new count`, and `get(new count)` is
absent. -/
theorem removeAt_deletes_one (arr : DynStringArray) (i : Nat) (buffer : Option (List Char))
    (buf_size : Nat) (mt : MemTrack)
    (hv : arr.valid) (hstr : holds_strings arr) (hi : i < arr.size)
    (hbuf : ∀ b, buffer = some b → buf_size ≤ b.length) :
    ∃ arr1 out mt1, ansi_c_dynstringarray_removeAt arr i buffer buf_size mt =
        some (arr.size - 1, arr1, out, mt1) ∧
      ansi_c_dynstringarray_size arr1 = arr.size - 1 ∧
      (∀ k, k < i → ansi_c_dynstringarray_get arr1 k = ansi_c_dynstringarray_get arr k) ∧
      (∀ k, i ≤ k → k < arr1.size →
        ansi_c_dynstringarray_get arr1 k = ansi_c_dynstringarray_get arr (k + 1)) ∧
      ansi_c_dynstringarray_get arr1 arr1.size = some StrPtr.null := by
  obtain ⟨hsz, hbv⟩ := hv
  obtain ⟨al, s, hsl⟩ := hstr i hi
  have h1 : ¬ i ≥ arr.size := by omega
  cases hd : arr.data with
  | invalid => simp [buffer_valid, hd] at hbv
  | null => simp [buffer_valid, hd] at hbv; omega
  | buf d =>
    simp only [buffer_valid, hd] at hbv
    rw [hd] at hsl
    have hid : i < d.length := by omega
    obtain ⟨out, hout⟩ := removeAt_copy_some (DataPtr.buf d) i buffer buf_size al s hsl hbuf
    obtain ⟨e1, e2, e3⟩ := shift_left_spec (d.set i StrPtr.invalid) i arr.size hi
      (by simp; omega)
    by_cases hmove : i < arr.size - 1
    · refine ⟨{ arr with
          data := DataPtr.buf ((d.set i StrPtr.invalid).take i ++
            ((d.set i StrPtr.invalid).drop (i + 1)).take (arr.size - i - 1) ++
            (d.set i StrPtr.invalid).drop (i + (arr.size - i - 1))),
          size := arr.size - 1 }, out,
        { mt with live := mt.live.erase arr.data_object_id }, ?_, rfl, ?_, ?_, ?_⟩
      · simp only [ansi_c_dynstringarray_removeAt, h1, if_false, hd, hout, hsl,
          ansi_c_mem_track_free, store_slot, hid, if_true, hmove, memmove_slots,
          List.length_set]
        rw [if_pos (by omega)]
      · intro k hk
        rw [get_below_size _ k (by simp only []; omega), get_below_size arr k (by omega), hd]
        simp only [load_slot]
        rw [e2 k hk, List.getElem?_set_ne (by omega)]
      · intro k hk1 hk2
        simp only [] at hk2
        rw [get_below_size _ k (by simp only []; omega),
          get_below_size arr (k + 1) (by omega), hd]
        simp only [load_slot]
        rw [e3 k hk1 (by omega), List.getElem?_set_ne (by omega)]
      · exact get_beyond_size _ _ (Nat.le_refl _)
    · refine ⟨{ arr with data := DataPtr.buf (d.set i StrPtr.invalid), size := arr.size - 1 },
        out, { mt with live := mt.live.erase arr.data_object_id }, ?_, rfl, ?_, ?_, ?_⟩
      · simp only [ansi_c_dynstringarray_removeAt, h1, if_false, hd, hout, hsl,
          ansi_c_mem_track_free, store_slot, hid, if_true, hmove]
      · intro k hk
        rw [get_below_size _ k (by simp only []; omega), get_below_size arr k (by omega), hd]
        simp only [load_slot]
        rw [List.getElem?_set_ne (by omega)]
      · intro k hk1 hk2
        simp only [] at hk2
        omega
      · exact get_beyond_size _ _ (Nat.le_refl _)

theorem three_example_holds_strings : holds_strings three_example := by
  intro k hk
  have hk3 : k < 3 := hk
  interval_cases k
  · exact ⟨_, _, rfl⟩
  · exact ⟨_, _, rfl⟩
  · exact ⟨_, _, rfl⟩

theorem removeAt_deletes_one_witness :
    (three_example.valid ∧ holds_strings three_example ∧ 1 < three_example.size ∧
      ∀ b, some ten_bytes = some b → 10 ≤ b.length) ∧
    (ansi_c_dynstringarray_removeAt three_example 1 (some ten_bytes) 10 tracker_all_ok).map
        (fun r => (r.1, r.2.1.size, ansi_c_dynstringarray_get r.2.1 0,
          ansi_c_dynstringarray_get r.2.1 1, ansi_c_dynstringarray_get r.2.1 2)) =
      some (2, 2, some (StrPtr.str 6 "hello".toList), some (StrPtr.str 4 "foo".toList),
        some StrPtr.null) ∧
    ∃ arr1 out mt1,
      ansi_c_dynstringarray_removeAt three_example 1 (some ten_bytes) 10 tracker_all_ok =
        some (three_example.size - 1, arr1, out, mt1) ∧
      ansi_c_dynstringarray_size arr1 = three_example.size - 1 ∧
      (∀ k, k < 1 →
        ansi_c_dynstringarray_get arr1 k = ansi_c_dynstringarray_get three_example k) ∧
      (∀ k, 1 ≤ k → k < arr1.size →
        ansi_c_dynstringarray_get arr1 k = ansi_c_dynstringarray_get three_example (k + 1)) ∧
      ansi_c_dynstringarray_get arr1 arr1.size = some StrPtr.null :=
  ⟨⟨by decide, three_example_holds_strings, by decide,
      fun b hb => by cases hb; decide⟩, by decide,
    removeAt_deletes_one three_example 1 (some ten_bytes) 10 tracker_all_ok (by decide)
      three_example_holds_strings (by decide) (fun b hb => by cases hb; decide)⟩

/-- C4: for every container, every index `i < count` whose slot holds a string (a
terminated string inside its block) and every value `v`, longer or not than the
current element, when the allocation succeeds `ansi_c_dynstringarray_set(i, v)`
returns 0, `get(i)` is `v` afterwards, count and capacity are unchanged, and `get(k)`
is unchanged for every `k ≠ i`. -/
theorem set_changes_only_target (arr : DynStringArray) (i : Nat) (v : CStr) (mt : MemTrack)
    (hi : i < arr.size)
    (hslot : ∃ al s, load_slot arr.data i = some (StrPtr.str al s) ∧ s.length < al)
    (hok : mt.outcomes 0 = true) :
    ∃ arr1 mt1, ansi_c_dynstringarray_set arr i v mt = some (0, arr1, mt1) ∧
      (ansi_c_dynstringarray_get arr1 i).bind StrPtr.cstr = some v ∧
      ansi_c_dynstringarray_size arr1 = ansi_c_dynstringarray_size arr ∧
      arr1.capacity = arr.capacity ∧
      ∀ k, k ≠ i → ansi_c_dynstringarray_get arr1 k = ansi_c_dynstringarray_get arr k := by
  obtain ⟨al, s, hsl, hal⟩ := hslot
  have h1 : ¬ i ≥ arr.size := by omega
  cases hd : arr.data with
  | invalid => simp [hd, load_slot] at hsl
  | null => simp [hd, load_slot] at hsl
  | buf d =>
    rw [hd] at hsl
    have hid : i < d.length := by
      simp only [load_slot] at hsl
      rcases List.getElem?_eq_some_iff.mp hsl with ⟨h, _⟩
      exact h
    have hframe : ∀ (p : StrPtr) (m : MemTrack) (k : Nat), k ≠ i →
        ansi_c_dynstringarray_get { arr with data := DataPtr.buf (d.set i p) } k =
          ansi_c_dynstringarray_get arr k := by
      intro p m k hk
      simp only [ansi_c_dynstringarray_get, hd, load_slot]
      split
      · rfl
      · rw [List.getElem?_set_ne (by omega)]
    by_cases hlen : s.length < v.length
    · refine ⟨{ arr with data := DataPtr.buf (d.set i (StrPtr.str (v.length + 1) v)) },
        mt.consume, ?_, ?_, rfl, rfl, hframe _ mt⟩
      · simp [ansi_c_dynstringarray_set, h1, hd, hsl, hlen, ansi_c_mem_track_realloc_str, hok,
          STRCPY, store_slot, hid]
      · rw [get_below_size _ i (by simpa using hi)]
        simp [load_slot, hid, StrPtr.cstr]
    · refine ⟨{ arr with data := DataPtr.buf (d.set i (StrPtr.str al v)) },
        mt, ?_, ?_, rfl, rfl, hframe _ mt⟩
      · have hfit : v.length + 1 ≤ al := by omega
        simp [ansi_c_dynstringarray_set, h1, hd, hsl, hlen, STRCPY, store_slot, hid, hfit]
      · rw [get_below_size _ i (by simpa using hi)]
        simp [load_slot, hid, StrPtr.cstr]

theorem set_changes_only_target_witness :
    (0 < three_example.size ∧
      (∃ al s, load_slot three_example.data 0 = some (StrPtr.str al s) ∧ s.length < al) ∧
      tracker_all_ok.outcomes 0 = true) ∧
    (ansi_c_dynstringarray_set three_example 1 [] tracker_all_ok).map
        (fun r => (r.1, ansi_c_dynstringarray_get r.2.1 0, ansi_c_dynstringarray_get r.2.1 1,
          ansi_c_dynstringarray_get r.2.1 2)) =
      some (0, some (StrPtr.str 6 "hello".toList), some (StrPtr.str 6 []),
        some (StrPtr.str 4 "foo".toList)) ∧
    ∃ arr1 mt1, ansi_c_dynstringarray_set three_example 0 "hi there".toList tracker_all_ok =
        some (0, arr1, mt1) ∧
      (ansi_c_dynstringarray_get arr1 0).bind StrPtr.cstr = some "hi there".toList ∧
      ansi_c_dynstringarray_size arr1 = ansi_c_dynstringarray_size three_example ∧
      arr1.capacity = three_example.capacity ∧
      ∀ k, k ≠ 0 →
        ansi_c_dynstringarray_get arr1 k = ansi_c_dynstringarray_get three_example k :=
  ⟨⟨by decide, ⟨6, "hello".toList, rfl, by decide⟩, rfl⟩, by decide,
    set_changes_only_target three_example 0 "hi there".toList tracker_all_ok (by decide)
      ⟨6, "hello".toList, rfl, by decide⟩ rfl⟩

theorem resize_free_loop_spec (n : Nat) (d : List StrPtr) (i objid : Nat) (mt : MemTrack)
    (hb : i + n ≤ d.length)
    (hp : ∀ k, i ≤ k → k < i + n → d[k]? ≠ some StrPtr.invalid) :
    ∃ d1 mt1, resize_free_loop n (DataPtr.buf d) i objid mt = some (DataPtr.buf d1, mt1) ∧
      d1.length = d.length ∧ (∀ k, k < i → d1[k]? = d[k]?) ∧
      mt1.outcomes = mt.outcomes := by
  induction n generalizing d i mt with
  | zero => exact ⟨d, mt, rfl, rfl, fun _ _ => rfl, rfl⟩
  | succ m ih =>
    have hid : i < d.length := by omega
    have hget : d[i]? = some d[i] := by simp [hid]
    have hne := hp i (Nat.le_refl _) (by omega)
    have hstep : ∀ (p1 : StrPtr) (m1 : MemTrack), m1.outcomes = mt.outcomes →
        ∃ d1 mt1, resize_free_loop m (DataPtr.buf (d.set i p1)) (i + 1) objid m1 =
            some (DataPtr.buf d1, mt1) ∧
          d1.length = d.length ∧ (∀ k, k < i → d1[k]? = d[k]?) ∧
          mt1.outcomes = mt.outcomes := by
      intro p1 m1 hm1
      obtain ⟨d1, mt1, e1, e2, e3, e4⟩ := ih (d.set i p1) (i + 1) m1 (by simp; omega)
        (by
          intro k hk1 hk2
          rw [List.getElem?_set_ne (by omega)]
          exact hp k (by omega) (by omega))
      refine ⟨d1, mt1, e1, by simpa using e2, ?_, by rw [e4, hm1]⟩
      intro k hk
      rw [e3 k (by omega), List.getElem?_set_ne (by omega)]
    cases hpi : d[i] with
    | invalid => rw [hpi] at hget; exact absurd hget hne
    | null =>
      rw [hpi] at hget
      obtain ⟨d1, mt1, e1, e2, e3, e4⟩ := hstep StrPtr.null mt rfl
      refine ⟨d1, mt1, ?_, e2, e3, e4⟩
      simp only [resize_free_loop, load_slot, hget, ansi_c_mem_track_free, store_slot, hid,
        if_true, e1]
    | str al s =>
      rw [hpi] at hget
      obtain ⟨d1, mt1, e1, e2, e3, e4⟩ := hstep StrPtr.invalid
        { mt with live := mt.live.erase objid } rfl
      refine ⟨d1, mt1, ?_, e2, e3, e4⟩
      simp only [resize_free_loop, load_slot, hget, ansi_c_mem_track_free, store_slot, hid,
        if_true, e1]

/-- The function `ansi_c_dynstringarray_resize` read on unbounded integers: for every
container that satisfies the data-model invariants and whose slots below `count` hold
a string or `NULL`, and every `n`, when the reallocation succeeds it returns 0 and
`size()` is `n`, with the three cases of growing, shrinking and equal size. -/
theorem resize_unbounded_spec (arr : DynStringArray) (n : Nat) (mt : MemTrack)
    (hv : arr.valid)
    (hslots : ∀ k, k < arr.size → load_slot arr.data k ≠ some StrPtr.invalid)
    (hok : mt.outcomes 0 = true) :
    ∃ arr1 mt1, ansi_c_dynstringarray_resize arr n mt = some (0, arr1, mt1) ∧
      ansi_c_dynstringarray_size arr1 = n ∧
      (arr.size < n →
        (∀ k, arr.size ≤ k → k < n → ansi_c_dynstringarray_get arr1 k = some StrPtr.null) ∧
        (∀ k, k < arr.size →
          ansi_c_dynstringarray_get arr1 k = ansi_c_dynstringarray_get arr k)) ∧
      (n < arr.size →
        (∀ k, n ≤ k → ansi_c_dynstringarray_get arr1 k = some StrPtr.null) ∧
        (∀ k, k < n → ansi_c_dynstringarray_get arr1 k = ansi_c_dynstringarray_get arr k) ∧
        arr1.capacity = arr.capacity) ∧
      (n = arr.size → arr1 = arr ∧ mt1 = mt) := by
  have hv0 := hv
  obtain ⟨hsz, hbv⟩ := hv
  have hb : arr.data ≠ DataPtr.invalid := by
    intro h; simp [buffer_valid, h] at hbv
  rcases Nat.lt_trichotomy n arr.size with hlt | heq | hgt
  · cases hd : arr.data with
    | invalid => exact absurd hd hb
    | null => simp [buffer_valid, hd] at hbv; omega
    | buf d =>
      simp only [buffer_valid, hd] at hbv
      obtain ⟨d1, mt1, e1, e2, e3, _⟩ := resize_free_loop_spec (arr.size - n) d n
        arr.data_object_id mt (by omega)
        (by
          intro k hk1 hk2
          have := hslots k (by omega)
          rw [hd] at this
          exact this)
      refine ⟨{ arr with data := DataPtr.buf d1, size := n }, mt1, ?_, rfl, ?_, ?_, ?_⟩
      · have h1 : ¬ n = arr.size := by omega
        simp only [ansi_c_dynstringarray_resize, h1, hlt, if_false, if_true, hd, e1]
      · intro h; omega
      · intro _
        refine ⟨fun k hk => get_beyond_size _ k hk, ?_, rfl⟩
        intro k hk
        rw [get_below_size _ k hk, get_below_size arr k (by omega), hd]
        simp only [load_slot]
        exact e3 k hk
      · intro h; omega
  · subst heq
    refine ⟨arr, mt, by simp [ansi_c_dynstringarray_resize], rfl, ?_, ?_, fun _ => ⟨rfl, rfl⟩⟩
    · intro h; omega
    · intro h; omega
  · obtain ⟨d1, mt1, hres, _, hnull, hkeep, _⟩ := resize_grow_ok arr n mt hgt hb hok
    refine ⟨_, mt1, hres, rfl, ?_, ?_, ?_⟩
    · intro _
      constructor
      · intro k hk1 hk2
        rw [get_below_size _ k hk2]
        simpa [load_slot] using hnull k hk1 hk2
      · intro k hk
        obtain ⟨p, hp⟩ := valid_load_some arr hv0 k hk
        rw [get_below_size _ k (by simp only []; omega), get_below_size arr k hk, hp]
        simpa [load_slot] using hkeep k p hk hp
    · intro h; omega
    · intro h; omega

theorem three_example_slots :
    ∀ k, k < three_example.size → load_slot three_example.data k ≠ some StrPtr.invalid := by
  intro k hk
  have hk3 : k < 3 := hk
  interval_cases k <;> decide

theorem free_outcomes (mt m1 : MemTrack) (p p1 : StrPtr) (objid : Nat)
    (h : ansi_c_mem_track_free mt p objid = some (p1, m1)) : m1.outcomes = mt.outcomes := by
  cases p <;> simp [ansi_c_mem_track_free] at h <;> obtain ⟨_, h2⟩ := h <;> subst h2 <;> rfl

theorem resize_free_loop_outcomes (n : Nat) (data data1 : DataPtr) (i objid : Nat)
    (mt m1 : MemTrack) (h : resize_free_loop n data i objid mt = some (data1, m1)) :
    m1.outcomes = mt.outcomes := by
  induction n generalizing data i mt with
  | zero =>
    simp [resize_free_loop] at h
    rw [← h.2]
  | succ m ih =>
    simp only [resize_free_loop] at h
    cases hl : load_slot data i with
    | none => simp [hl] at h
    | some p =>
      simp only [hl] at h
      cases hf : ansi_c_mem_track_free mt p objid with
      | none => simp [hf] at h
      | some x =>
        obtain ⟨p1, m2⟩ := x
        simp only [hf] at h
        cases hs : store_slot data i p1 with
        | none => simp [hs] at h
        | some d2 =>
          simp only [hs] at h
          rw [ih d2 (i + 1) m2 h]
          exact free_outcomes mt m2 p p1 objid hf

theorem realloc_slots_outcomes (mt m1 : MemTrack) (p : DataPtr) (n objid : Nat)
    (r : Option (List StrPtr))
    (h : ansi_c_mem_track_realloc_slots mt p n objid = some (r, m1)) :
    m1.outcomes = mt.consume.outcomes := by
  cases p with
  | invalid => simp [ansi_c_mem_track_realloc_slots] at h
  | null =>
    simp only [ansi_c_mem_track_realloc_slots] at h
    split at h <;> simp at h <;> rw [← h.2]
  | buf d =>
    simp only [ansi_c_mem_track_realloc_slots] at h
    split at h <;> simp at h <;> rw [← h.2]

theorem resize_outcomes (arr a1 : DynStringArray) (n : Nat) (mt m1 : MemTrack) (r : Int)
    (h : ansi_c_dynstringarray_resize arr n mt = some (r, a1, m1)) :
    ∃ j, ∀ k, m1.outcomes k = mt.outcomes (k + j) := by
  simp only [ansi_c_dynstringarray_resize] at h
  split at h
  · simp at h
    exact ⟨0, fun k => by rw [← h.2.2]; rfl⟩
  · split at h
    · cases hf : resize_free_loop (arr.size - n) arr.data n arr.data_object_id mt with
      | none => simp [hf] at h
      | some x =>
        obtain ⟨d1, m2⟩ := x
        simp [hf] at h
        have := resize_free_loop_outcomes _ _ _ _ _ _ _ hf
        exact ⟨0, fun k => by rw [← h.2.2, this]; rfl⟩
    · cases hr : ansi_c_mem_track_realloc_slots mt arr.data
          (resize_capacity_loop n arr.capacity n) arr.data_object_id with
      | none => simp [hr] at h
      | some x =>
        obtain ⟨nd, m2⟩ := x
        have ho := realloc_slots_outcomes _ _ _ _ _ _ hr
        cases nd with
        | none =>
          simp [hr] at h
          exact ⟨1, fun k => by rw [← h.2.2, ho]; rfl⟩
        | some d =>
          simp only [hr] at h
          cases hn : resize_null_loop (n - arr.size) d arr.size with
          | none => simp [hn] at h
          | some d2 =>
            simp [hn] at h
            exact ⟨1, fun k => by rw [← h.2.2, ho]; rfl⟩

theorem push_outcomes (arr a1 : DynStringArray) (v : CStr) (mt m1 : MemTrack) (r : Int)
    (h : ansi_c_dynstringarray_push arr v mt = some (r, a1, m1)) :
    ∃ j, ∀ k, m1.outcomes k = mt.outcomes (k + j) := by
  unfold ansi_c_dynstringarray_push at h
  simp only [STRDUP] at h
  by_cases h0 : mt.outcomes 0 = true
  · simp only [h0, if_true, reduceCtorEq, if_false] at h
    by_cases hfull : arr.size = arr.capacity
    · simp only [hfull, if_true] at h
      generalize hR : ansi_c_dynstringarray_resize _ _ _ = R at h
      cases R with
      | none => simp at h
      | some x =>
        obtain ⟨xr, xa, xm⟩ := x
        obtain ⟨j, hj⟩ := resize_outcomes _ _ _ _ _ _ hR
        simp only [] at h
        by_cases hz : xr = 0
        · simp only [hz, ne_eq, not_true_eq_false, if_false] at h
          cases hs : store_slot xa.data (xa.size - 1) (StrPtr.str (v.length + 1) v) with
          | none => simp [hs] at h
          | some d1 =>
            simp [hs] at h
            refine ⟨j + 1, fun k => ?_⟩
            rw [← h.2.2, hj k]
            simp [MemTrack.consume, Nat.add_assoc]
        · simp only [ne_eq, hz, not_false_eq_true, if_true, ansi_c_mem_track_free] at h
          simp at h
          refine ⟨j + 1, fun k => ?_⟩
          rw [← h.2.2]
          simp only []
          rw [hj k]
          simp [MemTrack.consume, Nat.add_assoc]
    · simp only [hfull, if_false, ne_eq, not_true_eq_false] at h
      rw [Nat.add_sub_cancel] at h
      cases hs : store_slot arr.data arr.size (StrPtr.str (v.length + 1) v) with
      | none => simp [hs] at h
      | some d1 =>
        simp [hs] at h
        exact ⟨1, fun k => by rw [← h.2.2]; rfl⟩
  · simp [h0] at h
    exact ⟨1, fun k => by rw [← h.2.2]; rfl⟩

theorem push_all_returns_zero (vs : List CStr) (arr : DynStringArray) (mt : MemTrack)
    (hv : arr.valid) (hok : ∀ k, mt.outcomes k = true)
    (rets : List Int) (a1 : DynStringArray) (m1 : MemTrack)
    (h : push_all arr vs mt = some (rets, a1, m1)) : ∀ r ∈ rets, r = 0 := by
  induction vs generalizing arr mt rets with
  | nil =>
    simp [push_all] at h
    intro r hr
    rw [h.1] at hr
    simp at hr
  | cons v rest ih =>
    obtain ⟨r, a2, m2, hp, hv2, hr, _, _⟩ := push_spec arr v mt hv
    obtain ⟨j, hj⟩ := push_outcomes arr a2 v mt m2 r hp
    have hok2 : ∀ k, m2.outcomes k = true := fun k => by rw [hj k]; exact hok _
    simp only [push_all, hp] at h
    cases hpa : push_all a2 rest m2 with
    | none => simp [hpa] at h
    | some x =>
      obtain ⟨rs, a3, m3⟩ := x
      simp [hpa] at h
      obtain ⟨h1, h2, h3⟩ := h
      subst h2 h3
      have hrs := ih a2 m2 hv2 hok2 rs hpa
      intro y hy
      rw [← h1] at hy
      rcases List.mem_cons.mp hy with hy1 | hy2
      · rw [hy1]; exact hr.mpr ⟨hok 0, fun _ => hok 1⟩
      · exact hrs y hy2

theorem init_loop_eq_push_all (vs : List CStr) (arr : DynStringArray) (mt : MemTrack) :
    init_loop arr vs mt = (push_all arr vs mt).map (fun r => (r.2.1, r.2.2)) := by
  induction vs generalizing arr mt with
  | nil => rfl
  | cons v rest ih =>
    simp only [init_loop, push_all]
    cases ansi_c_dynstringarray_push arr v mt with
    | none => rfl
    | some x =>
      obtain ⟨r, a1, m1⟩ := x
      simp only [ih a1 m1]
      cases push_all a1 rest m1 with
      | none => rfl
      | some y => rfl

theorem clear_ok (arr : DynStringArray) (mt : MemTrack) (hok : mt.outcomes 0 = true) :
    ∃ c mt1, ansi_c_dynstringarray_clear (some arr) mt = (some c, mt1) ∧
      core c = (DataPtr.buf (StrPtr.null :: List.replicate 9 StrPtr.invalid), 0, 10) ∧
      c.valid ∧ ∀ k, mt1.outcomes k = mt.outcomes (k + 1) := by
  have hm : (ansi_c_mem_track_free_by_object_id mt arr.data_object_id).outcomes 0 = true := hok
  refine ⟨_, _, rfl, ?_, ?_, ?_⟩
  · simp [core, ansi_c_mem_track_malloc_slots, hm, DYNSTRINGARRAY_DEFAULT_CAPACITY,
      List.replicate]
  · constructor
    · simp
    · simp [buffer_valid, ansi_c_mem_track_malloc_slots, hm, DYNSTRINGARRAY_DEFAULT_CAPACITY]
  · intro k
    simp [ansi_c_mem_track_malloc_slots, hok, ansi_c_mem_track_cleanup_allocations,
      MemTrack.consume, ansi_c_mem_track_free_by_object_id]

/-- C6: for every container, whatever it held before, and every list of values, when
all allocations succeed `ansi_c_dynstringarray_init(arr, n, v_0, ..., v_{n-1})` leaves
`size() == n` and `get(i) == v_i` for every `i < n`; nothing else is retrievable, so
none of the prior elements remains. -/
theorem init_replaces_content (arr : DynStringArray) (values : List CStr) (mt : MemTrack)
    (hok : ∀ k, mt.outcomes k = true) :
    ∃ arr1 mt1, ansi_c_dynstringarray_init (some arr) values mt = some (some arr1, mt1) ∧
      ansi_c_dynstringarray_size arr1 = values.length ∧
      (∀ i, i < values.length →
        (ansi_c_dynstringarray_get arr1 i).bind StrPtr.cstr = values[i]?) ∧
      (∀ i, values.length ≤ i → ansi_c_dynstringarray_get arr1 i = some StrPtr.null) := by
  obtain ⟨c, m0, hc, hcore, hv, hm0⟩ := clear_ok arr mt (hok 0)
  simp only [core, Prod.mk.injEq] at hcore
  obtain ⟨_, hs, _⟩ := hcore
  obtain ⟨rets, a1, m1, hp, _, hlen, hsz, _, hnew⟩ := push_all_spec values c m0 hv
  have hall := push_all_returns_zero values c m0 hv (fun k => by rw [hm0 k]; exact hok _)
    rets a1 m1 hp
  have hpv := pushed_values_all_ok rets values hlen hall
  rw [hpv, hs, Nat.zero_add] at hsz
  refine ⟨a1, m1, ?_, hsz, ?_, ?_⟩
  · simp [ansi_c_dynstringarray_init, hc, init_loop_eq_push_all, hp]
  · intro i hi
    rw [get_below_size a1 i (by omega)]
    have := hnew i (by rw [hpv]; exact hi)
    rw [hs, Nat.zero_add, hpv] at this
    exact this
  · intro i hi
    exact get_beyond_size a1 i (by omega)

theorem init_replaces_content_witness :
    (∀ k, tracker_all_ok.outcomes k = true) ∧
    (ansi_c_dynstringarray_init (some three_example) twelve_values tracker_all_ok).map
        (fun r => r.1.map (fun a => (a.size, a.capacity, ansi_c_dynstringarray_get a 0,
          ansi_c_dynstringarray_get a 11, ansi_c_dynstringarray_get a 12))) =
      some (some (12, 20, some (StrPtr.str 2 "a".toList), some (StrPtr.str 2 "l".toList),
        some StrPtr.null)) ∧
    ∃ arr1 mt1, ansi_c_dynstringarray_init (some three_example) twelve_values tracker_all_ok =
        some (some arr1, mt1) ∧
      ansi_c_dynstringarray_size arr1 = twelve_values.length ∧
      (∀ i, i < twelve_values.length →
        (ansi_c_dynstringarray_get arr1 i).bind StrPtr.cstr = twelve_values[i]?) ∧
      (∀ i, twelve_values.length ≤ i →
        ansi_c_dynstringarray_get arr1 i = some StrPtr.null) :=
  ⟨fun _ => rfl, by rfl,
    init_replaces_content three_example twelve_values tracker_all_ok (fun _ => rfl)⟩

theorem get_of_core (a b : DynStringArray) (h : core a = core b) (i : Nat) :
    ansi_c_dynstringarray_get a i = ansi_c_dynstringarray_get b i := by
  simp only [core, Prod.mk.injEq] at h
  obtain ⟨hd, hs, _⟩ := h
  simp [ansi_c_dynstringarray_get, hd, hs]

/-- C7: for every container state, after `ansi_c_dynstringarray_clear` with its buffer
allocation succeeding, `size()` is 0 and the capacity is 10, and every subsequent
sequence of pushes gives the return codes, size, capacity and `get(i)` for all `i`
that the same pushes give on a freshly created container under the same allocator
outcomes. -/
theorem clear_then_push_like_created (arr : DynStringArray) (mt : MemTrack)
    (caller : Option DynStringArray) (fresh a0 : DynStringArray) (mtc mt0 : MemTrack)
    (values : List CStr) (m1 m2 : MemTrack)
    (hok : mt.outcomes 0 = true)
    (hinit : mtc.initialized = true)
    (hcreate : ansi_c_dynstringarray_create caller fresh mtc = (0, some a0, mt0))
    (hbuf : a0.data ≠ DataPtr.null)
    (hsame : m1.outcomes = m2.outcomes) :
    ∃ c mt1, ansi_c_dynstringarray_clear (some arr) mt = (some c, mt1) ∧
      ansi_c_dynstringarray_size c = 0 ∧ c.capacity = 10 ∧
      ∃ rets a b n1 n2, push_all c values m1 = some (rets, a, n1) ∧
        push_all a0 values m2 = some (rets, b, n2) ∧
        ansi_c_dynstringarray_size a = ansi_c_dynstringarray_size b ∧
        a.capacity = b.capacity ∧
        ∀ i, ansi_c_dynstringarray_get a i = ansi_c_dynstringarray_get b i := by
  obtain ⟨c, mt1, hc, hcore, hv, _⟩ := clear_ok arr mt hok
  have hcore0 := create_result caller fresh a0 mtc mt0 0 hinit hcreate hbuf
  have hcc : core c = core a0 := by rw [hcore, hcore0]
  have hsz : c.size = 0 ∧ c.capacity = 10 := by
    simp only [core, Prod.mk.injEq] at hcore
    exact ⟨hcore.2.1, hcore.2.2⟩
  refine ⟨c, mt1, hc, hsz.1, hsz.2, ?_⟩
  obtain ⟨rets, a, n1, hp, _⟩ := push_all_spec values c m1 hv
  have hcg := push_all_congr values c a0 m1 m2 hcc hsame
  rw [hp] at hcg
  cases hq : push_all a0 values m2 with
  | none => simp [hq] at hcg
  | some y =>
    obtain ⟨rets2, b, n2⟩ := y
    simp only [hq, Option.map_some', Option.some.injEq, Prod.mk.injEq] at hcg
    obtain ⟨hr, hab, _⟩ := hcg
    subst hr
    refine ⟨rets, a, b, n1, n2, hp, rfl, ?_, ?_, get_of_core a b hab⟩
    · simp only [core, Prod.mk.injEq] at hab
      exact hab.2.1
    · simp only [core, Prod.mk.injEq] at hab
      exact hab.2.2

theorem clear_then_push_like_created_witness :
    (tracker_all_ok.outcomes 0 = true ∧ tracker_all_ok.initialized = true ∧
      ansi_c_dynstringarray_create none record_garbage tracker_all_ok =
        (0, some created_example,
          (ansi_c_dynstringarray_create none record_garbage tracker_all_ok).2.2) ∧
      created_example.data ≠ DataPtr.null ∧
      tracker_second_fails.outcomes = tracker_second_fails.outcomes) ∧
    (push_all created_example twelve_values tracker_second_fails).map Prod.fst =
      some [0, -1, 0, 0, 0, 0, 0, 0, 0, 0, 0, 0] ∧
    ∃ c mt1, ansi_c_dynstringarray_clear (some three_example) tracker_all_ok = (some c, mt1) ∧
      ansi_c_dynstringarray_size c = 0 ∧ c.capacity = 10 ∧
      ∃ rets a b n1 n2, push_all c twelve_values tracker_second_fails = some (rets, a, n1) ∧
        push_all created_example twelve_values tracker_second_fails = some (rets, b, n2) ∧
        ansi_c_dynstringarray_size a = ansi_c_dynstringarray_size b ∧
        a.capacity = b.capacity ∧
        ∀ i, ansi_c_dynstringarray_get a i = ansi_c_dynstringarray_get b i :=
  ⟨⟨rfl, rfl, rfl, by decide, rfl⟩, by decide,
    clear_then_push_like_created three_example tracker_all_ok none record_garbage
      created_example tracker_all_ok _ twelve_values tracker_second_fails
      tracker_second_fails rfl rfl rfl (by decide) rfl⟩

theorem set_realloc_fails (arr : DynStringArray) (i : Nat) (v : CStr) (mt : MemTrack)
    (al : Nat) (s : CStr) (hi : i < arr.size)
    (hslot : load_slot arr.data i = some (StrPtr.str al s)) (hlen : s.length < v.length)
    (hfail : mt.outcomes 0 = false) :
    ∃ arr1, ansi_c_dynstringarray_set arr i v mt = some (-1, arr1, mt.consume) ∧
      ansi_c_dynstringarray_get arr1 i = some StrPtr.null := by
  have h1 : ¬ i ≥ arr.size := by omega
  cases hd : arr.data with
  | invalid => simp [hd, load_slot] at hslot
  | null => simp [hd, load_slot] at hslot
  | buf d =>
    rw [hd] at hslot
    have hid : i < d.length := by
      simp only [load_slot] at hslot
      rcases List.getElem?_eq_some_iff.mp hslot with ⟨h, _⟩
      exact h
    refine ⟨{ arr with data := DataPtr.buf (d.set i StrPtr.null) }, ?_, ?_⟩
    · simp [ansi_c_dynstringarray_set, h1, hd, hslot, hlen, ansi_c_mem_track_realloc_str,
        hfail, store_slot, hid]
    · rw [get_below_size _ i (by simpa using hi)]
      simp [load_slot, hid]

theorem insert_dup_fails (arr : DynStringArray) (i : Nat) (v : CStr) (mt : MemTrack)
    (hv : arr.valid) (hi : i < arr.size) (hroom : arr.size ≠ arr.capacity)
    (hfail : mt.outcomes 0 = false) :
    ∃ arr1 mt1, ansi_c_dynstringarray_insert arr i v mt = some (0, arr1, mt1) ∧
      arr1.size = arr.size + 1 ∧ ansi_c_dynstringarray_get arr1 i = some StrPtr.null := by
  obtain ⟨a1, m1, hp, _, hs1, _, hnew, _, _⟩ := insert_middle_room arr i v mt hv hi hroom
  refine ⟨a1, m1, hp, hs1, ?_⟩
  rw [get_below_size a1 i (by omega), hnew]
  simp [STRDUP, hfail]

/-- C8, the code at a failing input: on the container `hello`, `world`, `foo`,
`ansi_c_dynstringarray_set(0, "hi there")` with the reallocation failing returns -1,
and `get(0)` is `NULL` afterwards: the slot has received the `NULL` answer of the
reallocation, the prior value `hello` is no longer retrievable; the other elements
are unchanged. -/
theorem set_realloc_failure_loses_value :
    ansi_c_dynstringarray_get three_example 0 = some (StrPtr.str 6 "hello".toList) ∧
    (ansi_c_dynstringarray_set three_example 0 "hi there".toList tracker_all_fail).map
        (fun r => (r.1, r.2.1.size, ansi_c_dynstringarray_get r.2.1 0,
          ansi_c_dynstringarray_get r.2.1 1, ansi_c_dynstringarray_get r.2.1 2)) =
      some (-1, 3, some StrPtr.null, some (StrPtr.str 6 "world".toList),
        some (StrPtr.str 4 "foo".toList)) := by
  decide

/-- C9, the code at a failing input: on the container `hello`, `world`, `foo`,
`ansi_c_dynstringarray_insert(0, "hi")` with the duplicating allocation failing
returns 0, not -1; the count becomes 4, `get(0)` is `NULL` and the prior elements
have moved up by one. -/
theorem insert_dup_failure_still_inserts :
    (ansi_c_dynstringarray_insert three_example 0 "hi".toList tracker_all_fail).map
        (fun r => (r.1, r.2.1.size, ansi_c_dynstringarray_get r.2.1 0,
          ansi_c_dynstringarray_get r.2.1 1, ansi_c_dynstringarray_get r.2.1 2,
          ansi_c_dynstringarray_get r.2.1 3)) =
      some (0, 4, some StrPtr.null, some (StrPtr.str 6 "hello".toList),
        some (StrPtr.str 6 "world".toList), some (StrPtr.str 4 "foo".toList)) := by
  rfl

theorem pushed_values_prefix (rets : List Int) (vs : List CStr) (j : Nat)
    (hj : j ≤ rets.length) (hlen : rets.length = vs.length)
    (hok : ∀ k, k < j → rets[k]? = some 0) :
    ∀ i, i < j → (pushed_values rets vs)[i]? = vs[i]? := by
  induction rets generalizing vs j with
  | nil => intro i hi; simp at hj; omega
  | cons r rs ih =>
    cases vs with
    | nil => simp at hlen
    | cons v rest =>
      intro i hi
      have hr : r = 0 := by
        have := hok 0 (by omega)
        simpa using this
      simp only [pushed_values, hr, if_true]
      cases i with
      | zero => simp
      | succ i1 =>
        simp only [List.getElem?_cons_succ]
        exact ih rest (j - 1) (by simp at hj; omega) (by simpa using hlen)
          (fun k hk => by
            have := hok (k + 1) (by omega)
            simpa using this) i1 (by omega)

/-- C10, counterexample: `ansi_c_dynstringarray_init` with the values `a`, `b` where
the push of `a` is the first (and only) one to fail: the pushes return -1 and 0, and
the container afterwards has size 1 and holds `b`, not size 0. -/
theorem init_continues_after_failed_push :
    init_push_results three_example two_values tracker_second_fails = some [-1, 0] ∧
    (ansi_c_dynstringarray_init (some three_example) two_values tracker_second_fails).map
        (fun r => r.1.map (fun a => (a.size, ansi_c_dynstringarray_get a 0))) =
      some (some (1, some (StrPtr.str 2 "b".toList))) := by
  constructor
  · decide
  · rfl

/-- C10, amended: for every list of values passed to `ansi_c_dynstringarray_init` and
every pattern of allocator outcomes in which the buffer allocation of the clearing
succeeds, every value is pushed, whether an earlier push failed or not: the
container afterwards holds, in order, exactly the values whose push returned 0
(`size()` is their number); when the push of `v_j` is the first to fail,
`v_0..v_{j-1}` are at the positions `0..j-1`. -/
theorem init_holds_successful_pushes (arr : DynStringArray) (values : List CStr)
    (mt : MemTrack) (hclear : mt.outcomes 0 = true) :
    ∃ rets arr1 mt1, init_push_results arr values mt = some rets ∧
      rets.length = values.length ∧
      ansi_c_dynstringarray_init (some arr) values mt = some (some arr1, mt1) ∧
      ansi_c_dynstringarray_size arr1 = (pushed_values rets values).length ∧
      (∀ i, (ansi_c_dynstringarray_get arr1 i).bind StrPtr.cstr =
        (pushed_values rets values)[i]?) ∧
      (∀ j, j ≤ rets.length → (∀ k, k < j → rets[k]? = some 0) →
        ∀ i, i < j → (ansi_c_dynstringarray_get arr1 i).bind StrPtr.cstr = values[i]?) := by
  obtain ⟨c, m0, hc, hcore, hv, _⟩ := clear_ok arr mt hclear
  simp only [core, Prod.mk.injEq] at hcore
  obtain ⟨_, hs, _⟩ := hcore
  obtain ⟨rets, a1, m1, hp, _, hlen, hsz, _, hnew⟩ := push_all_spec values c m0 hv
  rw [hs, Nat.zero_add] at hsz
  have hget : ∀ i, (ansi_c_dynstringarray_get a1 i).bind StrPtr.cstr =
      (pushed_values rets values)[i]? := by
    intro i
    by_cases hi : i < (pushed_values rets values).length
    · rw [get_below_size a1 i (by omega)]
      have := hnew i hi
      rw [hs, Nat.zero_add] at this
      exact this
    · rw [get_beyond_size a1 i (by omega), List.getElem?_eq_none (by omega)]
      rfl
  refine ⟨rets, a1, m1, ?_, hlen, ?_, hsz, hget, ?_⟩
  · simp [init_push_results, hc, hp]
  · simp [ansi_c_dynstringarray_init, hc, init_loop_eq_push_all, hp]
  · intro j hj hok i hi
    rw [hget i]
    exact pushed_values_prefix rets values j hj hlen hok i hi

theorem init_holds_successful_pushes_witness :
    tracker_second_fails.outcomes 0 = true ∧
    ∃ rets arr1 mt1, init_push_results three_example two_values tracker_second_fails =
        some rets ∧
      rets.length = two_values.length ∧
      ansi_c_dynstringarray_init (some three_example) two_values tracker_second_fails =
        some (some arr1, mt1) ∧
      ansi_c_dynstringarray_size arr1 = (pushed_values rets two_values).length ∧
      (∀ i, (ansi_c_dynstringarray_get arr1 i).bind StrPtr.cstr =
        (pushed_values rets two_values)[i]?) ∧
      (∀ j, j ≤ rets.length → (∀ k, k < j → rets[k]? = some 0) →
        ∀ i, i < j →
          (ansi_c_dynstringarray_get arr1 i).bind StrPtr.cstr = two_values[i]?) :=
  ⟨rfl, init_holds_successful_pushes three_example two_values tracker_second_fails rfl⟩

theorem push_grow_fail_live (arr : DynStringArray) (v : CStr) (mt : MemTrack)
    (h0 : mt.outcomes 0 = true) (h1 : mt.outcomes 1 = false)
    (hfull : arr.size = arr.capacity) (hb : arr.data ≠ DataPtr.invalid) :
    ∃ mt1, ansi_c_dynstringarray_push arr v mt = some (-1, arr, mt1) ∧
      mt1.live = mt.live ∧ ∀ k, mt1.outcomes k = mt.outcomes (k + 2) := by
  have hres := resize_grow_fail arr (arr.size + 1)
    { mt.consume with live := arr.data_object_id :: mt.live } (by omega) hb h1
  unfold ansi_c_dynstringarray_push
  simp only [STRDUP, h0, if_true, reduceCtorEq, if_false, hfull]
  rw [hfull] at hres
  generalize hR : ansi_c_dynstringarray_resize _ _ _ = R
  have hR2 := hR.symm.trans hres
  subst hR2
  refine ⟨{
      initialized := mt.initialized
      outcomes := fun k => mt.outcomes (k + 1 + 1)
      next_object_id := mt.next_object_id
      live := (arr.data_object_id :: mt.live).erase arr.data_object_id }, ?_, ?_, ?_⟩
  · simp [ansi_c_mem_track_free, MemTrack.consume]
  · simp
  · intro k
    rfl

/-- C11: for every container with `count == capacity` whose buffer pointer is `NULL`
or a live block, and every value `v`, when the value is duplicated and the growth of
the buffer then fails, `ansi_c_dynstringarray_push(v)` returns -1 and the container
is unchanged (the record is the same, so count, capacity and every `get(k)` are as
before), and the duplicated value has been released: the live blocks of the
allocator are those of before the call. -/
theorem push_growth_failure_leaves_container (arr : DynStringArray) (v : CStr)
    (mt : MemTrack) (hfull : arr.size = arr.capacity) (hb : arr.data ≠ DataPtr.invalid)
    (hdup : mt.outcomes 0 = true) (hgrow : mt.outcomes 1 = false) :
    ∃ arr1 mt1, ansi_c_dynstringarray_push arr v mt = some (-1, arr1, mt1) ∧
      arr1 = arr ∧
      ansi_c_dynstringarray_size arr1 = ansi_c_dynstringarray_size arr ∧
      arr1.capacity = arr.capacity ∧
      (∀ k, ansi_c_dynstringarray_get arr1 k = ansi_c_dynstringarray_get arr k) ∧
      mt1.live = mt.live := by
  obtain ⟨mt1, hp, hl, _⟩ := push_grow_fail_live arr v mt hdup hgrow hfull hb
  exact ⟨arr, mt1, hp, rfl, rfl, rfl, fun _ => rfl, hl⟩

theorem push_growth_failure_leaves_container_witness :
    (full_example.size = full_example.capacity ∧ full_example.data ≠ DataPtr.invalid ∧
      tracker_second_fails.outcomes 0 = true ∧ tracker_second_fails.outcomes 1 = false) ∧
    (ansi_c_dynstringarray_push full_example "x".toList tracker_second_fails).map
        (fun r => (r.1, r.2.1, r.2.2.live)) = some (-1, full_example, []) ∧
    ∃ arr1 mt1, ansi_c_dynstringarray_push full_example "x".toList tracker_second_fails =
        some (-1, arr1, mt1) ∧
      arr1 = full_example ∧
      ansi_c_dynstringarray_size arr1 = ansi_c_dynstringarray_size full_example ∧
      arr1.capacity = full_example.capacity ∧
      (∀ k, ansi_c_dynstringarray_get arr1 k = ansi_c_dynstringarray_get full_example k) ∧
      mt1.live = tracker_second_fails.live :=
  ⟨⟨by decide, by decide, rfl, rfl⟩, by decide,
    push_growth_failure_leaves_container full_example "x".toList tracker_second_fails
      (by decide) (by decide) rfl rfl⟩

theorem create_return_code (caller : Option DynStringArray) (fresh : DynStringArray)
    (mt : MemTrack) :
    (ansi_c_dynstringarray_create caller fresh mt).1 =
      if mt.initialized = true ∧ caller = none ∧ mt.outcomes 0 = false then -1 else 0 := by
  unfold ansi_c_dynstringarray_create
  cases hi : mt.initialized with
  | false => simp [ansi_c_mem_track_is_initialized, hi]
  | true =>
    cases caller with
    | some r => simp [ansi_c_mem_track_is_initialized, hi]
    | none =>
      cases h0 : mt.outcomes 0 with
      | false =>
        simp [ansi_c_mem_track_is_initialized, hi, ansi_c_mem_track_get_next_object_id,
          ansi_c_mem_track_malloc_record, h0]
      | true =>
        simp [ansi_c_mem_track_is_initialized, hi, ansi_c_mem_track_get_next_object_id,
          ansi_c_mem_track_malloc_record, h0]

theorem initdata_failure (arr : DynStringArray) (mode : dyn_arr_alloc_mode) (mt : MemTrack)
    (hfail : mt.outcomes 0 = false) :
    ansi_c_dynstringarray_initdata arr mode mt =
      (false, { arr with data := DataPtr.null, capacity := 0 }, mt.consume) := by
  simp [ansi_c_dynstringarray_initdata, ansi_c_mem_track_malloc_slots, hfail]

/-- C12, the code at failing inputs: `ansi_c_dynstringarray_create` returns 0 when
the tracker is not initialised (the caller's reference stays `NULL`), and returns 0
when the record is allocated and the buffer allocation fails (the record then has no
buffer and capacity 0); only the failure of the record allocation returns -1. -/
theorem create_returns_zero_without_success :
    (ansi_c_dynstringarray_create none record_garbage tracker_uninitialised).1 = 0 ∧
    (ansi_c_dynstringarray_create none record_garbage tracker_uninitialised).2.1 = none ∧
    (ansi_c_dynstringarray_create none record_garbage tracker_second_fails).1 = 0 ∧
    ((ansi_c_dynstringarray_create none record_garbage tracker_second_fails).2.1).map
        (fun a => (a.data, a.capacity)) = some (DataPtr.null, 0) ∧
    (ansi_c_dynstringarray_create none record_garbage tracker_all_fail).1 = -1 := by
  decide

/-- C13, the code at failing inputs: when the buffer allocation inside
`ansi_c_dynstringarray_create` fails, the capacity is 0 and the count is whatever the
record held before: 77 for a caller's record that held 77, and 77 for a newly
allocated record whose indeterminate content is 77. -/
theorem create_failure_keeps_prior_count :
    record_garbage.size = 77 ∧
    ((ansi_c_dynstringarray_create (some record_garbage) record_garbage tracker_all_fail).2.1).map
        (fun a => (a.capacity, a.size)) = some (0, 77) ∧
    ((ansi_c_dynstringarray_create none record_garbage tracker_second_fails).2.1).map
        (fun a => (a.capacity, a.size)) = some (0, 77) := by
  decide

theorem destroy_static (a : DynStringArray) (mt : MemTrack)
    (hmode : a.alloc_mode = dyn_arr_alloc_mode.DYN_ARR_STATIC) :
    (ansi_c_dynstringarray_destroy (some a) mt).1 =
      some { a with data := a.data.released, capacity := 0 } := by
  simp [ansi_c_dynstringarray_destroy, hmode]

theorem destroy_dynamic (a : DynStringArray) (mt : MemTrack)
    (hmode : a.alloc_mode = dyn_arr_alloc_mode.DYN_ARR_DYNAMIC) :
    (ansi_c_dynstringarray_destroy (some a) mt).1 = none := by
  simp [ansi_c_dynstringarray_destroy, hmode]

/-- C14, the code at a failing input: `ansi_c_dynstringarray_destroy` sets the
caller's reference to `NULL` for a record it allocated, and for a caller's record
holding `hello`, `world`, `foo` it leaves the record with capacity 0, the buffer
pointer dangling and the count still 3. -/
theorem destroy_static_keeps_count :
    (ansi_c_dynstringarray_destroy (some three_example) tracker_all_ok).1 = none ∧
    static_example.size = 3 ∧
    ((ansi_c_dynstringarray_destroy (some static_example) tracker_all_ok).1).map
        (fun a => (a.capacity, a.size, a.data)) = some (0, 3, DataPtr.invalid) := by
  decide

theorem set_null_slot_undefined (arr : DynStringArray) (i : Nat) (v : CStr) (mt : MemTrack)
    (hi : i < arr.size) (hnull : load_slot arr.data i = some StrPtr.null) :
    ansi_c_dynstringarray_set arr i v mt = none := by
  have h1 : ¬ i ≥ arr.size := by omega
  simp [ansi_c_dynstringarray_set, h1, hnull]

/-- C15, the code at a failing input: after `resize(5)` on the container `hello`,
`world`, `foo` the slot 3 is `NULL`, and `ansi_c_dynstringarray_set(3, "x")` is
undefined there (it takes the length of the string behind the `NULL` pointer), as is
`ansi_c_dynstringarray_removeAt(3, buffer, 10)`. -/
theorem set_on_empty_slot_undefined :
    (ansi_c_dynstringarray_resize three_example 5 tracker_all_ok).map
        (fun r => (r.1, r.2.1)) = some (0, resized_example) ∧
    ansi_c_dynstringarray_get resized_example 3 = some StrPtr.null ∧
    (ansi_c_dynstringarray_set resized_example 3 "x".toList tracker_all_ok).isNone = true ∧
    (ansi_c_dynstringarray_removeAt resized_example 3 (some ten_bytes) 10
      tracker_all_ok).isNone = true := by
  decide

/-- C16: for every container and value `v`, `ansi_c_dynstringarray_insert(i, v)` with
`i > count` and `ansi_c_dynstringarray_set(j, v)` with `j ≥ count` each return -1 and
leave the container as it was (the record is the same, so count, capacity and every
`get(k)` are unchanged); the allocator is left as it was, no allocation having been
requested. -/
theorem out_of_range_index_rejected (arr : DynStringArray) (i j : Nat) (v : CStr)
    (mt : MemTrack) (hi : i > arr.size) (hj : j ≥ arr.size) :
    ansi_c_dynstringarray_insert arr i v mt = some (-1, arr, mt) ∧
    ansi_c_dynstringarray_set arr j v mt = some (-1, arr, mt) := by
  constructor
  · simp [ansi_c_dynstringarray_insert, hi]
  · simp [ansi_c_dynstringarray_set, hj]

theorem out_of_range_index_rejected_witness :
    (4 > three_example.size ∧ 3 ≥ three_example.size) ∧
    ansi_c_dynstringarray_insert three_example 4 "x".toList tracker_all_ok =
      some (-1, three_example, tracker_all_ok) ∧
    ansi_c_dynstringarray_set three_example 3 "x".toList tracker_all_ok =
      some (-1, three_example, tracker_all_ok) :=
  ⟨⟨by decide, by decide⟩,
    out_of_range_index_rejected three_example 4 3 "x".toList tracker_all_ok
      (by decide) (by decide)⟩

theorem removeAt_in_range (arr : DynStringArray) (i : Nat) (buffer : Option (List Char))
    (buf_size : Nat) (mt : MemTrack)
    (hv : arr.valid) (hstr : holds_strings arr) (hi : i < arr.size)
    (hbuf : ∀ b, buffer = some b → buf_size ≤ b.length) :
    ∃ arr1 out mt1, ansi_c_dynstringarray_removeAt arr i buffer buf_size mt =
        some (arr.size - 1, arr1, out, mt1) ∧
      arr1.size = arr.size - 1 ∧ arr1.capacity = arr.capacity ∧
      removeAt_copy arr.data i buffer buf_size = some out ∧
      (∀ k, k < i → load_slot arr1.data k = load_slot arr.data k) ∧
      (∀ k, i ≤ k → k + 1 < arr.size → load_slot arr1.data k = load_slot arr.data (k + 1)) ∧
      buffer_valid arr1 := by
  obtain ⟨hsz, hbv⟩ := hv
  obtain ⟨al, s, hsl⟩ := hstr i hi
  have h1 : ¬ i ≥ arr.size := by omega
  cases hd : arr.data with
  | invalid => simp [buffer_valid, hd] at hbv
  | null => simp [buffer_valid, hd] at hbv; omega
  | buf d =>
    simp only [buffer_valid, hd] at hbv
    rw [hd] at hsl
    have hid : i < d.length := by omega
    obtain ⟨out, hout⟩ := removeAt_copy_some (DataPtr.buf d) i buffer buf_size al s hsl hbuf
    obtain ⟨e1, e2, e3⟩ := shift_left_spec (d.set i StrPtr.invalid) i arr.size hi
      (by simp; omega)
    by_cases hmove : i < arr.size - 1
    · refine ⟨{ arr with
          data := DataPtr.buf ((d.set i StrPtr.invalid).take i ++
            ((d.set i StrPtr.invalid).drop (i + 1)).take (arr.size - i - 1) ++
            (d.set i StrPtr.invalid).drop (i + (arr.size - i - 1))),
          size := arr.size - 1 }, out,
        { mt with live := mt.live.erase arr.data_object_id }, ?_, rfl, rfl, hout, ?_, ?_, ?_⟩
      · simp only [ansi_c_dynstringarray_removeAt, h1, if_false, hd, hout, hsl,
          ansi_c_mem_track_free, store_slot, hid, if_true, hmove, memmove_slots,
          List.length_set]
        rw [if_pos (by omega)]
      · intro k hk
        simp only [load_slot]
        rw [e2 k hk, List.getElem?_set_ne (by omega)]
      · intro k hk1 hk2
        simp only [load_slot]
        rw [e3 k hk1 (by omega), List.getElem?_set_ne (by omega)]
      · simp only [buffer_valid, e1, List.length_set]
        exact hbv
    · refine ⟨{ arr with data := DataPtr.buf (d.set i StrPtr.invalid), size := arr.size - 1 },
        out, { mt with live := mt.live.erase arr.data_object_id }, ?_, rfl, rfl, hout,
        ?_, ?_, ?_⟩
      · simp only [ansi_c_dynstringarray_removeAt, h1, if_false, hd, hout, hsl,
          ansi_c_mem_track_free, store_slot, hid, if_true, hmove]
      · intro k hk
        simp only [load_slot]
        rw [List.getElem?_set_ne (by omega)]
      · intro k hk1 hk2
        omega
      · simp only [buffer_valid, List.length_set]
        exact hbv

/-- C17: for every container and every index `≥ count`,
`ansi_c_dynstringarray_removeAt` returns the current count and changes nothing: the
record (count, capacity, all elements), the caller's buffer and the allocator are as
before.  Consequently, on a container that satisfies the data-model invariants and
whose slots below `count` hold strings, with a buffer of at least `buf_size` bytes,
the call returns a value, and that value is strictly less than the count before the
call if and only if an element was removed (the count has decreased), which is the
case exactly for an index `< count`. -/
theorem removeAt_out_of_range_is_noop (arr : DynStringArray) (i : Nat)
    (buffer : Option (List Char)) (buf_size : Nat) (mt : MemTrack) :
    (arr.size ≤ i →
      ansi_c_dynstringarray_removeAt arr i buffer buf_size mt =
        some (ansi_c_dynstringarray_size arr, arr, buffer, mt)) ∧
    (arr.valid → holds_strings arr → (∀ b, buffer = some b → buf_size ≤ b.length) →
      ∃ r arr1 out mt1,
        ansi_c_dynstringarray_removeAt arr i buffer buf_size mt = some (r, arr1, out, mt1) ∧
        (r < ansi_c_dynstringarray_size arr ↔
          ansi_c_dynstringarray_size arr1 < ansi_c_dynstringarray_size arr) ∧
        (r < ansi_c_dynstringarray_size arr ↔ i < ansi_c_dynstringarray_size arr)) := by
  have hout : arr.size ≤ i →
      ansi_c_dynstringarray_removeAt arr i buffer buf_size mt =
        some (arr.size, arr, buffer, mt) := by
    intro h
    simp [ansi_c_dynstringarray_removeAt, h]
  refine ⟨hout, ?_⟩
  intro hv hstr hbuf
  by_cases hi : i < arr.size
  · obtain ⟨a1, out, m1, hr, hs1, _⟩ := removeAt_in_range arr i buffer buf_size mt hv hstr hi hbuf
    refine ⟨arr.size - 1, a1, out, m1, hr, ?_, ?_⟩
    · simp only [ansi_c_dynstringarray_size, hs1]
    · simp only [ansi_c_dynstringarray_size]
      omega
  · refine ⟨arr.size, arr, buffer, mt, hout (by omega), ?_, ?_⟩
    · simp only [ansi_c_dynstringarray_size]
    · simp only [ansi_c_dynstringarray_size]
      omega

theorem removeAt_out_of_range_is_noop_witness :
    (ansi_c_dynstringarray_removeAt three_example 3 (some ten_bytes) 10 tracker_all_ok).map
        (fun r => (r.1, r.2.1, r.2.2.1)) = some (3, three_example, some ten_bytes) ∧
    (ansi_c_dynstringarray_removeAt three_example 2 (some ten_bytes) 10 tracker_all_ok).map
        (fun r => (r.1, r.2.1.size)) = some (2, 2) ∧
    (three_example.size ≤ 3 →
      ansi_c_dynstringarray_removeAt three_example 3 (some ten_bytes) 10 tracker_all_ok =
        some (ansi_c_dynstringarray_size three_example, three_example, some ten_bytes,
          tracker_all_ok)) ∧
    (three_example.valid → holds_strings three_example →
      (∀ b, some ten_bytes = some b → 10 ≤ b.length) →
      ∃ r arr1 out mt1,
        ansi_c_dynstringarray_removeAt three_example 3 (some ten_bytes) 10 tracker_all_ok =
          some (r, arr1, out, mt1) ∧
        (r < ansi_c_dynstringarray_size three_example ↔
          ansi_c_dynstringarray_size arr1 < ansi_c_dynstringarray_size three_example) ∧
        (r < ansi_c_dynstringarray_size three_example ↔
          3 < ansi_c_dynstringarray_size three_example)) :=
  ⟨by decide, by decide,
    removeAt_out_of_range_is_noop three_example 3 (some ten_bytes) 10 tracker_all_ok⟩

theorem smallest_block_multiple_spec (n : Nat) :
    smallest_block_multiple n % 10 = 0 ∧ n ≤ smallest_block_multiple n ∧
      ∀ m, m % 10 = 0 → n ≤ m → smallest_block_multiple n ≤ m := by
  simp only [smallest_block_multiple, DYNSTRINGARRAY_DEFAULT_CAPACITY]
  refine ⟨by omega, by omega, ?_⟩
  intro m hm hn
  omega

theorem resize_capacity_loop_blocks (fuel c n : Nat) (hc : c % 10 = 0) (hf : n - c ≤ fuel) :
    resize_capacity_loop fuel c n = max c (smallest_block_multiple n) := by
  induction fuel generalizing c with
  | zero =>
    simp only [resize_capacity_loop, smallest_block_multiple, DYNSTRINGARRAY_DEFAULT_CAPACITY]
    omega
  | succ f ih =>
    simp only [resize_capacity_loop]
    split
    · rw [ih (c + DYNSTRINGARRAY_DEFAULT_CAPACITY)
        (by simp only [DYNSTRINGARRAY_DEFAULT_CAPACITY]; omega)
        (by simp only [DYNSTRINGARRAY_DEFAULT_CAPACITY]; omega)]
      simp only [smallest_block_multiple, DYNSTRINGARRAY_DEFAULT_CAPACITY]
      omega
    · simp only [smallest_block_multiple, DYNSTRINGARRAY_DEFAULT_CAPACITY]
      omega

/-- C20, counterexample: a container with 3 elements and capacity 20 is what twelve
pushes on a created container followed by `resize(3)` leave; on such a container
`ansi_c_dynstringarray_resize(5)` with the reallocation succeeding returns 0 and
leaves the capacity at 20, while the smallest multiple of the block size that is
at least 5 is 10; the same with `size_t` a 64-bit unsigned integer. -/
theorem resize_keeps_larger_capacity :
    ((push_all created_example twelve_values tracker_all_ok).bind
        (fun r => ansi_c_dynstringarray_resize r.2.1 3 r.2.2)).map
        (fun r => (r.1, r.2.1.size, r.2.1.capacity)) = some (0, 3, 20) ∧
    roomy_example.size = 3 ∧ roomy_example.capacity = 20 ∧
    (ansi_c_dynstringarray_resize roomy_example 5 tracker_all_ok).map
        (fun r => (r.1, r.2.1.size, r.2.1.capacity)) = some (0, 5, 20) ∧
    smallest_block_multiple 5 = 10 ∧
    (ansi_c_dynstringarray_resize64 1 roomy_example 5 tracker_all_ok).map
        (fun r => (r.1, r.2.1.size, r.2.1.capacity)) = some (0, 5, 20) := by
  decide

/-- The function `ansi_c_dynstringarray_resize` read on unbounded integers: when the
capacity is a multiple of the block size and the reallocation succeeds, a growing
resize leaves the larger of the capacity and the smallest multiple of 10 that is at
least `new_size`. -/
theorem resize_unbounded_capacity (arr : DynStringArray) (new_size : Nat) (mt : MemTrack)
    (hgt : arr.size < new_size) (hcap : arr.capacity % 10 = 0)
    (hb : arr.data ≠ DataPtr.invalid) (hok : mt.outcomes 0 = true) :
    ∃ arr1 mt1, ansi_c_dynstringarray_resize arr new_size mt = some (0, arr1, mt1) ∧
      arr1.capacity = max arr.capacity (smallest_block_multiple new_size) ∧
      (arr.capacity < new_size → arr1.capacity = smallest_block_multiple new_size) ∧
      (new_size ≤ arr.capacity → arr1.capacity = arr.capacity) := by
  obtain ⟨d1, mt1, hres, _, _, _, _⟩ := resize_grow_ok arr new_size mt hgt hb hok
  have hloop := resize_capacity_loop_blocks new_size arr.capacity new_size hcap (by omega)
  obtain ⟨h1, h2, h3⟩ := smallest_block_multiple_spec new_size
  refine ⟨_, mt1, hres, hloop, ?_, ?_⟩
  · intro hlt
    simp only [hloop]
    have := h3 (arr.capacity + 10 * (new_size / 10 + 1)) (by omega) (by omega)
    have hle : arr.capacity ≤ smallest_block_multiple new_size := by omega
    exact Nat.max_eq_right hle
  · intro hle
    simp only [hloop]
    exact Nat.max_eq_left (h3 arr.capacity hcap hle)

theorem store_slot_buffer (data data1 : DataPtr) (i : Nat) (p : StrPtr)
    (h : store_slot data i p = some data1) :
    ∃ d, data = DataPtr.buf d ∧ i < d.length ∧ data1 = DataPtr.buf (d.set i p) := by
  cases data with
  | invalid => simp [store_slot] at h
  | null => simp [store_slot] at h
  | buf d =>
    simp only [store_slot] at h
    split at h
    · rename_i hlt
      simp at h
      exact ⟨d, rfl, hlt, h.symm⟩
    · simp at h

theorem resize_free_loop_length (n : Nat) (d : List StrPtr) (data1 : DataPtr) (i objid : Nat)
    (mt m1 : MemTrack)
    (h : resize_free_loop n (DataPtr.buf d) i objid mt = some (data1, m1)) :
    ∃ d1, data1 = DataPtr.buf d1 ∧ d1.length = d.length := by
  induction n generalizing d i mt with
  | zero =>
    simp [resize_free_loop] at h
    exact ⟨d, h.1.symm, rfl⟩
  | succ m ih =>
    simp only [resize_free_loop] at h
    cases hl : load_slot (DataPtr.buf d) i with
    | none => simp [hl] at h
    | some p =>
      simp only [hl] at h
      cases hf : ansi_c_mem_track_free mt p objid with
      | none => simp [hf] at h
      | some x =>
        obtain ⟨p1, m2⟩ := x
        simp only [hf] at h
        cases hs : store_slot (DataPtr.buf d) i p1 with
        | none => simp [hs] at h
        | some d2 =>
          simp only [hs] at h
          obtain ⟨d0, hd0, _, hd2⟩ := store_slot_buffer _ _ _ _ hs
          simp only [DataPtr.buf.injEq] at hd0
          subst hd0 hd2
          obtain ⟨d1, e1, e2⟩ := ih _ _ _ h
          exact ⟨d1, e1, by simpa using e2⟩

theorem resize_preserves_valid (arr a1 : DynStringArray) (n : Nat) (mt m1 : MemTrack)
    (r : Int) (hv : arr.valid)
    (h : ansi_c_dynstringarray_resize arr n mt = some (r, a1, m1)) : a1.valid := by
  have hv0 := hv
  obtain ⟨hsz, hbv⟩ := hv
  have hb : arr.data ≠ DataPtr.invalid := by
    intro hx; simp [buffer_valid, hx] at hbv
  rcases Nat.lt_trichotomy n arr.size with hlt | heq | hgt
  · have hne : ¬ n = arr.size := by omega
    simp only [ansi_c_dynstringarray_resize, hne, hlt, if_false, if_true] at h
    cases hd : arr.data with
    | invalid => exact absurd hd hb
    | null => simp [buffer_valid, hd] at hbv; omega
    | buf d =>
      simp only [buffer_valid, hd] at hbv
      rw [hd] at h
      cases hf : resize_free_loop (arr.size - n) (DataPtr.buf d) n arr.data_object_id mt with
      | none => simp [hf] at h
      | some x =>
        obtain ⟨data1, m2⟩ := x
        simp only [hf, Option.some.injEq, Prod.mk.injEq] at h
        obtain ⟨d1, e1, e2⟩ := resize_free_loop_length _ _ _ _ _ _ _ hf
        obtain ⟨_, ha, _⟩ := h
        subst ha
        constructor
        · simp only []; omega
        · simp only [buffer_valid, e1, e2]; exact hbv
  · subst heq
    simp [ansi_c_dynstringarray_resize] at h
    rw [← h.2.1]
    exact hv0
  · by_cases hok : mt.outcomes 0 = true
    · obtain ⟨d1, mt1, hres, hlen, _, _, _⟩ := resize_grow_ok arr n mt hgt hb hok
      rw [hres] at h
      simp only [Option.some.injEq, Prod.mk.injEq] at h
      obtain ⟨_, ha, _⟩ := h
      subst ha
      constructor
      · exact resize_capacity_loop_reaches n arr.capacity n (by omega)
      · simp only [buffer_valid, hlen]
        exact Nat.le_refl _
    · have hfail : mt.outcomes 0 = false := by simpa using hok
      rw [resize_grow_fail arr n mt hgt hb hfail] at h
      simp only [Option.some.injEq, Prod.mk.injEq] at h
      rw [← h.2.1]
      exact hv0

theorem push_preserves_valid (arr a1 : DynStringArray) (v : CStr) (mt m1 : MemTrack)
    (r : Int) (hv : arr.valid)
    (h : ansi_c_dynstringarray_push arr v mt = some (r, a1, m1)) : a1.valid := by
  obtain ⟨r2, a2, m2, hp, hv2, _⟩ := push_spec arr v mt hv
  rw [hp] at h
  simp only [Option.some.injEq, Prod.mk.injEq] at h
  rw [← h.2.1]
  exact hv2

theorem insert_preserves_valid (arr a1 : DynStringArray) (i : Nat) (v : CStr)
    (mt m1 : MemTrack) (r : Int) (hv : arr.valid)
    (h : ansi_c_dynstringarray_insert arr i v mt = some (r, a1, m1)) : a1.valid := by
  have hb : arr.data ≠ DataPtr.invalid := by
    intro hx; simp [DynStringArray.valid, buffer_valid, hx] at hv
  rcases Nat.lt_trichotomy i arr.size with hlt | heq | hgt
  · by_cases hfull : arr.size = arr.capacity
    · by_cases hok : mt.outcomes 0 = true
      · obtain ⟨a2, m2, hp, hv2, _⟩ := insert_middle_full arr i v mt hv hlt hfull hok
        rw [hp] at h
        simp only [Option.some.injEq, Prod.mk.injEq] at h
        rw [← h.2.1]
        exact hv2
      · have hfail : mt.outcomes 0 = false := by simpa using hok
        rw [insert_middle_full_fail arr i v mt hb hlt hfull hfail] at h
        simp only [Option.some.injEq, Prod.mk.injEq] at h
        rw [← h.2.1]
        exact hv
    · obtain ⟨a2, m2, hp, hv2, _⟩ := insert_middle_room arr i v mt hv hlt hfull
      rw [hp] at h
      simp only [Option.some.injEq, Prod.mk.injEq] at h
      rw [← h.2.1]
      exact hv2
  · subst heq
    simp only [ansi_c_dynstringarray_insert, gt_iff_lt, Nat.lt_irrefl, if_false, if_true] at h
    exact push_preserves_valid arr a1 v mt m1 r hv h
  · simp only [ansi_c_dynstringarray_insert, hgt, if_true, Option.some.injEq,
      Prod.mk.injEq] at h
    rw [← h.2.1]
    exact hv

theorem set_preserves_valid (arr a1 : DynStringArray) (i : Nat) (v : CStr)
    (mt m1 : MemTrack) (r : Int) (hv : arr.valid)
    (h : ansi_c_dynstringarray_set arr i v mt = some (r, a1, m1)) : a1.valid := by
  have key : ∀ (data1 : DataPtr) (p : StrPtr), store_slot arr.data i p = some data1 →
      ({ arr with data := data1 } : DynStringArray).valid := by
    intro data1 p hs
    obtain ⟨d, hd, _, hd1⟩ := store_slot_buffer _ _ _ _ hs
    obtain ⟨hsz, hbv⟩ := hv
    constructor
    · exact hsz
    · simp only [buffer_valid, hd] at hbv
      simp only [buffer_valid, hd1, List.length_set]
      exact hbv
  unfold ansi_c_dynstringarray_set at h
  split at h
  · simp only [Option.some.injEq, Prod.mk.injEq] at h
    rw [← h.2.1]
    exact hv
  · simp only [] at h
    split at h
    · split at h
      · split at h
        · simp at h
        · split at h
          · simp at h
          · rename_i hs
            simp only [Option.some.injEq, Prod.mk.injEq] at h
            rw [← h.2.1]
            exact key _ _ hs
        · split at h
          · simp at h
          · split at h
            · simp at h
            · rename_i hs
              simp only [Option.some.injEq, Prod.mk.injEq] at h
              rw [← h.2.1]
              exact key _ _ hs
      · split at h
        · simp at h
        · split at h
          · simp at h
          · rename_i hs
            simp only [Option.some.injEq, Prod.mk.injEq] at h
            rw [← h.2.1]
            exact key _ _ hs
    · simp at h

theorem removeAt_preserves_valid (arr a1 : DynStringArray) (i : Nat)
    (buffer out : Option (List Char)) (buf_size r : Nat) (mt m1 : MemTrack) (hv : arr.valid)
    (h : ansi_c_dynstringarray_removeAt arr i buffer buf_size mt = some (r, a1, out, m1)) :
    a1.valid := by
  by_cases hi : i ≥ arr.size
  · simp only [ansi_c_dynstringarray_removeAt, hi, if_true, Option.some.injEq,
      Prod.mk.injEq] at h
    rw [← h.2.1]
    exact hv
  · obtain ⟨hsz, hbv⟩ := hv
    simp only [ansi_c_dynstringarray_removeAt, hi, if_false] at h
    cases hc : removeAt_copy arr.data i buffer buf_size with
    | none => simp [hc] at h
    | some b1 =>
      simp only [hc] at h
      cases hl : load_slot arr.data i with
      | none => simp [hl] at h
      | some p =>
        simp only [hl] at h
        cases hf : ansi_c_mem_track_free mt p arr.data_object_id with
        | none => simp [hf] at h
        | some x =>
          obtain ⟨p1, m2⟩ := x
          simp only [hf] at h
          cases hs : store_slot arr.data i p1 with
          | none => simp [hs] at h
          | some data1 =>
            simp only [hs] at h
            obtain ⟨d, hd, hid, hd1⟩ := store_slot_buffer _ _ _ _ hs
            simp only [buffer_valid, hd] at hbv
            subst hd1
            by_cases hmove : i < arr.size - 1
            · simp only [hmove, if_true, memmove_slots, List.length_set] at h
              rw [if_pos (by omega)] at h
              simp only [Option.some.injEq, Prod.mk.injEq] at h
              obtain ⟨e1, _, _⟩ := shift_left_spec (d.set i p1) i arr.size (by omega)
                (by simp; omega)
              rw [← h.2.1]
              constructor
              · simp only []; omega
              · simp only [buffer_valid, e1, List.length_set]
                exact hbv
            · simp only [hmove, if_false, Option.some.injEq, Prod.mk.injEq] at h
              rw [← h.2.1]
              constructor
              · simp only []; omega
              · simp only [buffer_valid, List.length_set]
                exact hbv

theorem clear_failure (arr : DynStringArray) (mt : MemTrack) (hfail : mt.outcomes 0 = false) :
    (ansi_c_dynstringarray_clear (some arr) mt).1 =
      some { arr with data := DataPtr.null, capacity := DYNSTRINGARRAY_DEFAULT_CAPACITY,
                      size := 0 } := by
  have hm : (ansi_c_mem_track_free_by_object_id mt arr.data_object_id).outcomes 0 = false :=
    hfail
  simp [ansi_c_dynstringarray_clear, ansi_c_mem_track_malloc_slots, hm]

theorem push_after_failed_clear_undefined (arr : DynStringArray) (v : CStr) (mt : MemTrack)
    (hd : arr.data = DataPtr.null) (hne : arr.size ≠ arr.capacity)
    (hok : mt.outcomes 0 = true) :
    ansi_c_dynstringarray_push arr v mt = none := by
  simp [ansi_c_dynstringarray_push, STRDUP, hok, hne, store_slot, hd]

/-- C18, the code at failing inputs: `count ≤ capacity` holds for the caller's record
`hello`, `world`, `foo` and no longer holds after `ansi_c_dynstringarray_destroy` of
it (capacity 0, count 3); and it does not hold after
`ansi_c_dynstringarray_create` on a caller's record when the buffer allocation fails
(capacity 0, count as before, here 77). -/
theorem count_exceeds_capacity_after_destroy_and_failed_create :
    static_example.size ≤ static_example.capacity ∧
    ((ansi_c_dynstringarray_destroy (some static_example) tracker_all_ok).1).map
        (fun a => decide (a.size ≤ a.capacity)) = some false ∧
    (ansi_c_dynstringarray_create (some record_garbage) record_garbage tracker_all_fail).1
      = 0 ∧
    ((ansi_c_dynstringarray_create (some record_garbage) record_garbage
        tracker_all_fail).2.1).map (fun a => decide (a.size ≤ a.capacity)) = some false := by
  decide

/-- C19, the code at a failing input: the container `hello`, `world`, `foo` has a
valid buffer; after `ansi_c_dynstringarray_clear` with its buffer allocation failing
the capacity is 10 and the buffer pointer is `NULL`, so buffer validity does not
hold, and a following `ansi_c_dynstringarray_push` is undefined (it stores through
the `NULL` pointer). -/
theorem clear_failure_breaks_buffer_validity :
    decide (buffer_valid three_example) = true ∧
    (ansi_c_dynstringarray_clear (some three_example) tracker_all_fail).1 =
      some failed_clear_example ∧
    failed_clear_example.capacity = 10 ∧ failed_clear_example.data = DataPtr.null ∧
    decide (buffer_valid failed_clear_example) = false ∧
    (ansi_c_dynstringarray_push failed_clear_example "x".toList tracker_all_ok).isNone
      = true := by
  decide

theorem removeAt_copy_content (data : DataPtr) (i : Nat) (b : List Char) (buf_size al : Nat)
    (s : CStr) (hsl : load_slot data i = some (StrPtr.str al s)) (hpos : 0 < buf_size)
    (hb : buf_size ≤ b.length) :
    removeAt_copy data i (some b) buf_size =
      some (some (s.take (min s.length (buf_size - 1)) ++ [Char.ofNat 0] ++
        b.drop (min s.length (buf_size - 1) + 1))) := by
  have hlen : (if s.length ≥ buf_size then buf_size - 1 else s.length) =
      min s.length (buf_size - 1) := by
    split <;> omega
  have hlt : min s.length (buf_size - 1) < b.length := by omega
  simp only [removeAt_copy, gt_iff_lt, hpos, if_true, hsl, hlen, hlt]

theorem removeAt_at_string (arr : DynStringArray) (i : Nat) (buffer : Option (List Char))
    (buf_size : Nat) (mt : MemTrack) (al : Nat) (s : CStr)
    (hv : arr.valid) (hi : i < arr.size)
    (hsl : load_slot arr.data i = some (StrPtr.str al s))
    (hbuf : ∀ b, buffer = some b → buf_size ≤ b.length) :
    ∃ arr1 out mt1, ansi_c_dynstringarray_removeAt arr i buffer buf_size mt =
        some (arr.size - 1, arr1, out, mt1) ∧
      arr1.size = arr.size - 1 ∧ arr1.capacity = arr.capacity ∧
      removeAt_copy arr.data i buffer buf_size = some out ∧
      (∀ k, k < i → load_slot arr1.data k = load_slot arr.data k) ∧
      (∀ k, i ≤ k → k + 1 < arr.size → load_slot arr1.data k = load_slot arr.data (k + 1)) ∧
      arr1.valid := by
  obtain ⟨hsz, hbv⟩ := hv
  have h1 : ¬ i ≥ arr.size := by omega
  cases hd : arr.data with
  | invalid => simp [buffer_valid, hd] at hbv
  | null => simp [buffer_valid, hd] at hbv; omega
  | buf d =>
    simp only [buffer_valid, hd] at hbv
    rw [hd] at hsl
    have hid : i < d.length := by omega
    obtain ⟨out, hout⟩ := removeAt_copy_some (DataPtr.buf d) i buffer buf_size al s hsl hbuf
    obtain ⟨e1, e2, e3⟩ := shift_left_spec (d.set i StrPtr.invalid) i arr.size hi
      (by simp; omega)
    by_cases hmove : i < arr.size - 1
    · refine ⟨{ arr with
          data := DataPtr.buf ((d.set i StrPtr.invalid).take i ++
            ((d.set i StrPtr.invalid).drop (i + 1)).take (arr.size - i - 1) ++
            (d.set i StrPtr.invalid).drop (i + (arr.size - i - 1))),
          size := arr.size - 1 }, out,
        { mt with live := mt.live.erase arr.data_object_id }, ?_, rfl, rfl, hout, ?_, ?_, ?_⟩
      · simp only [ansi_c_dynstringarray_removeAt, h1, if_false, hd, hout, hsl,
          ansi_c_mem_track_free, store_slot, hid, if_true, hmove, memmove_slots,
          List.length_set]
        rw [if_pos (by omega)]
      · intro k hk
        simp only [load_slot]
        rw [e2 k hk, List.getElem?_set_ne (by omega)]
      · intro k hk1 hk2
        simp only [load_slot]
        rw [e3 k hk1 (by omega), List.getElem?_set_ne (by omega)]
      · constructor
        · simp only []; omega
        · simp only [buffer_valid, e1, List.length_set]
          exact hbv
    · refine ⟨{ arr with data := DataPtr.buf (d.set i StrPtr.invalid), size := arr.size - 1 },
        out, { mt with live := mt.live.erase arr.data_object_id }, ?_, rfl, rfl, hout,
        ?_, ?_, ?_⟩
      · simp only [ansi_c_dynstringarray_removeAt, h1, if_false, hd, hout, hsl,
          ansi_c_mem_track_free, store_slot, hid, if_true, hmove]
      · intro k hk
        simp only [load_slot]
        rw [List.getElem?_set_ne (by omega)]
      · intro k hk1 hk2
        omega
      · constructor
        · simp only []; omega
        · simp only [buffer_valid, List.length_set]
          exact hbv

/-- C22: for every container that satisfies the data-model invariants, every index
`i < count` whose slot holds a string `s`, and every caller buffer of `buf_size` bytes
(`NULL`, or a block of at least `buf_size` bytes): `ansi_c_dynstringarray_removeAt(i,
buffer, buf_size)` returns, and if the buffer is not `NULL` and `buf_size > 0` the
buffer afterwards starts with the first `min(len(s), buf_size - 1)` bytes of `s`
followed by a terminator (the bytes behind the terminator are as before), so it holds
`s` itself when `len(s) < buf_size`; if the buffer is `NULL` or `buf_size` is 0 the
buffer is as before, nothing is written. -/
theorem removeAt_fills_buffer (arr : DynStringArray) (i : Nat) (buffer : Option (List Char))
    (buf_size : Nat) (mt : MemTrack) (al : Nat) (s : CStr)
    (hv : arr.valid) (hi : i < arr.size)
    (hsl : load_slot arr.data i = some (StrPtr.str al s))
    (hbuf : ∀ b, buffer = some b → buf_size ≤ b.length) :
    ∃ arr1 out mt1, ansi_c_dynstringarray_removeAt arr i buffer buf_size mt =
        some (arr.size - 1, arr1, out, mt1) ∧
      (∀ b, buffer = some b → 0 < buf_size →
        out = some (s.take (min s.length (buf_size - 1)) ++ [Char.ofNat 0] ++
          b.drop (min s.length (buf_size - 1) + 1))) ∧
      (∀ b, buffer = some b → 0 < buf_size → s.length < buf_size →
        out = some (s ++ [Char.ofNat 0] ++ b.drop (s.length + 1))) ∧
      (buffer = none ∨ buf_size = 0 → out = buffer) := by
  obtain ⟨a1, out, m1, hr, _, _, hcopy, _⟩ :=
    removeAt_at_string arr i buffer buf_size mt al s hv hi hsl hbuf
  have hfull : ∀ b, buffer = some b → 0 < buf_size →
      out = some (s.take (min s.length (buf_size - 1)) ++ [Char.ofNat 0] ++
        b.drop (min s.length (buf_size - 1) + 1)) := by
    intro b hb hpos
    subst hb
    rw [removeAt_copy_content arr.data i b buf_size al s hsl hpos (hbuf b rfl)] at hcopy
    exact (Option.some.inj hcopy).symm
  refine ⟨a1, out, m1, hr, hfull, ?_, ?_⟩
  · intro b hb hpos hlt
    rw [hfull b hb hpos]
    have hmin : min s.length (buf_size - 1) = s.length := by omega
    rw [hmin, List.take_length]
  · intro hnone
    rcases hnone with hn | hz
    · subst hn
      simp only [removeAt_copy] at hcopy
      exact (Option.some.inj hcopy).symm
    · subst hz
      cases buffer with
      | none =>
        simp only [removeAt_copy] at hcopy
        exact (Option.some.inj hcopy).symm
      | some b =>
        simp only [removeAt_copy, gt_iff_lt, Nat.lt_irrefl, if_false] at hcopy
        exact (Option.some.inj hcopy).symm

theorem removeAt_fills_buffer_witness :
    (three_example.valid ∧ 2 < three_example.size ∧
      load_slot three_example.data 2 = some (StrPtr.str 4 "foo".toList) ∧
      ∀ b, some ten_bytes = some b → 3 ≤ b.length) ∧
    (ansi_c_dynstringarray_removeAt three_example 2 (some ten_bytes) 3 tracker_all_ok).map
        (fun r => r.2.2.1) = some (some "fo\x003456789".toList) ∧
    (ansi_c_dynstringarray_removeAt three_example 1 (some ten_bytes) 10 tracker_all_ok).map
        (fun r => r.2.2.1) = some (some "world\x006789".toList) ∧
    ∃ arr1 out mt1,
      ansi_c_dynstringarray_removeAt three_example 2 (some ten_bytes) 3 tracker_all_ok =
        some (three_example.size - 1, arr1, out, mt1) ∧
      (∀ b, some ten_bytes = some b → 0 < 3 →
        out = some ("foo".toList.take (min "foo".toList.length (3 - 1)) ++ [Char.ofNat 0] ++
          b.drop (min "foo".toList.length (3 - 1) + 1))) ∧
      (∀ b, some ten_bytes = some b → 0 < 3 → "foo".toList.length < 3 →
        out = some ("foo".toList ++ [Char.ofNat 0] ++ b.drop ("foo".toList.length + 1))) ∧
      (some ten_bytes = none ∨ 3 = 0 → out = some ten_bytes) :=
  ⟨⟨by decide, by decide, rfl, fun b hb => by cases hb; decide⟩, by decide, by decide,
    removeAt_fills_buffer three_example 2 (some ten_bytes) 3 tracker_all_ok 4 "foo".toList
      (by decide) (by decide) rfl (fun b hb => by cases hb; decide)⟩

theorem insert_ok_spec (arr : DynStringArray) (i : Nat) (v : CStr) (mt : MemTrack)
    (hv : arr.valid) (hi : i ≤ arr.size) (hok : ∀ k, mt.outcomes k = true) :
    ∃ a1 m1, ansi_c_dynstringarray_insert arr i v mt = some (0, a1, m1) ∧ a1.valid ∧
      a1.size = arr.size + 1 ∧
      load_slot a1.data i = some (StrPtr.str (v.length + 1) v) ∧
      (∀ k, k < i → load_slot a1.data k = load_slot arr.data k) ∧
      (∀ k, i ≤ k → k < arr.size → load_slot a1.data (k + 1) = load_slot arr.data k) := by
  by_cases hlast : i = arr.size
  · subst hlast
    obtain ⟨r, a1, m1, hp, hv1, hr, _, hsucc⟩ := push_spec arr v mt hv
    have hr0 : r = 0 := hr.mpr ⟨hok 0, fun _ => hok 1⟩
    subst hr0
    obtain ⟨hs1, _, hkeep, hnew⟩ := hsucc rfl
    refine ⟨a1, m1, ?_, hv1, hs1, hnew, ?_, ?_⟩
    · simp [ansi_c_dynstringarray_insert, hp]
    · intro k hk
      obtain ⟨p, hpk⟩ := valid_load_some arr hv k hk
      rw [hpk]
      exact hkeep k p hk hpk
    · intro k hk1 hk2
      omega
  · have hlt : i < arr.size := by omega
    by_cases hfull : arr.size = arr.capacity
    · obtain ⟨a1, m1, hp, hv1, hs1, _, hnew, hkeep, hshift⟩ :=
        insert_middle_full arr i v mt hv hlt hfull (hok 0)
      refine ⟨a1, m1, hp, hv1, hs1, ?_, hkeep, hshift⟩
      rw [hnew]
      simp [STRDUP, MemTrack.consume, hok 1]
    · obtain ⟨a1, m1, hp, hv1, hs1, _, hnew, hkeep, hshift⟩ :=
        insert_middle_room arr i v mt hv hlt hfull
      refine ⟨a1, m1, hp, hv1, hs1, ?_, hkeep, hshift⟩
      rw [hnew]
      simp [STRDUP, hok 0]

/-- C24: for every container that satisfies the data-model invariants (whatever its
slots hold), every index `i ≤ count`, every value `v` and every caller buffer of at
least `buf_size` bytes with `buf_size > len(v)`, when the allocations succeed
`ansi_c_dynstringarray_insert(i, v)` returns 0 and the following
`ansi_c_dynstringarray_removeAt(i, buffer, buf_size)` returns the original count,
which is the count again, `get(k)` is as before the insert for every `k < count`, and
the buffer holds `v` and its terminator. -/
theorem insert_then_removeAt_restores (arr : DynStringArray) (i : Nat) (v : CStr)
    (b : List Char) (buf_size : Nat) (mt : MemTrack)
    (hv : arr.valid) (hi : i ≤ arr.size) (hok : ∀ k, mt.outcomes k = true)
    (hlen : v.length < buf_size) (hb : buf_size ≤ b.length) :
    ∃ a1 m1 a2 out m2, ansi_c_dynstringarray_insert arr i v mt = some (0, a1, m1) ∧
      ansi_c_dynstringarray_removeAt a1 i (some b) buf_size m1 =
        some (ansi_c_dynstringarray_size arr, a2, out, m2) ∧
      ansi_c_dynstringarray_size a2 = ansi_c_dynstringarray_size arr ∧
      (∀ k, k < arr.size →
        ansi_c_dynstringarray_get a2 k = ansi_c_dynstringarray_get arr k) ∧
      out = some (v ++ [Char.ofNat 0] ++ b.drop (v.length + 1)) := by
  obtain ⟨a1, m1, hins, hv1, hs1, hnew, hkeep, hshift⟩ := insert_ok_spec arr i v mt hv hi hok
  have hbuf : ∀ b1, some b = some b1 → buf_size ≤ b1.length := by
    intro b1 h
    cases h
    exact hb
  obtain ⟨a2, out, m2, hrem, hs2, _, hcopy, hk2, hsh2, _⟩ :=
    removeAt_at_string a1 i (some b) buf_size m1 (v.length + 1) v hv1 (by omega) hnew hbuf
  have hsz : a1.size - 1 = arr.size := by omega
  rw [hsz] at hrem hs2
  refine ⟨a1, m1, a2, out, m2, hins, hrem, hs2, ?_, ?_⟩
  · intro k hk
    rw [get_below_size a2 k (by omega), get_below_size arr k hk]
    by_cases hki : k < i
    · rw [hk2 k hki, hkeep k hki]
    · rw [hsh2 k (by omega) (by omega), hshift k (by omega) hk]
  · rw [removeAt_copy_content a1.data i b buf_size (v.length + 1) v hnew (by omega) hb] at hcopy
    have hmin : min v.length (buf_size - 1) = v.length := by omega
    rw [hmin, List.take_length] at hcopy
    exact (Option.some.inj hcopy).symm

theorem insert_then_removeAt_restores_witness :
    (full_example.valid ∧ 2 ≤ full_example.size ∧ (∀ k, tracker_all_ok.outcomes k = true) ∧
      "hi".toList.length < 10 ∧ 10 ≤ ten_bytes.length) ∧
    ((ansi_c_dynstringarray_insert full_example 2 "hi".toList tracker_all_ok).bind
        (fun r => ansi_c_dynstringarray_removeAt r.2.1 2 (some ten_bytes) 10 r.2.2)).map
        (fun r => (r.1, r.2.1.size, r.2.1.capacity, r.2.2.1)) =
      some (10, 10, 20, some "hi\x003456789".toList) ∧
    ∃ a1 m1 a2 out m2,
      ansi_c_dynstringarray_insert full_example 2 "hi".toList tracker_all_ok =
        some (0, a1, m1) ∧
      ansi_c_dynstringarray_removeAt a1 2 (some ten_bytes) 10 m1 =
        some (ansi_c_dynstringarray_size full_example, a2, out, m2) ∧
      ansi_c_dynstringarray_size a2 = ansi_c_dynstringarray_size full_example ∧
      (∀ k, k < full_example.size →
        ansi_c_dynstringarray_get a2 k = ansi_c_dynstringarray_get full_example k) ∧
      out = some ("hi".toList ++ [Char.ofNat 0] ++ ten_bytes.drop ("hi".toList.length + 1)) :=
  ⟨⟨by decide, by decide, fun _ => rfl, by decide, by decide⟩, by decide,
    insert_then_removeAt_restores full_example 2 "hi".toList ten_bytes 10 tracker_all_ok
      (by decide) (by decide) (fun _ => rfl) (by decide) (by decide)⟩

theorem resize_capacity_loop64_even_runs_on (fuel c : Nat) (hc : c % 2 = 0)
    (hr : c < SIZE_T_RANGE) :
    resize_capacity_loop64 fuel c 18446744073709551615 = none := by
  induction fuel generalizing c with
  | zero => rfl
  | succ f ih =>
    simp only [SIZE_T_RANGE] at hr
    have hlt : c < 18446744073709551615 := by omega
    have hnext := ih ((c + DYNSTRINGARRAY_DEFAULT_CAPACITY) % SIZE_T_RANGE)
      (by simp only [DYNSTRINGARRAY_DEFAULT_CAPACITY, SIZE_T_RANGE]; omega)
      (by simp only [DYNSTRINGARRAY_DEFAULT_CAPACITY, SIZE_T_RANGE]; omega)
    simp only [resize_capacity_loop64, hlt, if_true, hnext]

theorem resize_capacity_loop64_exact (fuel c n : Nat) (hc : c % 10 = 0)
    (hr : c < SIZE_T_RANGE) (hn : n ≤ 18446744073709551610) (hf : n - c < fuel) :
    resize_capacity_loop64 fuel c n = some (max c (smallest_block_multiple n), false) := by
  induction fuel generalizing c with
  | zero => omega
  | succ f ih =>
    simp only [SIZE_T_RANGE] at hr
    simp only [resize_capacity_loop64]
    split
    · rename_i hlt
      have hsum : c + DYNSTRINGARRAY_DEFAULT_CAPACITY < SIZE_T_RANGE := by
        simp only [DYNSTRINGARRAY_DEFAULT_CAPACITY, SIZE_T_RANGE]; omega
      rw [Nat.mod_eq_of_lt hsum]
      rw [ih (c + DYNSTRINGARRAY_DEFAULT_CAPACITY)
        (by simp only [DYNSTRINGARRAY_DEFAULT_CAPACITY]; omega) hsum
        (by simp only [DYNSTRINGARRAY_DEFAULT_CAPACITY]; omega)]
      have hdec : decide (SIZE_T_RANGE ≤ c + DYNSTRINGARRAY_DEFAULT_CAPACITY) = false := by
        simp only [decide_eq_false_iff_not]; omega
      simp only [hdec, Bool.or_false, Option.some.injEq, Prod.mk.injEq, and_true]
      simp only [smallest_block_multiple, DYNSTRINGARRAY_DEFAULT_CAPACITY]
      omega
    · simp only [Option.some.injEq, Prod.mk.injEq, and_true]
      simp only [smallest_block_multiple, DYNSTRINGARRAY_DEFAULT_CAPACITY]
      omega

theorem created_example_reachable : reachable created_example :=
  reachable.create none record_garbage created_example tracker_all_ok
    { tracker_all_ok with next_object_id := 2, live := [1, 0] } 0 rfl (by rfl)

/-- C25, counterexample: with `size_t` a 64-bit unsigned integer, on the container
that create returns (reachable; count 0, capacity 10, a multiple of 10) and
`new_size = 2^64 - 1`, which is greater than the count, the capacity-growth loop of
`ansi_c_dynstringarray_resize` is still running after any number of iterations: every
value `new_capacity` takes is even, hence below `new_size`. -/
theorem resize_loop64_runs_forever :
    (reachable created_example ∧ created_example.capacity = 10 ∧
      created_example.capacity % 10 = 0 ∧
      created_example.size < 18446744073709551615 ∧
      18446744073709551615 < SIZE_T_RANGE) ∧
    ∀ fuel, resize_capacity_loop64 fuel created_example.capacity 18446744073709551615 =
      none :=
  ⟨⟨created_example_reachable, by decide⟩, fun fuel =>
    resize_capacity_loop64_even_runs_on fuel created_example.capacity (by decide) (by decide)⟩

/-- C25, amended: with `size_t` a 64-bit unsigned integer with wrap-around, for every
capacity that is a multiple of 10 and every `new_size` up to 18446744073709551610,
the largest multiple of 10 below 2^64, the capacity-growth loop of
`ansi_c_dynstringarray_resize` terminates (after at most `new_size - capacity + 1`
evaluations of its test) with a `new_capacity ≥ new_size`, reached without
wrap-around: it is the larger of the capacity and the smallest multiple of 10 that
is at least `new_size`, the value the loop gives on unbounded integers. -/
theorem resize_loop64_terminates (c n fuel : Nat) (hc : c % 10 = 0)
    (hr : c < SIZE_T_RANGE) (hn : n ≤ 18446744073709551610) (hf : n - c < fuel) :
    ∃ nc, resize_capacity_loop64 fuel c n = some (nc, false) ∧ n ≤ nc ∧
      nc < SIZE_T_RANGE ∧ nc = max c (smallest_block_multiple n) ∧
      nc = resize_capacity_loop n c n := by
  refine ⟨max c (smallest_block_multiple n), resize_capacity_loop64_exact fuel c n hc hr hn hf,
    ?_, ?_, rfl, (resize_capacity_loop_blocks n c n hc (by omega)).symm⟩
  · obtain ⟨_, h2, _⟩ := smallest_block_multiple_spec n
    omega
  · simp only [SIZE_T_RANGE] at hr ⊢
    simp only [smallest_block_multiple, DYNSTRINGARRAY_DEFAULT_CAPACITY]
    omega

theorem resize_loop64_terminates_witness :
    (10 % 10 = 0 ∧ 10 < SIZE_T_RANGE ∧ 25 ≤ 18446744073709551610 ∧ 25 - 10 < 16) ∧
    resize_capacity_loop64 16 10 25 = some (30, false) ∧
    ∃ nc, resize_capacity_loop64 16 10 25 = some (nc, false) ∧ 25 ≤ nc ∧
      nc < SIZE_T_RANGE ∧ nc = max 10 (smallest_block_multiple 25) ∧
      nc = resize_capacity_loop 25 10 25 :=
  ⟨by decide, by decide,
    resize_loop64_terminates 10 25 16 (by decide) (by decide) (by decide) (by decide)⟩

theorem resize_capacity_loop64_wraps (fuel c n : Nat) (hc : c % 10 = 0)
    (hr : c < SIZE_T_RANGE) (hn : 18446744073709551610 < n) (r : Nat × Bool)
    (h : resize_capacity_loop64 fuel c n = some r) : r.2 = true := by
  induction fuel generalizing c r with
  | zero => simp [resize_capacity_loop64] at h
  | succ f ih =>
    simp only [SIZE_T_RANGE] at hr
    have hlt : c < n := by omega
    simp only [resize_capacity_loop64, hlt, if_true] at h
    cases hrec : resize_capacity_loop64 f
        ((c + DYNSTRINGARRAY_DEFAULT_CAPACITY) % SIZE_T_RANGE) n with
    | none => simp [hrec] at h
    | some x =>
      obtain ⟨c1, w1⟩ := x
      simp only [hrec, Option.some.injEq] at h
      rw [← h]
      by_cases hw : SIZE_T_RANGE ≤ c + DYNSTRINGARRAY_DEFAULT_CAPACITY
      · simp [hw]
      · have hsum : c + DYNSTRINGARRAY_DEFAULT_CAPACITY < SIZE_T_RANGE := by omega
        rw [Nat.mod_eq_of_lt hsum] at hrec
        have := ih (c + DYNSTRINGARRAY_DEFAULT_CAPACITY)
          (by simp only [DYNSTRINGARRAY_DEFAULT_CAPACITY]; omega) hsum (c1, w1) hrec
        simp only [] at this
        simp [this]

theorem fits_of_mem_set (d : List StrPtr) (i : Nat) (q : StrPtr)
    (hd : ∀ p ∈ d, p.fits) (hq : q.fits) : ∀ p ∈ d.set i q, p.fits := by
  intro p hp
  rcases List.mem_or_eq_of_mem_set hp with h | h
  · exact hd p h
  · rw [h]; exact hq

theorem store_slot_fit (data data1 : DataPtr) (i : Nat) (q : StrPtr)
    (h : store_slot data i q = some data1) (hf : slots_fit data) (hq : q.fits) :
    slots_fit data1 := by
  obtain ⟨d, hd, _, hd1⟩ := store_slot_buffer _ _ _ _ h
  subst hd hd1
  exact fits_of_mem_set d i q hf hq

theorem free_result_fits (mt m1 : MemTrack) (p p1 : StrPtr) (objid : Nat)
    (h : ansi_c_mem_track_free mt p objid = some (p1, m1)) : p1.fits := by
  cases p <;> simp [ansi_c_mem_track_free] at h <;> rw [← h.1] <;> trivial

theorem resize_free_loop_fit (n : Nat) (data data1 : DataPtr) (i objid : Nat)
    (mt m1 : MemTrack) (h : resize_free_loop n data i objid mt = some (data1, m1))
    (hf : slots_fit data) : slots_fit data1 := by
  induction n generalizing data i mt with
  | zero =>
    simp [resize_free_loop] at h
    rw [← h.1]
    exact hf
  | succ m ih =>
    simp only [resize_free_loop] at h
    cases hl : load_slot data i with
    | none => simp [hl] at h
    | some p =>
      simp only [hl] at h
      cases hfr : ansi_c_mem_track_free mt p objid with
      | none => simp [hfr] at h
      | some x =>
        obtain ⟨p1, m2⟩ := x
        simp only [hfr] at h
        cases hs : store_slot data i p1 with
        | none => simp [hs] at h
        | some d2 =>
          simp only [hs] at h
          exact ih d2 (i + 1) m2 h
            (store_slot_fit data d2 i p1 hs hf (free_result_fits mt m2 p p1 objid hfr))

theorem resize_null_loop_fit (n : Nat) (d d1 : List StrPtr) (i : Nat)
    (h : resize_null_loop n d i = some d1) (hf : ∀ p ∈ d, p.fits) : ∀ p ∈ d1, p.fits := by
  induction n generalizing d i with
  | zero =>
    simp [resize_null_loop] at h
    rw [← h]
    exact hf
  | succ m ih =>
    simp only [resize_null_loop] at h
    split at h
    · exact ih _ _ h (fits_of_mem_set d i StrPtr.null hf trivial)
    · simp at h

theorem realloc_slots_fit (mt m1 : MemTrack) (data : DataPtr) (n objid : Nat)
    (nd : List StrPtr)
    (h : ansi_c_mem_track_realloc_slots mt data n objid = some (some nd, m1))
    (hf : slots_fit data) : ∀ p ∈ nd, p.fits := by
  cases data with
  | invalid => simp [ansi_c_mem_track_realloc_slots] at h
  | null =>
    simp only [ansi_c_mem_track_realloc_slots] at h
    split at h
    · simp only [Option.some.injEq, Prod.mk.injEq] at h
      rw [← h.1]
      intro p hp
      rw [List.eq_of_mem_replicate hp]
      trivial
    · simp at h
  | buf d =>
    simp only [ansi_c_mem_track_realloc_slots] at h
    split at h
    · simp only [Option.some.injEq, Prod.mk.injEq] at h
      rw [← h.1]
      intro p hp
      rcases List.mem_append.mp hp with h1 | h2
      · exact hf p (List.mem_of_mem_take h1)
      · rw [List.eq_of_mem_replicate h2]
        trivial
    · simp at h

theorem resize_capacity_loop_mod (fuel c n : Nat) :
    resize_capacity_loop fuel c n % 10 = c % 10 ∧ c ≤ resize_capacity_loop fuel c n := by
  induction fuel generalizing c with
  | zero => simp [resize_capacity_loop]
  | succ f ih =>
    simp only [resize_capacity_loop]
    split
    · obtain ⟨h1, h2⟩ := ih (c + DYNSTRINGARRAY_DEFAULT_CAPACITY)
      simp only [DYNSTRINGARRAY_DEFAULT_CAPACITY] at h1 h2 ⊢
      omega
    · exact ⟨rfl, Nat.le_refl _⟩

theorem resize_result (arr a1 : DynStringArray) (n : Nat) (mt m1 : MemTrack) (r : Int)
    (h : ansi_c_dynstringarray_resize arr n mt = some (r, a1, m1)) :
    (slots_fit arr.data → slots_fit a1.data) ∧
    (a1.capacity = arr.capacity ∨
      (arr.size < n ∧ a1.capacity = resize_capacity_loop n arr.capacity n)) ∧
    (arr.size < n → r = 0 → a1.capacity = resize_capacity_loop n arr.capacity n) := by
  simp only [ansi_c_dynstringarray_resize] at h
  split at h
  · simp only [Option.some.injEq, Prod.mk.injEq] at h
    rename_i heq
    rw [← h.2.1]
    exact ⟨id, Or.inl rfl, fun hlt => by omega⟩
  · split at h
    · rename_i hlt
      cases hf : resize_free_loop (arr.size - n) arr.data n arr.data_object_id mt with
      | none => simp [hf] at h
      | some x =>
        obtain ⟨d1, m2⟩ := x
        simp only [hf, Option.some.injEq, Prod.mk.injEq] at h
        rw [← h.2.1]
        exact ⟨fun hfit => resize_free_loop_fit _ _ _ _ _ _ _ hf hfit, Or.inl rfl,
          fun hgt => by omega⟩
    · rename_i hne hnlt
      have hgt : arr.size < n := by omega
      cases hr : ansi_c_mem_track_realloc_slots mt arr.data
          (resize_capacity_loop n arr.capacity n) arr.data_object_id with
      | none => simp [hr] at h
      | some x =>
        obtain ⟨nd, m2⟩ := x
        cases nd with
        | none =>
          simp only [hr, Option.some.injEq, Prod.mk.injEq] at h
          rw [← h.2.1]
          refine ⟨id, Or.inl rfl, ?_⟩
          intro _ hr0
          rw [← h.1] at hr0
          simp at hr0
        | some d =>
          simp only [hr] at h
          cases hn : resize_null_loop (n - arr.size) d arr.size with
          | none => simp [hn] at h
          | some d2 =>
            simp only [hn, Option.some.injEq, Prod.mk.injEq] at h
            rw [← h.2.1]
            refine ⟨?_, Or.inr ⟨hgt, rfl⟩, fun _ _ => rfl⟩
            intro hfit
            exact resize_null_loop_fit _ _ _ _ hn (realloc_slots_fit _ _ _ _ _ _ hr hfit)

theorem push_result (arr a1 : DynStringArray) (v : CStr) (mt m1 : MemTrack) (r : Int)
    (h : ansi_c_dynstringarray_push arr v mt = some (r, a1, m1)) :
    (slots_fit arr.data → slots_fit a1.data) ∧
    (a1.capacity = arr.capacity ∨
      (arr.size = arr.capacity ∧
        a1.capacity = arr.capacity + DYNSTRINGARRAY_DEFAULT_CAPACITY)) ∧
    (arr.size = arr.capacity → r = 0 →
      a1.capacity = arr.capacity + DYNSTRINGARRAY_DEFAULT_CAPACITY) := by
  have hnew : (StrPtr.str (v.length + 1) v).fits := Nat.le_refl _
  unfold ansi_c_dynstringarray_push at h
  simp only [STRDUP] at h
  by_cases h0 : mt.outcomes 0 = true
  · simp only [h0, if_true, reduceCtorEq, if_false] at h
    by_cases hfull : arr.size = arr.capacity
    · simp only [hfull, if_true] at h
      generalize hR : ansi_c_dynstringarray_resize _ _ _ = R at h
      cases R with
      | none => simp at h
      | some x =>
        obtain ⟨xr, xa, xm⟩ := x
        obtain ⟨hfit, hcap, hcap0⟩ := resize_result _ _ _ _ _ _ hR
        have hloop : resize_capacity_loop (arr.capacity + 1) arr.capacity (arr.capacity + 1) =
            arr.capacity + DYNSTRINGARRAY_DEFAULT_CAPACITY := resize_capacity_loop_full _
        rw [hloop] at hcap hcap0
        simp only [] at h
        by_cases hz : xr = 0
        · simp only [hz, ne_eq, not_true_eq_false, if_false] at h
          cases hs : store_slot xa.data (xa.size - 1) (StrPtr.str (v.length + 1) v) with
          | none => simp [hs] at h
          | some d1 =>
            simp only [hs, Option.some.injEq, Prod.mk.injEq] at h
            rw [← h.2.1]
            refine ⟨?_, ?_, ?_⟩
            · intro hf
              exact store_slot_fit _ _ _ _ hs (hfit hf) hnew
            · exact Or.inr ⟨hfull, hcap0 (by omega) hz⟩
            · intro _ _
              exact hcap0 (by omega) hz
        · simp only [ne_eq, hz, not_false_eq_true, if_true, ansi_c_mem_track_free,
            Option.some.injEq, Prod.mk.injEq] at h
          rw [← h.2.1]
          refine ⟨hfit, ?_, ?_⟩
          · rcases hcap with hc | hc
            · exact Or.inl hc
            · exact Or.inr ⟨hfull, hc.2⟩
          · intro _ hr0
            rw [← h.1] at hr0
            simp at hr0
    · simp only [hfull, if_false, ne_eq, not_true_eq_false] at h
      rw [Nat.add_sub_cancel] at h
      cases hs : store_slot arr.data arr.size (StrPtr.str (v.length + 1) v) with
      | none => simp [hs] at h
      | some d1 =>
        simp only [hs, Option.some.injEq, Prod.mk.injEq] at h
        rw [← h.2.1]
        refine ⟨?_, Or.inl rfl, fun hf => absurd hf hfull⟩
        intro hf
        exact store_slot_fit _ _ _ _ hs hf hnew
  · simp [h0] at h
    obtain ⟨hr, ha, _⟩ := h
    rw [← ha]
    refine ⟨id, Or.inl rfl, ?_⟩
    intro _ hr0
    rw [← hr] at hr0
    simp at hr0

theorem memmove_slots_fit (data data1 : DataPtr) (dst src n : Nat)
    (h : memmove_slots data dst src n = some data1) (hf : slots_fit data) :
    slots_fit data1 := by
  cases data with
  | invalid => simp [memmove_slots] at h
  | null => simp [memmove_slots] at h
  | buf d =>
    simp only [memmove_slots] at h
    split at h
    · simp only [Option.some.injEq] at h
      rw [← h]
      intro p hp
      rcases List.mem_append.mp hp with h1 | h2
      · rcases List.mem_append.mp h1 with h3 | h4
        · exact hf p (List.mem_of_mem_take h3)
        · exact hf p (List.mem_of_mem_drop (List.mem_of_mem_take h4))
      · exact hf p (List.mem_of_mem_drop h2)
    · simp at h

theorem strdup_fits (mt : MemTrack) (v : CStr) (objid : Nat) :
    (STRDUP mt v.length v objid).1.fits := by
  simp only [STRDUP]
  split
  · exact Nat.le_refl _
  · trivial

theorem insert_result (arr a1 : DynStringArray) (i : Nat) (v : CStr) (mt m1 : MemTrack)
    (r : Int) (h : ansi_c_dynstringarray_insert arr i v mt = some (r, a1, m1)) :
    (slots_fit arr.data → slots_fit a1.data) ∧
    (a1.capacity = arr.capacity ∨
      (arr.size = arr.capacity ∧
        a1.capacity = arr.capacity + DYNSTRINGARRAY_DEFAULT_CAPACITY)) ∧
    (arr.size = arr.capacity → r = 0 →
      a1.capacity = arr.capacity + DYNSTRINGARRAY_DEFAULT_CAPACITY) := by
  unfold ansi_c_dynstringarray_insert at h
  split at h
  · simp only [Option.some.injEq, Prod.mk.injEq] at h
    rw [← h.2.1]
    refine ⟨id, Or.inl rfl, ?_⟩
    intro _ hr0
    rw [← h.1] at hr0
    simp at hr0
  · split at h
    · exact push_result arr a1 v mt m1 r h
    · simp only [] at h
      by_cases hfull : arr.size = arr.capacity
      · simp only [hfull, if_true] at h
        cases hr : ansi_c_mem_track_realloc_slots mt arr.data
            (arr.capacity + DYNSTRINGARRAY_DEFAULT_CAPACITY) arr.data_object_id with
        | none => simp [hr] at h
        | some x =>
          obtain ⟨nd, m2⟩ := x
          cases nd with
          | none =>
            simp only [hr, ne_eq, Int.reduceNeg, Int.neg_eq_zero, one_ne_zero,
              not_false_eq_true, if_true, Option.some.injEq, Prod.mk.injEq] at h
            rw [← h.2.1]
            refine ⟨id, Or.inl rfl, ?_⟩
            intro _ hr0
            rw [← h.1] at hr0
            simp at hr0
          | some d =>
            simp only [hr, ne_eq, not_true_eq_false, if_false] at h
            cases hm : memmove_slots (DataPtr.buf d) (i + 1) i (arr.capacity - i) with
            | none => simp [hm] at h
            | some data1 =>
              simp only [hm] at h
              cases hs : store_slot data1 i (STRDUP m2 v.length v arr.data_object_id).1 with
              | none => simp [hs] at h
              | some data2 =>
                simp only [hs, Option.some.injEq, Prod.mk.injEq] at h
                rw [← h.2.1]
                refine ⟨?_, Or.inr ⟨hfull, rfl⟩, fun _ _ => rfl⟩
                intro hf
                have hnd : slots_fit (DataPtr.buf d) := realloc_slots_fit _ _ _ _ _ _ hr hf
                exact store_slot_fit _ _ _ _ hs (memmove_slots_fit _ _ _ _ _ hm hnd)
                  (strdup_fits _ _ _)
      · simp only [hfull, if_false, ne_eq, not_true_eq_false] at h
        cases hm : memmove_slots arr.data (i + 1) i (arr.size - i) with
        | none => simp [hm] at h
        | some data1 =>
          simp only [hm] at h
          cases hs : store_slot data1 i (STRDUP mt v.length v arr.data_object_id).1 with
          | none => simp [hs] at h
          | some data2 =>
            simp only [hs, Option.some.injEq, Prod.mk.injEq] at h
            rw [← h.2.1]
            refine ⟨?_, Or.inl rfl, fun hf => absurd hf hfull⟩
            intro hf
            exact store_slot_fit _ _ _ _ hs (memmove_slots_fit _ _ _ _ _ hm hf)
              (strdup_fits _ _ _)

theorem strcpy_fits (p p1 : StrPtr) (size : Nat) (v : CStr)
    (h : STRCPY p size v = some p1) : p1.fits := by
  cases p with
  | null => simp [STRCPY] at h
  | invalid => simp [STRCPY] at h
  | str al s =>
    simp only [STRCPY] at h
    split at h
    · rename_i hc
      simp only [Option.some.injEq] at h
      rw [← h]
      show v.length + 1 ≤ al
      omega
    · simp at h

theorem set_result (arr a1 : DynStringArray) (i : Nat) (v : CStr) (mt m1 : MemTrack)
    (r : Int) (h : ansi_c_dynstringarray_set arr i v mt = some (r, a1, m1)) :
    (slots_fit arr.data → slots_fit a1.data) ∧ a1.capacity = arr.capacity ∧
      a1.size = arr.size := by
  unfold ansi_c_dynstringarray_set at h
  split at h
  · simp only [Option.some.injEq, Prod.mk.injEq] at h
    rw [← h.2.1]
    exact ⟨id, rfl, rfl⟩
  · simp only [] at h
    split at h
    · split at h
      · split at h
        · simp at h
        · split at h
          · simp at h
          · rename_i hs
            simp only [Option.some.injEq, Prod.mk.injEq] at h
            rw [← h.2.1]
            exact ⟨fun hf => store_slot_fit _ _ _ _ hs hf trivial, rfl, rfl⟩
        · split at h
          · simp at h
          · rename_i hc
            split at h
            · simp at h
            · rename_i hs
              simp only [Option.some.injEq, Prod.mk.injEq] at h
              rw [← h.2.1]
              exact ⟨fun hf => store_slot_fit _ _ _ _ hs hf (strcpy_fits _ _ _ _ hc), rfl, rfl⟩
      · split at h
        · simp at h
        · rename_i hc
          split at h
          · simp at h
          · rename_i hs
            simp only [Option.some.injEq, Prod.mk.injEq] at h
            rw [← h.2.1]
            exact ⟨fun hf => store_slot_fit _ _ _ _ hs hf (strcpy_fits _ _ _ _ hc), rfl, rfl⟩
    · simp at h

theorem removeAt_result (arr a1 : DynStringArray) (i : Nat)
    (buffer out : Option (List Char)) (buf_size r : Nat) (mt m1 : MemTrack)
    (h : ansi_c_dynstringarray_removeAt arr i buffer buf_size mt = some (r, a1, out, m1)) :
    (slots_fit arr.data → slots_fit a1.data) ∧ a1.capacity = arr.capacity := by
  by_cases hi : i ≥ arr.size
  · simp only [ansi_c_dynstringarray_removeAt, hi, if_true, Option.some.injEq,
      Prod.mk.injEq] at h
    rw [← h.2.1]
    exact ⟨id, rfl⟩
  · simp only [ansi_c_dynstringarray_removeAt, hi, if_false] at h
    cases hc : removeAt_copy arr.data i buffer buf_size with
    | none => simp [hc] at h
    | some b1 =>
      simp only [hc] at h
      cases hl : load_slot arr.data i with
      | none => simp [hl] at h
      | some p =>
        simp only [hl] at h
        cases hf : ansi_c_mem_track_free mt p arr.data_object_id with
        | none => simp [hf] at h
        | some x =>
          obtain ⟨p1, m2⟩ := x
          simp only [hf] at h
          cases hs : store_slot arr.data i p1 with
          | none => simp [hs] at h
          | some data1 =>
            simp only [hs] at h
            have hfit1 : slots_fit arr.data → slots_fit data1 := fun hfit =>
              store_slot_fit _ _ _ _ hs hfit (free_result_fits _ _ _ _ _ hf)
            by_cases hmove : i < arr.size - 1
            · simp only [hmove, if_true] at h
              cases hm : memmove_slots data1 i (i + 1) (arr.size - i - 1) with
              | none => simp [hm] at h
              | some data2 =>
                simp only [hm, Option.some.injEq, Prod.mk.injEq] at h
                rw [← h.2.1]
                exact ⟨fun hfit => memmove_slots_fit _ _ _ _ _ hm (hfit1 hfit), rfl⟩
            · simp only [hmove, if_false, Option.some.injEq, Prod.mk.injEq] at h
              rw [← h.2.1]
              exact ⟨hfit1, rfl⟩

theorem replicate_set_fits (n : Nat) :
    ∀ p ∈ (List.replicate n StrPtr.invalid).set 0 StrPtr.null, p.fits := by
  intro p hp
  rcases List.mem_or_eq_of_mem_set hp with h1 | h1
  · rw [List.eq_of_mem_replicate h1]
    trivial
  · rw [h1]
    trivial

theorem clear_result (a b : DynStringArray) (mt m1 : MemTrack)
    (h : ansi_c_dynstringarray_clear (some a) mt = (some b, m1)) :
    b.capacity = DYNSTRINGARRAY_DEFAULT_CAPACITY ∧ b.size = 0 ∧ slots_fit b.data := by
  simp only [ansi_c_dynstringarray_clear, ansi_c_mem_track_malloc_slots, Prod.mk.injEq,
    Option.some.injEq] at h
  rw [← h.1]
  refine ⟨rfl, rfl, ?_⟩
  by_cases ho : (ansi_c_mem_track_free_by_object_id mt a.data_object_id).outcomes 0 = true
  · simp only [ho, if_true]
    exact replicate_set_fits _
  · simp only [ho, if_false]
    trivial

theorem init_loop_result (vs : List CStr) (a b : DynStringArray) (mt m1 : MemTrack)
    (h : init_loop a vs mt = some (b, m1))
    (hcap : a.capacity % 10 = 0) (hfit : slots_fit a.data) :
    b.capacity % 10 = 0 ∧ slots_fit b.data ∧ a.capacity ≤ b.capacity := by
  induction vs generalizing a mt with
  | nil =>
    simp only [init_loop, Option.some.injEq, Prod.mk.injEq] at h
    rw [← h.1]
    exact ⟨hcap, hfit, Nat.le_refl _⟩
  | cons v rest ih =>
    simp only [init_loop] at h
    cases hp : ansi_c_dynstringarray_push a v mt with
    | none => simp [hp] at h
    | some x =>
      obtain ⟨r, a1, m2⟩ := x
      simp only [hp] at h
      obtain ⟨hf1, hc1, _⟩ := push_result a a1 v mt m2 r hp
      have hcap1 : a1.capacity % 10 = 0 ∧ a.capacity ≤ a1.capacity := by
        simp only [DYNSTRINGARRAY_DEFAULT_CAPACITY] at hc1
        rcases hc1 with hc | hc
        · omega
        · omega
      obtain ⟨e1, e2, e3⟩ := ih a1 m2 h hcap1.1 (hf1 hfit)
      exact ⟨e1, e2, by omega⟩

theorem init_result (a b : DynStringArray) (vs : List CStr) (mt m1 : MemTrack)
    (h : ansi_c_dynstringarray_init (some a) vs mt = some (some b, m1)) :
    b.capacity % 10 = 0 ∧ slots_fit b.data := by
  simp only [ansi_c_dynstringarray_init] at h
  cases hc : ansi_c_dynstringarray_clear (some a) mt with
  | mk c m0 =>
    cases c with
    | none =>
      simp [hc] at h
    | some c1 =>
      simp only [hc] at h
      cases hl : init_loop c1 vs m0 with
      | none => simp [hl] at h
      | some x =>
        obtain ⟨b1, m2⟩ := x
        simp only [hl, Option.some.injEq, Prod.mk.injEq] at h
        obtain ⟨hcap, _, hfit⟩ := clear_result a c1 mt m0 hc
        obtain ⟨e1, e2, _⟩ := init_loop_result vs c1 b1 m0 m2 hl
          (by rw [hcap]; rfl) hfit
        rw [← h.1]
        exact ⟨e1, e2⟩

theorem destroy_result (a b : DynStringArray) (mt m1 : MemTrack)
    (h : ansi_c_dynstringarray_destroy (some a) mt = (some b, m1)) :
    b.capacity = 0 ∧ slots_fit b.data := by
  simp only [ansi_c_dynstringarray_destroy] at h
  split at h
  · simp at h
  · simp only [Prod.mk.injEq, Option.some.injEq] at h
    rw [← h.1]
    refine ⟨rfl, ?_⟩
    simp only [DataPtr.released]
    cases a.data <;> trivial

theorem initdata_result (arr : DynStringArray) (mode : dyn_arr_alloc_mode) (mt : MemTrack) :
    (ansi_c_dynstringarray_initdata arr mode mt).2.1.capacity % 10 = 0 ∧
      slots_fit (ansi_c_dynstringarray_initdata arr mode mt).2.1.data := by
  by_cases ho : mt.outcomes 0 = true
  · simp only [ansi_c_dynstringarray_initdata, ansi_c_mem_track_malloc_slots,
      DYNSTRINGARRAY_DEFAULT_CAPACITY, ho, if_true]
    exact ⟨by simp, replicate_set_fits _⟩
  · simp only [ansi_c_dynstringarray_initdata, ansi_c_mem_track_malloc_slots,
      DYNSTRINGARRAY_DEFAULT_CAPACITY, ho, if_false]
    exact ⟨by simp, trivial⟩

theorem create_invariants (caller : Option DynStringArray) (fresh a : DynStringArray)
    (mt m1 : MemTrack) (ret : Int) (hinit : mt.initialized = true)
    (h : ansi_c_dynstringarray_create caller fresh mt = (ret, some a, m1)) :
    a.capacity % 10 = 0 ∧ slots_fit a.data := by
  simp only [ansi_c_dynstringarray_create, ansi_c_mem_track_is_initialized, hinit,
    Bool.not_true, Bool.false_eq_true, if_false] at h
  cases caller with
  | none =>
    simp only [ansi_c_mem_track_get_next_object_id, ansi_c_mem_track_malloc_record] at h
    split at h
    · simp at h
    · simp only [Prod.mk.injEq, Option.some.injEq] at h
      rw [← h.2.1]
      exact initdata_result _ _ _
  | some r =>
    simp only [Prod.mk.injEq, Option.some.injEq] at h
    rw [← h.2.1]
    exact initdata_result _ _ _

theorem op_step_invariant (a b : DynStringArray) (hs : op_step a b)
    (hcap : a.capacity % 10 = 0) (hfit : slots_fit a.data) :
    b.capacity % 10 = 0 ∧ slots_fit b.data := by
  cases hs with
  | push v mt m1 r h =>
    obtain ⟨hf, hc, _⟩ := push_result a b v mt m1 r h
    refine ⟨?_, hf hfit⟩
    simp only [DYNSTRINGARRAY_DEFAULT_CAPACITY] at hc
    omega
  | insert i v mt m1 r h =>
    obtain ⟨hf, hc, _⟩ := insert_result a b i v mt m1 r h
    refine ⟨?_, hf hfit⟩
    simp only [DYNSTRINGARRAY_DEFAULT_CAPACITY] at hc
    omega
  | set i v mt m1 r h =>
    obtain ⟨hf, hc, _⟩ := set_result a b i v mt m1 r h
    exact ⟨by omega, hf hfit⟩
  | removeAt i buffer out buf_size r mt m1 h =>
    obtain ⟨hf, hc⟩ := removeAt_result a b i buffer out buf_size r mt m1 h
    exact ⟨by omega, hf hfit⟩
  | resize n mt m1 r h =>
    obtain ⟨hf, hc, _⟩ := resize_result a b n mt m1 r h
    refine ⟨?_, hf hfit⟩
    have hm := (resize_capacity_loop_mod n a.capacity n).1
    rcases hc with hc | hc
    · omega
    · omega
  | init values mt m1 h => exact init_result a b values mt m1 h
  | clear mt m1 h =>
    obtain ⟨hc, _, hf⟩ := clear_result a b mt m1 h
    simp only [DYNSTRINGARRAY_DEFAULT_CAPACITY] at hc
    exact ⟨by omega, hf⟩
  | destroy mt m1 h =>
    obtain ⟨hc, hf⟩ := destroy_result a b mt m1 h
    exact ⟨by omega, hf⟩

theorem reachable_invariant (a : DynStringArray) (h : reachable a) :
    a.capacity % 10 = 0 ∧ slots_fit a.data := by
  induction h with
  | create caller fresh a mt m1 ret hinit hc =>
    exact create_invariants caller fresh a mt m1 ret hinit hc
  | step a b _ hs ih => exact op_step_invariant a b hs ih.1 ih.2

theorem slots_fit_load (data : DataPtr) (k al : Nat) (s : CStr) (hf : slots_fit data)
    (hl : load_slot data k = some (StrPtr.str al s)) : s.length + 1 ≤ al := by
  cases data with
  | null => simp [load_slot] at hl
  | invalid => simp [load_slot] at hl
  | buf d =>
    simp only [load_slot] at hl
    obtain ⟨hk, he⟩ := List.getElem?_eq_some.mp hl
    exact hf _ (he ▸ List.getElem_mem hk)

theorem set_in_place (arr : DynStringArray) (i : Nat) (v : CStr) (mt : MemTrack)
    (al : Nat) (s : CStr) (hi : i < arr.size)
    (hl : load_slot arr.data i = some (StrPtr.str al s)) (hlen : ¬ s.length < v.length)
    (hal : s.length + 1 ≤ al) :
    ∃ d, ansi_c_dynstringarray_set arr i v mt = some (0, { arr with data := d }, mt) ∧
      load_slot d i = some (StrPtr.str al v) := by
  cases hd : arr.data with
  | null => simp [hd, load_slot] at hl
  | invalid => simp [hd, load_slot] at hl
  | buf d =>
    simp only [hd, load_slot] at hl
    have hil : i < d.length := by
      rcases Nat.lt_or_ge i d.length with h1 | h1
      · exact h1
      · rw [List.getElem?_eq_none h1] at hl
        simp at hl
    refine ⟨DataPtr.buf (d.set i (StrPtr.str al v)), ?_, ?_⟩
    · have hge : ¬ i ≥ arr.size := by omega
      have hc : v.length + 1 ≤ al ∧ v.length < v.length + 1 := ⟨by omega, by omega⟩
      simp [ansi_c_dynstringarray_set, hge, hd, load_slot, hl, hlen, STRCPY, hc, store_slot,
        hil]
    · simp [load_slot, hil]

theorem set_reallocates (arr : DynStringArray) (i : Nat) (v : CStr) (mt : MemTrack)
    (al : Nat) (s : CStr) (hi : i < arr.size)
    (hl : load_slot arr.data i = some (StrPtr.str al s)) (hlen : s.length < v.length)
    (hok : mt.outcomes 0 = true) :
    ∃ d, ansi_c_dynstringarray_set arr i v mt = some (0, { arr with data := d }, mt.consume) ∧
      load_slot d i = some (StrPtr.str (v.length + 1) v) := by
  cases hd : arr.data with
  | null => simp [hd, load_slot] at hl
  | invalid => simp [hd, load_slot] at hl
  | buf d =>
    simp only [hd, load_slot] at hl
    have hil : i < d.length := by
      rcases Nat.lt_or_ge i d.length with h1 | h1
      · exact h1
      · rw [List.getElem?_eq_none h1] at hl
        simp at hl
    refine ⟨DataPtr.buf (d.set i (StrPtr.str (v.length + 1) v)), ?_, ?_⟩
    · have hge : ¬ i ≥ arr.size := by omega
      simp [ansi_c_dynstringarray_set, hge, hd, load_slot, hl, hlen,
        ansi_c_mem_track_realloc_str, hok, STRCPY, store_slot, hil]
    · simp [load_slot, hil]

theorem three_example_reachable : reachable three_example := by
  have h1 := reachable.step _ _ created_example_reachable
    (op_step.push _ _ "hello".toList tracker_all_ok _ _ rfl)
  have h2 := reachable.step _ _ h1 (op_step.push _ _ "world".toList tracker_all_ok _ _ rfl)
  have h3 := reachable.step _ _ h2 (op_step.push _ _ "foo".toList tracker_all_ok _ _ rfl)
  exact h3

theorem init_loop_reachable (vs : List CStr) (a b : DynStringArray) (mt m1 : MemTrack)
    (h : init_loop a vs mt = some (b, m1)) (ha : reachable a) : reachable b := by
  induction vs generalizing a mt with
  | nil =>
    simp only [init_loop, Option.some.injEq, Prod.mk.injEq] at h
    rw [← h.1]
    exact ha
  | cons v rest ih =>
    simp only [init_loop] at h
    cases hp : ansi_c_dynstringarray_push a v mt with
    | none => simp [hp] at h
    | some x =>
      obtain ⟨r, a1, m2⟩ := x
      simp only [hp] at h
      exact ih a1 m2 h (reachable.step _ _ ha (op_step.push _ _ v mt m2 r hp))

theorem full_example_reachable : reachable full_example :=
  init_loop_reachable (twelve_values.take 10) created_example full_example tracker_all_ok
    { tracker_all_ok with live := [1, 1, 1, 1, 1, 1, 1, 1, 1, 1] } (by rfl)
    created_example_reachable

/-- C23: in every record reachable from `ansi_c_dynstringarray_create` (tracker
initialised) through returning calls of push, insert, set, removeAt, resize, init and
clear (and destroy), under any allocator outcomes, every slot that holds a string,
below count or not, has an allocation of at least len(content) + 1 bytes. Hence a set
at an index below count whose value is not longer than the slot's content takes the
in-place overwrite, which writes len(value) + 1 bytes inside the slot's allocation:
the call returns 0 without touching the allocator and the slot keeps its block and
holds the value. A longer value takes the reallocation instead: when it succeeds the
slot's block has len(value) + 1 bytes. -/
theorem reachable_slots_hold_their_strings (a : DynStringArray) (ha : reachable a) :
    (∀ k al s, load_slot a.data k = some (StrPtr.str al s) → s.length + 1 ≤ al) ∧
    (∀ i v mt al s, i < a.size → load_slot a.data i = some (StrPtr.str al s) →
      ¬ s.length < v.length →
      v.length + 1 ≤ al ∧
      ∃ d, ansi_c_dynstringarray_set a i v mt = some (0, { a with data := d }, mt) ∧
        load_slot d i = some (StrPtr.str al v)) ∧
    (∀ i v mt al s, i < a.size → load_slot a.data i = some (StrPtr.str al s) →
      s.length < v.length → mt.outcomes 0 = true →
      ∃ d, ansi_c_dynstringarray_set a i v mt =
          some (0, { a with data := d }, mt.consume) ∧
        load_slot d i = some (StrPtr.str (v.length + 1) v)) := by
  have hfit := (reachable_invariant a ha).2
  refine ⟨fun k al s hl => slots_fit_load a.data k al s hfit hl, ?_, ?_⟩
  · intro i v mt al s hi hl hlen
    have hal := slots_fit_load a.data i al s hfit hl
    exact ⟨by omega, set_in_place a i v mt al s hi hl hlen hal⟩
  · intro i v mt al s hi hl hlen hok
    exact set_reallocates a i v mt al s hi hl hlen hok

/-- C23 on the container reached from create by pushing "hello", "world", "foo": slot
0 holds "hello" in a block of 6 bytes; setting it to "hi" returns 0 and leaves "hi" in
the same block of 6 bytes. -/
theorem reachable_slots_hold_their_strings_witness :
    reachable three_example ∧
    load_slot three_example.data 0 = some (StrPtr.str 6 "hello".toList) ∧
    (ansi_c_dynstringarray_set three_example 0 "hi".toList tracker_all_ok).map
      (fun x => (x.1, load_slot x.2.1.data 0)) = some (0, some (StrPtr.str 6 "hi".toList)) ∧
    ((∀ k al s, load_slot three_example.data k = some (StrPtr.str al s) →
      s.length + 1 ≤ al) ∧
    (∀ i v mt al s, i < three_example.size →
      load_slot three_example.data i = some (StrPtr.str al s) →
      ¬ s.length < v.length →
      v.length + 1 ≤ al ∧
      ∃ d, ansi_c_dynstringarray_set three_example i v mt =
          some (0, { three_example with data := d }, mt) ∧
        load_slot d i = some (StrPtr.str al v)) ∧
    (∀ i v mt al s, i < three_example.size →
      load_slot three_example.data i = some (StrPtr.str al s) →
      s.length < v.length → mt.outcomes 0 = true →
      ∃ d, ansi_c_dynstringarray_set three_example i v mt =
          some (0, { three_example with data := d }, mt.consume) ∧
        load_slot d i = some (StrPtr.str (v.length + 1) v))) :=
  ⟨three_example_reachable, rfl, by rfl,
    reachable_slots_hold_their_strings three_example three_example_reachable⟩

theorem resize_capacity_loop64_exit (fuel c n nc : Nat) (w : Bool)
    (h : resize_capacity_loop64 fuel c n = some (nc, w)) (hr : c < SIZE_T_RANGE) :
    n ≤ nc ∧ nc < SIZE_T_RANGE ∧ (nc = c ∨ nc < n + DYNSTRINGARRAY_DEFAULT_CAPACITY) := by
  induction fuel generalizing c w with
  | zero => simp [resize_capacity_loop64] at h
  | succ f ih =>
    simp only [resize_capacity_loop64] at h
    split at h
    · rename_i hlt
      cases hrec : resize_capacity_loop64 f
          ((c + DYNSTRINGARRAY_DEFAULT_CAPACITY) % SIZE_T_RANGE) n with
      | none => simp [hrec] at h
      | some x =>
        obtain ⟨c1, w1⟩ := x
        simp only [hrec, Option.some.injEq, Prod.mk.injEq] at h
        obtain ⟨h1, _⟩ := h
        subst h1
        have hmod : (c + DYNSTRINGARRAY_DEFAULT_CAPACITY) % SIZE_T_RANGE < SIZE_T_RANGE :=
          Nat.mod_lt _ (by decide)
        obtain ⟨e1, e2, e3⟩ := ih _ w1 hrec hmod
        have hle : (c + DYNSTRINGARRAY_DEFAULT_CAPACITY) % SIZE_T_RANGE ≤
            c + DYNSTRINGARRAY_DEFAULT_CAPACITY := Nat.mod_le _ _
        refine ⟨e1, e2, Or.inr ?_⟩
        rcases e3 with e3 | e3
        · omega
        · exact e3
    · rename_i hge
      simp only [Option.some.injEq, Prod.mk.injEq] at h
      rw [← h.1]
      exact ⟨by omega, hr, Or.inl rfl⟩

theorem resize_capacity_loop64_some (fuel c n nc : Nat) (w : Bool)
    (h : resize_capacity_loop64 fuel c n = some (nc, w)) (hc : c % 10 = 0)
    (hr : c < SIZE_T_RANGE) (hn : n ≤ 18446744073709551610) :
    nc = max c (smallest_block_multiple n) ∧ w = false := by
  induction fuel generalizing c w with
  | zero => simp [resize_capacity_loop64] at h
  | succ f ih =>
    simp only [SIZE_T_RANGE] at hr
    simp only [resize_capacity_loop64] at h
    split at h
    · rename_i hlt
      have hsum : c + DYNSTRINGARRAY_DEFAULT_CAPACITY < SIZE_T_RANGE := by
        simp only [DYNSTRINGARRAY_DEFAULT_CAPACITY, SIZE_T_RANGE]; omega
      rw [Nat.mod_eq_of_lt hsum] at h
      cases hrec : resize_capacity_loop64 f (c + DYNSTRINGARRAY_DEFAULT_CAPACITY) n with
      | none => simp [hrec] at h
      | some x =>
        obtain ⟨c1, w1⟩ := x
        simp only [hrec, Option.some.injEq, Prod.mk.injEq] at h
        obtain ⟨h1, h2⟩ := h
        subst h1
        obtain ⟨e1, e2⟩ := ih _ w1 hrec
          (by simp only [DYNSTRINGARRAY_DEFAULT_CAPACITY]; omega) hsum
        have hdec : decide (SIZE_T_RANGE ≤ c + DYNSTRINGARRAY_DEFAULT_CAPACITY) = false := by
          simp only [decide_eq_false_iff_not]; omega
        rw [e2, hdec] at h2
        refine ⟨?_, by simpa using h2.symm⟩
        rw [e1]
        simp only [smallest_block_multiple, DYNSTRINGARRAY_DEFAULT_CAPACITY]
        omega
    · rename_i hge
      simp only [Option.some.injEq, Prod.mk.injEq] at h
      refine ⟨?_, h.2.symm⟩
      rw [← h.1]
      simp only [smallest_block_multiple, DYNSTRINGARRAY_DEFAULT_CAPACITY]
      omega

theorem resize_capacity_loop_closed (fuel c n : Nat) (h : n - c ≤ fuel) :
    resize_capacity_loop fuel c n = c + 10 * ((n - c + 9) / 10) := by
  induction fuel generalizing c with
  | zero =>
    simp only [resize_capacity_loop]
    omega
  | succ f ih =>
    simp only [resize_capacity_loop]
    split
    · rw [ih (c + DYNSTRINGARRAY_DEFAULT_CAPACITY)
        (by simp only [DYNSTRINGARRAY_DEFAULT_CAPACITY]; omega)]
      simp only [DYNSTRINGARRAY_DEFAULT_CAPACITY]
      omega
    · omega

theorem resize_capacity_loop64_plain (fuel c n : Nat)
    (hn : n + DYNSTRINGARRAY_DEFAULT_CAPACITY ≤ SIZE_T_RANGE) (hf : n - c < fuel) :
    resize_capacity_loop64 fuel c n = some (resize_capacity_loop n c n, false) := by
  rw [resize_capacity_loop_closed n c n (Nat.sub_le _ _)]
  induction fuel generalizing c with
  | zero => omega
  | succ f ih =>
    simp only [DYNSTRINGARRAY_DEFAULT_CAPACITY, SIZE_T_RANGE] at hn
    simp only [resize_capacity_loop64]
    split
    · rename_i hlt
      have hsum : c + DYNSTRINGARRAY_DEFAULT_CAPACITY < SIZE_T_RANGE := by
        simp only [DYNSTRINGARRAY_DEFAULT_CAPACITY, SIZE_T_RANGE]; omega
      rw [Nat.mod_eq_of_lt hsum]
      rw [ih (c + DYNSTRINGARRAY_DEFAULT_CAPACITY)
        (by simp only [DYNSTRINGARRAY_DEFAULT_CAPACITY]; omega)]
      have hdec : decide (SIZE_T_RANGE ≤ c + DYNSTRINGARRAY_DEFAULT_CAPACITY) = false := by
        simp only [decide_eq_false_iff_not]; omega
      simp only [hdec, Bool.or_false, Option.some.injEq, Prod.mk.injEq, and_true]
      simp only [DYNSTRINGARRAY_DEFAULT_CAPACITY]
      omega
    · simp only [Option.some.injEq, Prod.mk.injEq, and_true]
      omega

theorem wrapped_slot_count_small (n : Nat) (h : n * SIZEOF_CHAR_PTR < SIZE_T_RANGE) :
    wrapped_slot_count n = n := by
  simp only [SIZEOF_CHAR_PTR, SIZE_T_RANGE] at h
  simp only [wrapped_slot_count, SIZEOF_CHAR_PTR, SIZE_T_RANGE]
  omega

theorem wrapped_slot_count_large (n : Nat) (h : SIZE_T_RANGE ≤ n * SIZEOF_CHAR_PTR)
    (hr : n < SIZE_T_RANGE) : wrapped_slot_count n + 10 < n := by
  simp only [SIZEOF_CHAR_PTR, SIZE_T_RANGE] at h hr
  simp only [wrapped_slot_count, SIZEOF_CHAR_PTR, SIZE_T_RANGE]
  omega

theorem resize64_eq_resize (fuel : Nat) (arr : DynStringArray) (n : Nat) (mt : MemTrack)
    (hcap : arr.capacity * SIZEOF_CHAR_PTR < SIZE_T_RANGE)
    (hn : (n + DYNSTRINGARRAY_DEFAULT_CAPACITY) * SIZEOF_CHAR_PTR ≤ SIZE_T_RANGE)
    (hf : n - arr.capacity < fuel) :
    ansi_c_dynstringarray_resize64 fuel arr n mt = ansi_c_dynstringarray_resize arr n mt := by
  have hn2 : n + DYNSTRINGARRAY_DEFAULT_CAPACITY ≤ SIZE_T_RANGE := by
    simp only [DYNSTRINGARRAY_DEFAULT_CAPACITY, SIZEOF_CHAR_PTR, SIZE_T_RANGE] at hn ⊢
    omega
  have hsmall : resize_capacity_loop n arr.capacity n * SIZEOF_CHAR_PTR < SIZE_T_RANGE := by
    rw [resize_capacity_loop_closed n arr.capacity n (Nat.sub_le _ _)]
    simp only [DYNSTRINGARRAY_DEFAULT_CAPACITY, SIZEOF_CHAR_PTR, SIZE_T_RANGE] at hn hcap ⊢
    omega
  simp only [ansi_c_dynstringarray_resize64, ansi_c_dynstringarray_resize,
    resize_capacity_loop64_plain fuel arr.capacity n hn2 hf,
    wrapped_slot_count_small _ hsmall]

theorem resize_null_loop_bound (k : Nat) (d d1 : List StrPtr) (i : Nat)
    (h : resize_null_loop k d i = some d1) : k = 0 ∨ i + k ≤ d.length := by
  induction k generalizing d i with
  | zero => exact Or.inl rfl
  | succ m ih =>
    simp only [resize_null_loop] at h
    split at h
    · rename_i hlt
      rcases ih _ _ h with h1 | h1
      · right; omega
      · right
        rw [List.length_set] at h1
        omega
    · simp at h

theorem realloc_slots_length (mt m1 : MemTrack) (data : DataPtr) (n objid : Nat)
    (nd : List StrPtr)
    (h : ansi_c_mem_track_realloc_slots mt data n objid = some (some nd, m1)) :
    nd.length = n := by
  cases data with
  | invalid => simp [ansi_c_mem_track_realloc_slots] at h
  | null =>
    simp only [ansi_c_mem_track_realloc_slots] at h
    split at h
    · simp only [Option.some.injEq, Prod.mk.injEq] at h
      rw [← h.1]
      simp
    · simp at h
  | buf d =>
    simp only [ansi_c_mem_track_realloc_slots] at h
    split at h
    · simp only [Option.some.injEq, Prod.mk.injEq] at h
      rw [← h.1]
      exact realloc_grown_length d n
    · simp at h

theorem resize64_result (fuel : Nat) (arr a1 : DynStringArray) (n : Nat) (mt m1 : MemTrack)
    (r : Int) (h : ansi_c_dynstringarray_resize64 fuel arr n mt = some (r, a1, m1))
    (hcap : arr.capacity % 10 = 0) (hlt : arr.capacity * SIZEOF_CHAR_PTR < SIZE_T_RANGE) :
    a1.capacity % 10 = 0 ∧ a1.capacity * SIZEOF_CHAR_PTR < SIZE_T_RANGE ∧
    (a1.capacity = arr.capacity ∨
      (arr.size < n ∧ a1.capacity = max arr.capacity (smallest_block_multiple n))) ∧
    (arr.size < n → r = 0 → a1.capacity = max arr.capacity (smallest_block_multiple n)) := by
  simp only [ansi_c_dynstringarray_resize64] at h
  split at h
  · simp only [Option.some.injEq, Prod.mk.injEq] at h
    rw [← h.2.1]
    exact ⟨hcap, hlt, Or.inl rfl, fun hn => by omega⟩
  · rename_i hne
    split at h
    · rename_i hsm
      split at h
      · simp at h
      · simp only [Option.some.injEq, Prod.mk.injEq] at h
        rw [← h.2.1]
        exact ⟨hcap, hlt, Or.inl rfl, fun hn => by omega⟩
    · rename_i hnl
      have hgt : arr.size < n := by omega
      cases hloop : resize_capacity_loop64 fuel arr.capacity n with
      | none => simp [hloop] at h
      | some x =>
        obtain ⟨nc, w⟩ := x
        simp only [hloop] at h
        cases hre : ansi_c_mem_track_realloc_slots mt arr.data (wrapped_slot_count nc)
            arr.data_object_id with
        | none => simp [hre] at h
        | some y =>
          obtain ⟨ond, m2⟩ := y
          cases ond with
          | none =>
            simp only [hre, Option.some.injEq, Prod.mk.injEq] at h
            rw [← h.2.1]
            refine ⟨hcap, hlt, Or.inl rfl, fun _ hr0 => ?_⟩
            rw [← h.1] at hr0
            simp at hr0
          | some nd =>
            simp only [hre] at h
            cases hnull : resize_null_loop (n - arr.size) nd arr.size with
            | none => simp [hnull] at h
            | some d =>
              simp only [hnull, Option.some.injEq, Prod.mk.injEq] at h
              have hr64 : arr.capacity < SIZE_T_RANGE := by
                simp only [SIZEOF_CHAR_PTR, SIZE_T_RANGE] at hlt ⊢
                omega
              obtain ⟨e1, e2, e3⟩ := resize_capacity_loop64_exit fuel arr.capacity n nc w hloop hr64
              have hlen := realloc_slots_length _ _ _ _ _ _ hre
              have hb := resize_null_loop_bound _ _ _ _ hnull
              have hfit : n ≤ wrapped_slot_count nc := by omega
              have hsmall : nc * SIZEOF_CHAR_PTR < SIZE_T_RANGE := by
                rcases Nat.lt_or_ge (nc * SIZEOF_CHAR_PTR) SIZE_T_RANGE with h1 | h1
                · exact h1
                · have h2 := wrapped_slot_count_large nc h1 e2
                  simp only [DYNSTRINGARRAY_DEFAULT_CAPACITY] at e3
                  rcases e3 with e3 | e3
                  · rw [e3] at h1
                    omega
                  · omega
              have hn : n ≤ 18446744073709551610 := by
                simp only [SIZEOF_CHAR_PTR, SIZE_T_RANGE] at hsmall
                omega
              obtain ⟨e4, _⟩ := resize_capacity_loop64_some fuel arr.capacity n nc w hloop hcap
                hr64 hn
              obtain ⟨s1, _, _⟩ := smallest_block_multiple_spec n
              rw [← h.2.1]
              refine ⟨?_, hsmall, Or.inr ⟨hgt, e4⟩, fun _ _ => e4⟩
              show nc % 10 = 0
              rw [e4]
              rcases Nat.le_total arr.capacity (smallest_block_multiple n) with h1 | h1
              · rw [Nat.max_eq_right h1]
                exact s1
              · rw [Nat.max_eq_left h1]
                exact hcap

theorem push64_result (fuel : Nat) (arr a1 : DynStringArray) (v : CStr) (mt m1 : MemTrack)
    (r : Int) (h : ansi_c_dynstringarray_push64 fuel arr v mt = some (r, a1, m1))
    (hcap : arr.capacity % 10 = 0) (hlt : arr.capacity * SIZEOF_CHAR_PTR < SIZE_T_RANGE) :
    a1.capacity % 10 = 0 ∧ a1.capacity * SIZEOF_CHAR_PTR < SIZE_T_RANGE ∧
    (a1.capacity = arr.capacity ∨
      (arr.size = arr.capacity ∧
        a1.capacity = arr.capacity + DYNSTRINGARRAY_DEFAULT_CAPACITY)) ∧
    (arr.size = arr.capacity → r = 0 →
      a1.capacity = arr.capacity + DYNSTRINGARRAY_DEFAULT_CAPACITY) := by
  simp only [ansi_c_dynstringarray_push64] at h
  split at h
  · simp only [Option.some.injEq, Prod.mk.injEq] at h
    rw [← h.2.1]
    refine ⟨hcap, hlt, Or.inl rfl, fun _ hr0 => ?_⟩
    rw [← h.1] at hr0
    simp at hr0
  · by_cases hfull : arr.size = arr.capacity
    · simp only [hfull, if_true] at h
      have hn : (arr.capacity + 1) % SIZE_T_RANGE = arr.capacity + 1 := by
        simp only [SIZEOF_CHAR_PTR, SIZE_T_RANGE] at hlt ⊢
        omega
      rw [hn] at h
      cases hres : ansi_c_dynstringarray_resize64 fuel arr (arr.capacity + 1)
          (STRDUP mt v.length v arr.data_object_id).2 with
      | none => simp [hres] at h
      | some x =>
        obtain ⟨r1, arr1, mt1⟩ := x
        simp only [hres] at h
        obtain ⟨e1, e2, e3, e4⟩ := resize64_result fuel arr arr1 (arr.capacity + 1) _ mt1 r1 hres
          hcap hlt
        have hmax : max arr.capacity (smallest_block_multiple (arr.capacity + 1)) =
            arr.capacity + DYNSTRINGARRAY_DEFAULT_CAPACITY := by
          simp only [smallest_block_multiple, DYNSTRINGARRAY_DEFAULT_CAPACITY]
          omega
        rw [hmax] at e3 e4
        have e3b : arr1.capacity = arr.capacity ∨ (arr.size = arr.capacity ∧
            arr1.capacity = arr.capacity + DYNSTRINGARRAY_DEFAULT_CAPACITY) := by
          rcases e3 with e3 | e3
          · exact Or.inl e3
          · exact Or.inr ⟨hfull, e3.2⟩
        by_cases hr1 : r1 = 0
        · simp only [hr1, ne_eq, not_true_eq_false, if_false] at h
          split at h
          · simp at h
          · simp only [Option.some.injEq, Prod.mk.injEq] at h
            rw [← h.2.1]
            exact ⟨e1, e2, e3b, fun _ _ => e4 (by omega) hr1⟩
        · simp only [ne_eq, hr1, not_false_eq_true, if_true] at h
          split at h
          · simp at h
          · simp only [Option.some.injEq, Prod.mk.injEq] at h
            rw [← h.2.1]
            refine ⟨e1, e2, e3b, fun _ hr0 => ?_⟩
            rw [← h.1] at hr0
            simp at hr0
    · simp only [hfull, if_false, ne_eq, not_true_eq_false] at h
      split at h
      · simp at h
      · simp only [Option.some.injEq, Prod.mk.injEq] at h
        rw [← h.2.1]
        exact ⟨hcap, hlt, Or.inl rfl, fun hf => absurd hf hfull⟩

theorem insert64_result (fuel : Nat) (arr a1 : DynStringArray) (i : Nat) (v : CStr)
    (mt m1 : MemTrack) (r : Int)
    (h : ansi_c_dynstringarray_insert64 fuel arr i v mt = some (r, a1, m1))
    (hcap : arr.capacity % 10 = 0) (hlt : arr.capacity * SIZEOF_CHAR_PTR < SIZE_T_RANGE) :
    a1.capacity % 10 = 0 ∧ a1.capacity * SIZEOF_CHAR_PTR < SIZE_T_RANGE ∧
    (a1.capacity = arr.capacity ∨
      (arr.size = arr.capacity ∧
        a1.capacity = arr.capacity + DYNSTRINGARRAY_DEFAULT_CAPACITY)) ∧
    (arr.size = arr.capacity → r = 0 →
      a1.capacity = arr.capacity + DYNSTRINGARRAY_DEFAULT_CAPACITY) := by
  unfold ansi_c_dynstringarray_insert64 at h
  split at h
  · simp only [Option.some.injEq, Prod.mk.injEq] at h
    rw [← h.2.1]
    refine ⟨hcap, hlt, Or.inl rfl, fun _ hr0 => ?_⟩
    rw [← h.1] at hr0
    simp at hr0
  · split at h
    · exact push64_result fuel arr a1 v mt m1 r h hcap hlt
    · rename_i hgt hne
      have hi : i < arr.size := by omega
      by_cases hfull : arr.size = arr.capacity
      · simp only [hfull, if_true] at h
        have hnc : (arr.capacity + DYNSTRINGARRAY_DEFAULT_CAPACITY) % SIZE_T_RANGE =
            arr.capacity + DYNSTRINGARRAY_DEFAULT_CAPACITY := by
          simp only [SIZEOF_CHAR_PTR, SIZE_T_RANGE, DYNSTRINGARRAY_DEFAULT_CAPACITY] at hlt ⊢
          omega
        rw [hnc] at h
        cases hre : ansi_c_mem_track_realloc_slots mt arr.data
            (wrapped_slot_count (arr.capacity + DYNSTRINGARRAY_DEFAULT_CAPACITY))
            arr.data_object_id with
        | none => simp [hre] at h
        | some y =>
          obtain ⟨ond, m2⟩ := y
          cases ond with
          | none =>
            simp only [hre, ne_eq, if_true] at h
            simp at h
            rw [← h.2.1]
            refine ⟨hcap, hlt, Or.inl rfl, fun _ hr0 => ?_⟩
            rw [← h.1] at hr0
            simp at hr0
          | some nd =>
            simp only [hre, ne_eq, not_true_eq_false, if_false] at h
            have hlen := realloc_slots_length _ _ _ _ _ _ hre
            cases hm : memmove_slots (DataPtr.buf nd) (i + 1) i
                (wrapped_slot_count (arr.capacity - i)) with
            | none => simp [hm] at h
            | some data1 =>
              simp only [hm] at h
              split at h
              · simp at h
              · simp only [Option.some.injEq, Prod.mk.injEq] at h
                have hmv : i + 1 + wrapped_slot_count (arr.capacity - i) ≤ nd.length := by
                  simp only [memmove_slots] at hm
                  split at hm
                  · rename_i hc
                    exact hc.2
                  · simp at hm
                have hcnt : wrapped_slot_count (arr.capacity - i) = arr.capacity - i := by
                  apply wrapped_slot_count_small
                  simp only [SIZEOF_CHAR_PTR, SIZE_T_RANGE] at hlt ⊢
                  omega
                have hsmall : (arr.capacity + DYNSTRINGARRAY_DEFAULT_CAPACITY) *
                    SIZEOF_CHAR_PTR < SIZE_T_RANGE := by
                  rcases Nat.lt_or_ge ((arr.capacity + DYNSTRINGARRAY_DEFAULT_CAPACITY) *
                    SIZEOF_CHAR_PTR) SIZE_T_RANGE with h1 | h1
                  · exact h1
                  · have h2 := wrapped_slot_count_large _ h1 (by
                      simp only [SIZEOF_CHAR_PTR, SIZE_T_RANGE,
                        DYNSTRINGARRAY_DEFAULT_CAPACITY] at hlt ⊢
                      omega)
                    simp only [DYNSTRINGARRAY_DEFAULT_CAPACITY] at h2 hlen
                    omega
                rw [← h.2.1]
                refine ⟨?_, hsmall, Or.inr ⟨hfull, rfl⟩, fun _ _ => rfl⟩
                show (arr.capacity + DYNSTRINGARRAY_DEFAULT_CAPACITY) % 10 = 0
                simp only [DYNSTRINGARRAY_DEFAULT_CAPACITY]
                omega
      · simp only [hfull, if_false, ne_eq, not_true_eq_false] at h
        split at h
        · simp at h
        · split at h
          · simp at h
          · simp only [Option.some.injEq, Prod.mk.injEq] at h
            rw [← h.2.1]
            exact ⟨hcap, hlt, Or.inl rfl, fun hf => absurd hf hfull⟩

theorem init_loop64_result (fuel : Nat) (vs : List CStr) (a b : DynStringArray)
    (mt m1 : MemTrack) (h : init_loop64 fuel a vs mt = some (b, m1))
    (hcap : a.capacity % 10 = 0) (hlt : a.capacity * SIZEOF_CHAR_PTR < SIZE_T_RANGE) :
    b.capacity % 10 = 0 ∧ b.capacity * SIZEOF_CHAR_PTR < SIZE_T_RANGE := by
  induction vs generalizing a mt with
  | nil =>
    simp only [init_loop64, Option.some.injEq, Prod.mk.injEq] at h
    rw [← h.1]
    exact ⟨hcap, hlt⟩
  | cons v rest ih =>
    simp only [init_loop64] at h
    cases hp : ansi_c_dynstringarray_push64 fuel a v mt with
    | none => simp [hp] at h
    | some x =>
      obtain ⟨r, a1, m2⟩ := x
      simp only [hp] at h
      obtain ⟨e1, e2, _⟩ := push64_result fuel a a1 v mt m2 r hp hcap hlt
      exact ih a1 m2 h e1 e2

theorem init64_result (fuel : Nat) (a b : DynStringArray) (vs : List CStr)
    (mt m1 : MemTrack)
    (h : ansi_c_dynstringarray_init64 fuel (some a) vs mt = some (some b, m1)) :
    b.capacity % 10 = 0 ∧ b.capacity * SIZEOF_CHAR_PTR < SIZE_T_RANGE := by
  simp only [ansi_c_dynstringarray_init64] at h
  cases hc : ansi_c_dynstringarray_clear (some a) mt with
  | mk c m0 =>
    cases c with
    | none =>
      simp [hc] at h
    | some c1 =>
      simp only [hc] at h
      cases hl : init_loop64 fuel c1 vs m0 with
      | none => simp [hl] at h
      | some x =>
        obtain ⟨b1, m2⟩ := x
        simp only [hl, Option.some.injEq, Prod.mk.injEq] at h
        obtain ⟨hcap, _, _⟩ := clear_result a c1 mt m0 hc
        rw [← h.1]
        exact init_loop64_result fuel vs c1 b1 m0 m2 hl (by rw [hcap]; rfl)
          (by rw [hcap]; decide)

theorem initdata_capacity_small (arr : DynStringArray) (mode : dyn_arr_alloc_mode)
    (mt : MemTrack) :
    (ansi_c_dynstringarray_initdata arr mode mt).2.1.capacity ≤
      DYNSTRINGARRAY_DEFAULT_CAPACITY := by
  by_cases ho : mt.outcomes 0 = true
  · simp [ansi_c_dynstringarray_initdata, ansi_c_mem_track_malloc_slots,
      DYNSTRINGARRAY_DEFAULT_CAPACITY, ho]
  · simp [ansi_c_dynstringarray_initdata, ansi_c_mem_track_malloc_slots,
      DYNSTRINGARRAY_DEFAULT_CAPACITY, ho]

theorem create_capacity_small (caller : Option DynStringArray) (fresh a : DynStringArray)
    (mt m1 : MemTrack) (ret : Int) (hinit : mt.initialized = true)
    (h : ansi_c_dynstringarray_create caller fresh mt = (ret, some a, m1)) :
    a.capacity ≤ DYNSTRINGARRAY_DEFAULT_CAPACITY := by
  simp only [ansi_c_dynstringarray_create, ansi_c_mem_track_is_initialized, hinit,
    Bool.not_true, Bool.false_eq_true, if_false] at h
  cases caller with
  | none =>
    simp only [ansi_c_mem_track_get_next_object_id, ansi_c_mem_track_malloc_record] at h
    split at h
    · simp at h
    · simp only [Prod.mk.injEq, Option.some.injEq] at h
      rw [← h.2.1]
      exact initdata_capacity_small _ _ _
  | some r =>
    simp only [Prod.mk.injEq, Option.some.injEq] at h
    rw [← h.2.1]
    exact initdata_capacity_small _ _ _

theorem op_step64_invariant (a b : DynStringArray) (hs : op_step64 a b)
    (hcap : a.capacity % 10 = 0) (hlt : a.capacity * SIZEOF_CHAR_PTR < SIZE_T_RANGE) :
    b.capacity % 10 = 0 ∧ b.capacity * SIZEOF_CHAR_PTR < SIZE_T_RANGE := by
  cases hs with
  | push v mt m1 r fuel h =>
    obtain ⟨e1, e2, _⟩ := push64_result fuel a b v mt m1 r h hcap hlt
    exact ⟨e1, e2⟩
  | insert i v mt m1 r fuel h =>
    obtain ⟨e1, e2, _⟩ := insert64_result fuel a b i v mt m1 r h hcap hlt
    exact ⟨e1, e2⟩
  | set i v mt m1 r h =>
    obtain ⟨_, hc, _⟩ := set_result a b i v mt m1 r h
    rw [hc]
    exact ⟨hcap, hlt⟩
  | removeAt i buffer out buf_size r mt m1 h =>
    obtain ⟨_, hc⟩ := removeAt_result a b i buffer out buf_size r mt m1 h
    rw [hc]
    exact ⟨hcap, hlt⟩
  | resize n mt m1 r fuel h =>
    obtain ⟨e1, e2, _⟩ := resize64_result fuel a b n mt m1 r h hcap hlt
    exact ⟨e1, e2⟩
  | init values mt m1 fuel h => exact init64_result fuel a b values mt m1 h
  | clear mt m1 h =>
    obtain ⟨hc, _, _⟩ := clear_result a b mt m1 h
    rw [hc]
    exact ⟨rfl, by decide⟩
  | destroy mt m1 h =>
    obtain ⟨hc, _⟩ := destroy_result a b mt m1 h
    rw [hc]
    exact ⟨rfl, by decide⟩

theorem reachable64_invariant (a : DynStringArray) (h : reachable64 a) :
    a.capacity % 10 = 0 ∧ a.capacity * SIZEOF_CHAR_PTR < SIZE_T_RANGE := by
  induction h with
  | create caller fresh a mt m1 ret hinit hc =>
    have h1 := (create_invariants caller fresh a mt m1 ret hinit hc).1
    have h2 := create_capacity_small caller fresh a mt m1 ret hinit hc
    refine ⟨h1, ?_⟩
    simp only [DYNSTRINGARRAY_DEFAULT_CAPACITY] at h2
    simp only [SIZEOF_CHAR_PTR, SIZE_T_RANGE]
    omega
  | step a b _ hs ih => exact op_step64_invariant a b hs ih.1 ih.2

theorem created_example_reachable64 : reachable64 created_example :=
  reachable64.create none record_garbage created_example tracker_all_ok
    { tracker_all_ok with next_object_id := 2, live := [1, 0] } 0 rfl (by rfl)

theorem init_loop64_reachable (fuel : Nat) (vs : List CStr) (a b : DynStringArray)
    (mt m1 : MemTrack) (h : init_loop64 fuel a vs mt = some (b, m1)) (ha : reachable64 a) :
    reachable64 b := by
  induction vs generalizing a mt with
  | nil =>
    simp only [init_loop64, Option.some.injEq, Prod.mk.injEq] at h
    rw [← h.1]
    exact ha
  | cons v rest ih =>
    simp only [init_loop64] at h
    cases hp : ansi_c_dynstringarray_push64 fuel a v mt with
    | none => simp [hp] at h
    | some x =>
      obtain ⟨r, a1, m2⟩ := x
      simp only [hp] at h
      exact ih a1 m2 h (reachable64.step _ _ ha (op_step64.push _ _ v mt m2 r fuel hp))

theorem full_example_reachable64 : reachable64 full_example :=
  init_loop64_reachable 2 (twelve_values.take 10) created_example full_example
    tracker_all_ok { tracker_all_ok with live := [1, 1, 1, 1, 1, 1, 1, 1, 1, 1] } (by rfl)
    created_example_reachable64

theorem resize64_eq_resize_blocks (fuel : Nat) (arr : DynStringArray) (n : Nat)
    (mt : MemTrack) (hc : arr.capacity % 10 = 0)
    (hcap : arr.capacity * SIZEOF_CHAR_PTR < SIZE_T_RANGE)
    (hn : n ≤ 2305843009213693950) (hf : n - arr.capacity < fuel) :
    ansi_c_dynstringarray_resize64 fuel arr n mt = ansi_c_dynstringarray_resize arr n mt := by
  have hn2 : n + DYNSTRINGARRAY_DEFAULT_CAPACITY ≤ SIZE_T_RANGE := by
    simp only [DYNSTRINGARRAY_DEFAULT_CAPACITY, SIZE_T_RANGE]
    omega
  have hsmall : resize_capacity_loop n arr.capacity n * SIZEOF_CHAR_PTR < SIZE_T_RANGE := by
    rw [resize_capacity_loop_closed n arr.capacity n (Nat.sub_le _ _)]
    simp only [SIZEOF_CHAR_PTR, SIZE_T_RANGE] at hcap ⊢
    omega
  simp only [ansi_c_dynstringarray_resize64, ansi_c_dynstringarray_resize,
    resize_capacity_loop64_plain fuel arr.capacity n hn2 hf,
    wrapped_slot_count_small _ hsmall]

theorem resize64_not_growing (fuel : Nat) (arr : DynStringArray) (n : Nat) (mt : MemTrack)
    (h : n ≤ arr.size) :
    ansi_c_dynstringarray_resize64 fuel arr n mt = ansi_c_dynstringarray_resize arr n mt := by
  rcases Nat.lt_or_ge n arr.size with h1 | h1
  · have h2 : ¬ n = arr.size := by omega
    simp only [ansi_c_dynstringarray_resize64, ansi_c_dynstringarray_resize, h2, h1,
      if_false, if_true]
  · have h2 : n = arr.size := by omega
    simp only [ansi_c_dynstringarray_resize64, ansi_c_dynstringarray_resize, h2, if_true]

theorem resize64_none_of_overrun (fuel : Nat) (arr : DynStringArray) (n : Nat)
    (mt : MemTrack) (hgt : arr.size < n) (hok : mt.outcomes 0 = true)
    (hloop : ∀ nc w, resize_capacity_loop64 fuel arr.capacity n = some (nc, w) →
      wrapped_slot_count nc < n) :
    ansi_c_dynstringarray_resize64 fuel arr n mt = none := by
  have h1 : ¬ n = arr.size := by omega
  have h2 : ¬ n < arr.size := by omega
  simp only [ansi_c_dynstringarray_resize64, h1, h2, if_false]
  cases hl : resize_capacity_loop64 fuel arr.capacity n with
  | none => rfl
  | some x =>
    obtain ⟨nc, w⟩ := x
    have hw := hloop nc w hl
    simp only []
    cases hre : ansi_c_mem_track_realloc_slots mt arr.data (wrapped_slot_count nc)
        arr.data_object_id with
    | none => rfl
    | some y =>
      obtain ⟨ond, m2⟩ := y
      cases ond with
      | none =>
        cases hd : arr.data with
        | invalid => simp [hd, ansi_c_mem_track_realloc_slots] at hre
        | null => simp [hd, ansi_c_mem_track_realloc_slots, hok] at hre
        | buf d => simp [hd, ansi_c_mem_track_realloc_slots, hok] at hre
      | some nd =>
        simp only []
        have hlen := realloc_slots_length _ _ _ _ _ _ hre
        cases hnull : resize_null_loop (n - arr.size) nd arr.size with
        | none => rfl
        | some d =>
          have hb := resize_null_loop_bound _ _ _ _ hnull
          omega

theorem resize64_beyond_bound (fuel : Nat) (arr : DynStringArray) (n : Nat) (mt : MemTrack)
    (hc : arr.capacity % 10 = 0) (hcap : arr.capacity * SIZEOF_CHAR_PTR < SIZE_T_RANGE)
    (hgt : arr.size < n) (hn : 2305843009213693950 < n) (hok : mt.outcomes 0 = true) :
    ansi_c_dynstringarray_resize64 fuel arr n mt = none := by
  apply resize64_none_of_overrun fuel arr n mt hgt hok
  intro nc w hl
  have hr64 : arr.capacity < SIZE_T_RANGE := by
    simp only [SIZEOF_CHAR_PTR, SIZE_T_RANGE] at hcap ⊢
    omega
  obtain ⟨e1, e2, e3⟩ := resize_capacity_loop64_exit fuel arr.capacity n nc w hl hr64
  simp only [DYNSTRINGARRAY_DEFAULT_CAPACITY] at e3
  rcases Nat.lt_or_ge (nc * SIZEOF_CHAR_PTR) SIZE_T_RANGE with h1 | h1
  · exfalso
    simp only [SIZEOF_CHAR_PTR, SIZE_T_RANGE] at h1 hcap
    obtain ⟨e4, _⟩ := resize_capacity_loop64_some fuel arr.capacity n nc w hl hc hr64
      (by omega)
    obtain ⟨s1, s2, _⟩ := smallest_block_multiple_spec n
    rcases Nat.le_total arr.capacity (smallest_block_multiple n) with h2 | h2
    · rw [Nat.max_eq_right h2] at e4
      omega
    · rw [Nat.max_eq_left h2] at e4
      omega
  · have h2 := wrapped_slot_count_large nc h1 e2
    rcases e3 with e3 | e3
    · rw [e3] at h1
      omega
    · omega

/-- C5, counterexample: with `size_t` a 64-bit unsigned integer, on the container that
create returns (count 0, capacity 10) and an allocator whose reallocation succeeds,
`ansi_c_dynstringarray_resize(n)` does not return 0 with `size() == n` for two sizes
`n` that a caller can pass.  For `n = 2^64 - 1` the capacity loop never exits, as every
value of `new_capacity` is even.  For `n = 2^61` the loop exits at 2305843009213693960
slots, whose byte size wraps around to 64 bytes, a block of 8 slots, and the loop that
stores `NULL` in the slots `0 ≤ i < n` writes past it: whatever bound is put on the
capacity loop, the call yields no result. -/
theorem resize64_fails_for_huge_size :
    (reachable64 created_example ∧ created_example.valid ∧ created_example.size = 0 ∧
      created_example.capacity = 10 ∧ tracker_all_ok.outcomes 0 = true ∧
      18446744073709551615 < SIZE_T_RANGE) ∧
    (∀ fuel, resize_capacity_loop64 fuel created_example.capacity 18446744073709551615 =
      none) ∧
    (∀ fuel, ansi_c_dynstringarray_resize64 fuel created_example 18446744073709551615
      tracker_all_ok = none) ∧
    resize_capacity_loop64 2305843009213693952 created_example.capacity
      2305843009213693952 = some (2305843009213693960, false) ∧
    wrapped_slot_count 2305843009213693960 = 8 ∧
    (∀ fuel, ansi_c_dynstringarray_resize64 fuel created_example 2305843009213693952
      tracker_all_ok = none) :=
  ⟨⟨created_example_reachable64, by decide, rfl, rfl, rfl, by decide⟩,
    fun fuel =>
      resize_capacity_loop64_even_runs_on fuel created_example.capacity (by decide)
        (by decide),
    fun fuel =>
      resize64_beyond_bound fuel created_example 18446744073709551615 tracker_all_ok
        (by decide) (by decide) (by decide) (by decide) rfl,
    (resize_capacity_loop64_exact 2305843009213693952 created_example.capacity
      2305843009213693952 (by decide) (by decide) (by decide) (by decide)).trans (by decide),
    by decide,
    fun fuel =>
      resize64_beyond_bound fuel created_example 2305843009213693952 tracker_all_ok
        (by decide) (by decide) (by decide) (by decide) rfl⟩

/-- C5, amended: with `size_t` a 64-bit unsigned integer, for every container that
satisfies the data-model invariants, whose slots below `count` hold a string or `NULL`
and whose buffer has a byte size `capacity * sizeof(char*)` below 2^64, and every `n`
that, when it is greater than the count, has `(n + 10) * sizeof(char*) ≤ 2^64`: when
the reallocation succeeds `ansi_c_dynstringarray_resize(n)` returns (its capacity loop
exits within `n - capacity + 1` evaluations of its test), the result is 0 and `size()`
is `n`; for `n > old size` `get(k)` is `NULL` for `old size ≤ k < n` and unchanged for
`k < old size`; for `n < old size` `get(k)` is `NULL` for every `k ≥ n`, unchanged for
`k < n`, and the capacity is unchanged; for `n = old size` nothing changes. -/
theorem resize_sets_size (fuel : Nat) (arr : DynStringArray) (n : Nat) (mt : MemTrack)
    (hv : arr.valid)
    (hslots : ∀ k, k < arr.size → load_slot arr.data k ≠ some StrPtr.invalid)
    (hok : mt.outcomes 0 = true)
    (hcap : arr.capacity * SIZEOF_CHAR_PTR < SIZE_T_RANGE)
    (hn : arr.size < n →
      (n + DYNSTRINGARRAY_DEFAULT_CAPACITY) * SIZEOF_CHAR_PTR ≤ SIZE_T_RANGE)
    (hf : n - arr.capacity < fuel) :
    ∃ arr1 mt1, ansi_c_dynstringarray_resize64 fuel arr n mt = some (0, arr1, mt1) ∧
      ansi_c_dynstringarray_size arr1 = n ∧
      (arr.size < n →
        (∀ k, arr.size ≤ k → k < n → ansi_c_dynstringarray_get arr1 k = some StrPtr.null) ∧
        (∀ k, k < arr.size →
          ansi_c_dynstringarray_get arr1 k = ansi_c_dynstringarray_get arr k)) ∧
      (n < arr.size →
        (∀ k, n ≤ k → ansi_c_dynstringarray_get arr1 k = some StrPtr.null) ∧
        (∀ k, k < n → ansi_c_dynstringarray_get arr1 k = ansi_c_dynstringarray_get arr k) ∧
        arr1.capacity = arr.capacity) ∧
      (n = arr.size → arr1 = arr ∧ mt1 = mt) := by
  have heq : ansi_c_dynstringarray_resize64 fuel arr n mt =
      ansi_c_dynstringarray_resize arr n mt := by
    rcases Nat.lt_or_ge arr.size n with h1 | h1
    · exact resize64_eq_resize fuel arr n mt hcap (hn h1) hf
    · exact resize64_not_growing fuel arr n mt h1
  rw [heq]
  exact resize_unbounded_spec arr n mt hv hslots hok

/-- C5 on the container `hello`, `world`, `foo`: `resize(1)` returns 0 and leaves count
1, capacity 10, `hello` at index 0 and nothing at index 1; `resize(5)` is the growing
case. -/
theorem resize_sets_size_witness :
    (three_example.valid ∧
      (∀ k, k < three_example.size →
        load_slot three_example.data k ≠ some StrPtr.invalid) ∧
      tracker_all_ok.outcomes 0 = true ∧
      three_example.capacity * SIZEOF_CHAR_PTR < SIZE_T_RANGE ∧
      (5 + DYNSTRINGARRAY_DEFAULT_CAPACITY) * SIZEOF_CHAR_PTR ≤ SIZE_T_RANGE ∧
      5 - three_example.capacity < 1) ∧
    (ansi_c_dynstringarray_resize64 1 three_example 1 tracker_all_ok).map
        (fun r => (r.1, r.2.1.size, r.2.1.capacity, ansi_c_dynstringarray_get r.2.1 0,
          ansi_c_dynstringarray_get r.2.1 1)) =
      some (0, 1, 10, some (StrPtr.str 6 "hello".toList), some StrPtr.null) ∧
    (ansi_c_dynstringarray_resize64 1 three_example 5 tracker_all_ok).map
        (fun r => (r.1, r.2.1.size, r.2.1.capacity, ansi_c_dynstringarray_get r.2.1 2,
          ansi_c_dynstringarray_get r.2.1 3, ansi_c_dynstringarray_get r.2.1 4)) =
      some (0, 5, 10, some (StrPtr.str 4 "foo".toList), some StrPtr.null,
        some StrPtr.null) ∧
    ∃ arr1 mt1, ansi_c_dynstringarray_resize64 1 three_example 5 tracker_all_ok =
        some (0, arr1, mt1) ∧
      ansi_c_dynstringarray_size arr1 = 5 ∧
      (three_example.size < 5 →
        (∀ k, three_example.size ≤ k → k < 5 →
          ansi_c_dynstringarray_get arr1 k = some StrPtr.null) ∧
        (∀ k, k < three_example.size →
          ansi_c_dynstringarray_get arr1 k = ansi_c_dynstringarray_get three_example k)) ∧
      (5 < three_example.size →
        (∀ k, 5 ≤ k → ansi_c_dynstringarray_get arr1 k = some StrPtr.null) ∧
        (∀ k, k < 5 →
          ansi_c_dynstringarray_get arr1 k = ansi_c_dynstringarray_get three_example k) ∧
        arr1.capacity = three_example.capacity) ∧
      (5 = three_example.size → arr1 = three_example ∧ mt1 = tracker_all_ok) :=
  ⟨⟨by decide, three_example_slots, rfl, by decide, by decide, by decide⟩, by decide,
    by rfl,
    resize_sets_size 1 three_example 5 tracker_all_ok (by decide) three_example_slots rfl
      (by decide) (fun _ => by decide) (by decide)⟩

theorem resize_capacity_loop64_steps (k fuel c n : Nat)
    (hk : c + 10 * k < n + 10) (hr : c + 10 * k < SIZE_T_RANGE) :
    resize_capacity_loop64 (fuel + k) c n = resize_capacity_loop64 fuel (c + 10 * k) n := by
  induction k generalizing c with
  | zero => rfl
  | succ m ih =>
    have hlt : c < n := by omega
    have hsum : c + DYNSTRINGARRAY_DEFAULT_CAPACITY < SIZE_T_RANGE := by
      simp only [DYNSTRINGARRAY_DEFAULT_CAPACITY]; omega
    have hdec : decide (SIZE_T_RANGE ≤ c + DYNSTRINGARRAY_DEFAULT_CAPACITY) = false := by
      simp only [decide_eq_false_iff_not]; omega
    have hstep : resize_capacity_loop64 (fuel + m + 1) c n =
        resize_capacity_loop64 (fuel + m) (c + DYNSTRINGARRAY_DEFAULT_CAPACITY) n := by
      simp only [resize_capacity_loop64, hlt, if_true, Nat.mod_eq_of_lt hsum, hdec,
        Bool.or_false]
      cases resize_capacity_loop64 (fuel + m) (c + DYNSTRINGARRAY_DEFAULT_CAPACITY) n with
      | none => rfl
      | some x => rfl
    have hih := ih (c + DYNSTRINGARRAY_DEFAULT_CAPACITY)
      (by simp only [DYNSTRINGARRAY_DEFAULT_CAPACITY]; omega)
      (by simp only [DYNSTRINGARRAY_DEFAULT_CAPACITY]; omega)
    have hadd : c + DYNSTRINGARRAY_DEFAULT_CAPACITY + 10 * m = c + 10 * (m + 1) := by
      simp only [DYNSTRINGARRAY_DEFAULT_CAPACITY]; omega
    rw [hadd] at hih
    exact hstep.trans hih

theorem resize_capacity_loop64_wrap_step (fuel c n : Nat) (hlt : c < n)
    (hw : SIZE_T_RANGE ≤ c + DYNSTRINGARRAY_DEFAULT_CAPACITY) (nc : Nat) (w : Bool)
    (h : resize_capacity_loop64 fuel
      ((c + DYNSTRINGARRAY_DEFAULT_CAPACITY) % SIZE_T_RANGE) n = some (nc, w)) :
    resize_capacity_loop64 (fuel + 1) c n = some (nc, true) := by
  simp only [resize_capacity_loop64, hlt, if_true, h, decide_eq_true hw, Bool.or_true]

theorem resize_capacity_loop64_wrapped_exit :
    resize_capacity_loop64 3689348814741910323 10 18446744073709551614 =
      some (18446744073709551614, true) := by
  have h3 : resize_capacity_loop64 1 18446744073709551614 18446744073709551614 =
      some (18446744073709551614, false) := by
    simp [resize_capacity_loop64]
  have h2 : resize_capacity_loop64 (1 + 1844674407370955161) 4 18446744073709551614 =
      some (18446744073709551614, false) :=
    (resize_capacity_loop64_steps 1844674407370955161 1 4 18446744073709551614
      (by decide) (by decide)).trans h3
  have h1 : resize_capacity_loop64 (1 + 1844674407370955161 + 1) 18446744073709551610
      18446744073709551614 = some (18446744073709551614, true) :=
    resize_capacity_loop64_wrap_step _ 18446744073709551610 18446744073709551614
      (by decide) (by decide) _ _ h2
  exact (resize_capacity_loop64_steps 1844674407370955160 (1 + 1844674407370955161 + 1) 10
    18446744073709551614 (by decide) (by decide)).trans h1

/-- C20, amended: with `size_t` a 64-bit unsigned integer, for every container whose
capacity is a multiple of the block size 10 with a byte size `capacity * sizeof(char*)`
below 2^64, whose buffer pointer is `NULL` or a live block, and every `new_size > count`
up to 2305843009213693950, the largest multiple of 10 whose byte size is below 2^64:
when the reallocation succeeds `ansi_c_dynstringarray_resize(new_size)` returns (its
capacity loop exits within `new_size - capacity + 1` evaluations of its test), the
result is 0 and the capacity is the larger of the capacity before the call and the
smallest multiple of 10 that is at least `new_size`: the capacity grows to that
multiple when it was smaller and is kept otherwise. -/
theorem resize_capacity_after_growth (fuel : Nat) (arr : DynStringArray) (new_size : Nat)
    (mt : MemTrack) (hgt : arr.size < new_size) (hcap : arr.capacity % 10 = 0)
    (hb : arr.data ≠ DataPtr.invalid) (hok : mt.outcomes 0 = true)
    (hlt : arr.capacity * SIZEOF_CHAR_PTR < SIZE_T_RANGE)
    (hn : new_size ≤ 2305843009213693950) (hf : new_size - arr.capacity < fuel) :
    ∃ arr1 mt1, ansi_c_dynstringarray_resize64 fuel arr new_size mt = some (0, arr1, mt1) ∧
      arr1.capacity = max arr.capacity (smallest_block_multiple new_size) ∧
      (arr.capacity < new_size → arr1.capacity = smallest_block_multiple new_size) ∧
      (new_size ≤ arr.capacity → arr1.capacity = arr.capacity) := by
  rw [resize64_eq_resize_blocks fuel arr new_size mt hcap hlt hn hf]
  exact resize_unbounded_capacity arr new_size mt hgt hcap hb hok

/-- C20 on the container `hello`, `world`, `foo` with capacity 10: `resize(25)` returns
0 and leaves count 25 and capacity 30. -/
theorem resize_capacity_after_growth_witness :
    (three_example.size < 25 ∧ three_example.capacity % 10 = 0 ∧
      three_example.data ≠ DataPtr.invalid ∧ tracker_all_ok.outcomes 0 = true ∧
      three_example.capacity * SIZEOF_CHAR_PTR < SIZE_T_RANGE ∧
      25 ≤ 2305843009213693950 ∧ 25 - three_example.capacity < 16) ∧
    (ansi_c_dynstringarray_resize64 16 three_example 25 tracker_all_ok).map
        (fun r => (r.1, r.2.1.size, r.2.1.capacity)) = some (0, 25, 30) ∧
    ∃ arr1 mt1, ansi_c_dynstringarray_resize64 16 three_example 25 tracker_all_ok =
        some (0, arr1, mt1) ∧
      arr1.capacity = max three_example.capacity (smallest_block_multiple 25) ∧
      (three_example.capacity < 25 → arr1.capacity = smallest_block_multiple 25) ∧
      (25 ≤ three_example.capacity → arr1.capacity = three_example.capacity) :=
  ⟨⟨by decide, by decide, by decide, rfl, by decide, by decide, by decide⟩, by decide,
    resize_capacity_after_growth 16 three_example 25 tracker_all_ok (by decide) (by decide)
      (by decide) rfl (by decide) (by decide) (by decide)⟩

/-- C21: with `size_t` a 64-bit unsigned integer, in every record reachable from
`ansi_c_dynstringarray_create` (tracker initialised) through returning calls of the
public operations, under any allocator outcomes, `capacity` is a whole multiple of
`DYNSTRINGARRAY_DEFAULT_CAPACITY` (0 included) and its byte size
`capacity * sizeof(char*)` is below 2^64; every operation that increases `capacity`
increases it by a positive whole multiple of the block size; a push or an insert
increases it only on a full buffer and then by exactly one block, and does so whenever
it returns 0 on a full buffer; a growing resize that returns 0 leaves the larger of the
old capacity and the smallest multiple of the block size that holds the new size.  A
call whose capacity or byte size wraps around leaves no record: its reallocation
fails and the record stays as it was, or it writes past the block it was given. -/
theorem capacity_multiple_of_block (a : DynStringArray) (ha : reachable64 a) :
    (∃ k, a.capacity = k * DYNSTRINGARRAY_DEFAULT_CAPACITY) ∧
    a.capacity * SIZEOF_CHAR_PTR < SIZE_T_RANGE ∧
    (∀ b, op_step64 a b → a.capacity < b.capacity →
      ∃ k, 0 < k ∧ b.capacity = a.capacity + k * DYNSTRINGARRAY_DEFAULT_CAPACITY) ∧
    (∀ fuel b v mt m1 r, ansi_c_dynstringarray_push64 fuel a v mt = some (r, b, m1) →
      (a.capacity < b.capacity →
        a.size = a.capacity ∧ b.capacity = a.capacity + DYNSTRINGARRAY_DEFAULT_CAPACITY) ∧
      (a.size = a.capacity → r = 0 →
        b.capacity = a.capacity + DYNSTRINGARRAY_DEFAULT_CAPACITY)) ∧
    (∀ fuel b i v mt m1 r, ansi_c_dynstringarray_insert64 fuel a i v mt = some (r, b, m1) →
      (a.capacity < b.capacity →
        a.size = a.capacity ∧ b.capacity = a.capacity + DYNSTRINGARRAY_DEFAULT_CAPACITY) ∧
      (a.size = a.capacity → r = 0 →
        b.capacity = a.capacity + DYNSTRINGARRAY_DEFAULT_CAPACITY)) ∧
    (∀ fuel b n mt m1, ansi_c_dynstringarray_resize64 fuel a n mt = some (0, b, m1) →
      a.size < n → b.capacity = max a.capacity (smallest_block_multiple n)) := by
  obtain ⟨hcap, hlt⟩ := reachable64_invariant a ha
  refine ⟨⟨a.capacity / 10, ?_⟩, hlt, ?_, ?_, ?_, ?_⟩
  · simp only [DYNSTRINGARRAY_DEFAULT_CAPACITY]
    omega
  · intro b hs hgt
    have hb := (reachable64_invariant b (reachable64.step a b ha hs)).1
    refine ⟨(b.capacity - a.capacity) / 10, ?_, ?_⟩
    · omega
    · simp only [DYNSTRINGARRAY_DEFAULT_CAPACITY]
      omega
  · intro fuel b v mt m1 r h
    obtain ⟨_, _, hc, hz⟩ := push64_result fuel a b v mt m1 r h hcap hlt
    refine ⟨fun hgt => ?_, hz⟩
    rcases hc with hc | hc
    · omega
    · exact hc
  · intro fuel b i v mt m1 r h
    obtain ⟨_, _, hc, hz⟩ := insert64_result fuel a b i v mt m1 r h hcap hlt
    refine ⟨fun hgt => ?_, hz⟩
    rcases hc with hc | hc
    · omega
    · exact hc
  · intro fuel b n mt m1 h hn
    obtain ⟨_, _, _, hz⟩ := resize64_result fuel a b n mt m1 0 h hcap hlt
    exact hz hn rfl

/-- C21 on the full block of ten reached from create by ten pushes: its capacity is
1 * 10; the eleventh push and an insert at index 2 both return 0 and leave capacity 20;
a resize to 35 returns 0 and leaves capacity 40; for a resize to 2^64 - 2 the capacity
loop wraps around and exits at 2^64 - 2, which is no multiple of 10, and the call
yields no result, whatever the bound on the loop. -/
theorem capacity_multiple_of_block_witness :
    reachable64 full_example ∧ full_example.size = full_example.capacity ∧
    full_example.capacity = 10 ∧
    (ansi_c_dynstringarray_push64 2 full_example "k".toList tracker_all_ok).map
      (fun x => (x.1, x.2.1.capacity)) = some (0, 20) ∧
    (ansi_c_dynstringarray_insert64 2 full_example 2 "k".toList tracker_all_ok).map
      (fun x => (x.1, x.2.1.capacity)) = some (0, 20) ∧
    (ansi_c_dynstringarray_resize64 4 full_example 35 tracker_all_ok).map
      (fun x => (x.1, x.2.1.capacity)) = some (0, 40) ∧
    resize_capacity_loop64 3689348814741910323 full_example.capacity
      18446744073709551614 = some (18446744073709551614, true) ∧
    18446744073709551614 % 10 = 4 ∧
    (∀ fuel, ansi_c_dynstringarray_resize64 fuel full_example 18446744073709551614
      tracker_all_ok = none) ∧
    ((∃ k, full_example.capacity = k * DYNSTRINGARRAY_DEFAULT_CAPACITY) ∧
    full_example.capacity * SIZEOF_CHAR_PTR < SIZE_T_RANGE ∧
    (∀ b, op_step64 full_example b → full_example.capacity < b.capacity →
      ∃ k, 0 < k ∧ b.capacity = full_example.capacity + k * DYNSTRINGARRAY_DEFAULT_CAPACITY) ∧
    (∀ fuel b v mt m1 r,
      ansi_c_dynstringarray_push64 fuel full_example v mt = some (r, b, m1) →
      (full_example.capacity < b.capacity →
        full_example.size = full_example.capacity ∧
          b.capacity = full_example.capacity + DYNSTRINGARRAY_DEFAULT_CAPACITY) ∧
      (full_example.size = full_example.capacity → r = 0 →
        b.capacity = full_example.capacity + DYNSTRINGARRAY_DEFAULT_CAPACITY)) ∧
    (∀ fuel b i v mt m1 r,
      ansi_c_dynstringarray_insert64 fuel full_example i v mt = some (r, b, m1) →
      (full_example.capacity < b.capacity →
        full_example.size = full_example.capacity ∧
          b.capacity = full_example.capacity + DYNSTRINGARRAY_DEFAULT_CAPACITY) ∧
      (full_example.size = full_example.capacity → r = 0 →
        b.capacity = full_example.capacity + DYNSTRINGARRAY_DEFAULT_CAPACITY)) ∧
    (∀ fuel b n mt m1,
      ansi_c_dynstringarray_resize64 fuel full_example n mt = some (0, b, m1) →
      full_example.size < n →
      b.capacity = max full_example.capacity (smallest_block_multiple n))) :=
  ⟨full_example_reachable64, rfl, rfl, by rfl, by rfl, by rfl,
    resize_capacity_loop64_wrapped_exit, by decide,
    fun fuel =>
      resize64_beyond_bound fuel full_example 18446744073709551614 tracker_all_ok
        (by decide) (by decide) (by decide) (by decide) rfl,
    capacity_multiple_of_block full_example full_example_reachable64⟩

theorem resize_size_of_zero (arr a1 : DynStringArray) (n : Nat) (mt m1 : MemTrack)
    (h : ansi_c_dynstringarray_resize arr n mt = some (0, a1, m1)) : a1.size = n := by
  simp only [ansi_c_dynstringarray_resize] at h
  split at h
  · rename_i heq
    simp only [Option.some.injEq, Prod.mk.injEq] at h
    rw [← h.2.1]
    exact heq.symm
  · split at h
    · split at h
      · simp at h
      · simp only [Option.some.injEq, Prod.mk.injEq] at h
        rw [← h.2.1]
    · split at h
      · simp at h
      · simp at h
      · split at h
        · simp at h
        · simp only [Option.some.injEq, Prod.mk.injEq] at h
          rw [← h.2.1]

theorem push64_eq_push (fuel : Nat) (arr : DynStringArray) (v : CStr) (mt : MemTrack)
    (hsz : arr.size ≤ arr.capacity)
    (hcap : (arr.capacity + DYNSTRINGARRAY_DEFAULT_CAPACITY) * SIZEOF_CHAR_PTR < SIZE_T_RANGE)
    (hf : 1 < fuel) :
    ansi_c_dynstringarray_push64 fuel arr v mt = ansi_c_dynstringarray_push arr v mt := by
  simp only [DYNSTRINGARRAY_DEFAULT_CAPACITY, SIZEOF_CHAR_PTR, SIZE_T_RANGE] at hcap
  have hmod : (arr.size + 1) % SIZE_T_RANGE = arr.size + 1 := by
    simp only [SIZE_T_RANGE]
    omega
  simp only [ansi_c_dynstringarray_push64, ansi_c_dynstringarray_push, hmod]
  split
  · rfl
  · by_cases hfull : arr.size = arr.capacity
    · simp only [hfull, if_true]
      rw [resize64_eq_resize fuel arr (arr.capacity + 1) _
        (by simp only [SIZEOF_CHAR_PTR, SIZE_T_RANGE]; omega)
        (by simp only [DYNSTRINGARRAY_DEFAULT_CAPACITY, SIZEOF_CHAR_PTR, SIZE_T_RANGE]; omega)
        (by omega)]
      cases hres : ansi_c_dynstringarray_resize arr (arr.capacity + 1)
          (STRDUP mt v.length v arr.data_object_id).2 with
      | none => rfl
      | some x =>
        obtain ⟨r, arr1, mt1⟩ := x
        simp only []
        by_cases hr : r = 0
        · subst hr
          have hs1 := resize_size_of_zero _ _ _ _ _ hres
          have hidx : (arr1.size + (SIZE_T_RANGE - 1)) % SIZE_T_RANGE = arr1.size - 1 := by
            simp only [SIZE_T_RANGE]
            omega
          simp only [hidx]
        · simp only [ne_eq, hr, not_false_eq_true, if_true]
    · have hidx : (arr.size + 1 + (SIZE_T_RANGE - 1)) % SIZE_T_RANGE = arr.size + 1 - 1 := by
        simp only [SIZE_T_RANGE]
        omega
      simp only [hfull, if_false, ne_eq, not_true_eq_false, hidx]

theorem insert64_eq_insert (fuel : Nat) (arr : DynStringArray) (i : Nat) (v : CStr)
    (mt : MemTrack) (hsz : arr.size ≤ arr.capacity)
    (hcap : (arr.capacity + DYNSTRINGARRAY_DEFAULT_CAPACITY) * SIZEOF_CHAR_PTR < SIZE_T_RANGE)
    (hf : 1 < fuel) :
    ansi_c_dynstringarray_insert64 fuel arr i v mt =
      ansi_c_dynstringarray_insert arr i v mt := by
  have hcap2 := hcap
  simp only [DYNSTRINGARRAY_DEFAULT_CAPACITY, SIZEOF_CHAR_PTR, SIZE_T_RANGE] at hcap2
  have hmod : (arr.size + 1) % SIZE_T_RANGE = arr.size + 1 := by
    simp only [SIZE_T_RANGE]
    omega
  have hcnt : wrapped_slot_count (arr.size - i) = arr.size - i := by
    apply wrapped_slot_count_small
    simp only [SIZEOF_CHAR_PTR, SIZE_T_RANGE]
    omega
  have hnc : (arr.capacity + DYNSTRINGARRAY_DEFAULT_CAPACITY) % SIZE_T_RANGE =
      arr.capacity + DYNSTRINGARRAY_DEFAULT_CAPACITY := by
    simp only [DYNSTRINGARRAY_DEFAULT_CAPACITY, SIZE_T_RANGE]
    omega
  have hslots : wrapped_slot_count (arr.capacity + DYNSTRINGARRAY_DEFAULT_CAPACITY) =
      arr.capacity + DYNSTRINGARRAY_DEFAULT_CAPACITY := wrapped_slot_count_small _ hcap
  unfold ansi_c_dynstringarray_insert64 ansi_c_dynstringarray_insert
  split
  · rfl
  · split
    · exact push64_eq_push fuel arr v mt hsz hcap hf
    · by_cases hfull : arr.size = arr.capacity
      · simp only [hfull, if_true, hnc, hslots]
        cases hre : ansi_c_mem_track_realloc_slots mt arr.data
            (arr.capacity + DYNSTRINGARRAY_DEFAULT_CAPACITY) arr.data_object_id with
        | none => rfl
        | some y =>
          obtain ⟨ond, m2⟩ := y
          cases ond with
          | none => rfl
          | some nd =>
            rw [hfull] at hcnt hmod
            simp only [ne_eq, not_true_eq_false, if_false, hcnt, hmod]
      · simp only [hfull, if_false, ne_eq, not_true_eq_false, hcnt, hmod]

end AnsiCDynStringArray
